import Mathlib

/-!
# Verification of an immutable radix tree (go-immutable-radix)

This file is a shallow embedding, in Lean 4, of the Go sources of
`outofforest/go-immutable-radix`:

* `iradix.go` — the transactional mutation engine (`Txn`, `Insert`, `Delete`,
  `writeNode`, `mergeChild`, `Clone`, `Commit`),
* the node model (`Node`, `edge`, `addEdge`, `replaceEdge`, `getEdge`,
  `delEdge`, `getLowerBoundEdge`, the binary `search`, `Get`),
* `iter.go` — the forward iterator (`Next`, `SeekPrefix`, `SeekLowerBound`,
  `findMin`),
* `reverse_iter.go` — the reverse iterator (`Previous`).

The repository contains the node model in two equivalent flavours: a generic
one (`Node[T]` with `value *T`; presence of a stored value is `value != nil`)
and a non-generic one (`Node` with an inline `leaf leafNode`; presence is
`leaf.key != nil`).  The embedding uses `value : Option V` for both: `none`
is the absent leaf (`nil` pointer / `key == nil`), `some v` is a present
value.  Byte strings are `List Nat` (Go `[]byte`; none of the algorithms
depends on the 256 bound of a byte).  Go's `nil` slice and the empty slice
both embed to `[]`, which matches the code's use (`len`, indexing,
sub-slicing only).

Three models appear below:

1. a **pure value model** of the tree and all operations, in which the
   copy-on-write pointer writes of the Go code (`*n = nc`,
   `nc.edges[idx].node = newChild`, …) become functional record updates —
   this is the standard value semantics of the data structure and is used
   for the functional-correctness claims;
2. a **slice model** of `Insert`, in which byte slices are kept as
   (buffer id, offset, length) descriptors resolved through a buffer
   environment, exactly as Go slice headers alias a backing array — used for
   the prefix-aliasing claim;
3. a **heap model**, in which nodes live at addresses in an explicit store
   and the in-place mutations of owned (same-revision) nodes are real store
   writes — used for the snapshot-isolation and clone-isolation claims.
   A representation theorem ties the heap model to the pure model.
-/

namespace IRadix

/-! ## Byte-string primitives (`bytes.Compare`, `bytes.HasPrefix`,
`longestPrefix`, `concat`) -/

/-- Go `bytes.Compare`: lexicographic comparison, a shorter string that is a
prefix of a longer one is smaller. -/
def bcmp : List Nat → List Nat → Ordering
  | [], [] => .eq
  | [], _ :: _ => .lt
  | _ :: _, [] => .gt
  | a :: as, b :: bs => if a < b then .lt else if b < a then .gt else bcmp as bs

/-- `x` is strictly smaller than `y` in the order of `bytes.Compare`. -/
def keyLt (x y : List Nat) : Prop := bcmp x y = .lt

/-- `x ≤ y` in the order of `bytes.Compare`. -/
def keyLe (x y : List Nat) : Prop := bcmp x y ≠ .gt

instance : DecidablePred (fun p : List Nat × List Nat => keyLt p.1 p.2) := by
  intro p; unfold keyLt; infer_instance

instance (x y : List Nat) : Decidable (keyLt x y) := by unfold keyLt; infer_instance

instance (x y : List Nat) : Decidable (keyLe x y) := by unfold keyLe; infer_instance

/-- Go `bytes.HasPrefix s p`: `p` is a prefix of `s`. -/
def hasPref : List Nat → List Nat → Bool
  | _, [] => true
  | [], _ :: _ => false
  | a :: as, b :: bs => a == b && hasPref as bs

/-- Go `longestPrefix k1 k2` (iradix.go): length of the longest common
prefix. -/
def longestPref : List Nat → List Nat → Nat
  | a :: as, b :: bs => if a = b then longestPref as bs + 1 else 0
  | _, _ => 0

/-- Go `concat a b` (iradix.go): allocates a fresh buffer holding `a ++ b`;
in the value model this is just append. -/
def concatB (a b : List Nat) : List Nat := a ++ b

theorem bcmp_self (x : List Nat) : bcmp x x = .eq := by
  induction x with
  | nil => rfl
  | cons a as ih => simp [bcmp, ih]

theorem bcmp_eq_iff (x y : List Nat) : bcmp x y = .eq ↔ x = y := by
  induction x generalizing y with
  | nil => cases y <;> simp [bcmp]
  | cons a as ih =>
    cases y with
    | nil => simp [bcmp]
    | cons b bs =>
      by_cases h1 : a < b
      · simp [bcmp, h1]
        intro h; omega
      · by_cases h2 : b < a
        · simp [bcmp, h1, h2]
          intro h; omega
        · have hab : a = b := by omega
          simp [bcmp, h1, h2, hab, ih]

theorem bcmp_append_left (p x y : List Nat) :
    bcmp (p ++ x) (p ++ y) = bcmp x y := by
  induction p with
  | nil => rfl
  | cons a as ih => simp [bcmp, ih]

theorem keyLe_refl (x : List Nat) : keyLe x x := by
  simp [keyLe, bcmp_self]

theorem keyLt_of_bcmp_lt {x y : List Nat} (h : bcmp x y = .lt) : keyLt x y := h

/-- A proper extension is strictly greater. -/
theorem keyLt_append {x : List Nat} {t : List Nat} (ht : t ≠ []) :
    keyLt x (x ++ t) := by
  induction x with
  | nil => cases t with
    | nil => exact absurd rfl ht
    | cons a as => simp [keyLt, bcmp]
  | cons a as ih => simpa [keyLt, bcmp] using ih

/-! ## The node model

`Node` from the source: `revision`, an optional stored value, the edge
`prefix` bytes consumed when reaching this node (field `pref` here), and the
label-sorted edge list.  An `edge {label byte; node *Node}` is a pair
`(label, child)`. -/

inductive Node (V : Type) : Type where
  | mk (revision : Nat) (value : Option V) (pref : List Nat)
      (edges : List (Nat × Node V)) : Node V

namespace Node

variable {V : Type}

def revision : Node V → Nat
  | .mk r _ _ _ => r

def value : Node V → Option V
  | .mk _ v _ _ => v

def pref : Node V → List Nat
  | .mk _ _ p _ => p

def edges : Node V → List (Nat × Node V)
  | .mk _ _ _ es => es

@[simp] theorem revision_mk (r : Nat) (v : Option V) (p : List Nat)
    (es : List (Nat × Node V)) : (Node.mk r v p es).revision = r := rfl

@[simp] theorem value_mk (r : Nat) (v : Option V) (p : List Nat)
    (es : List (Nat × Node V)) : (Node.mk r v p es).value = v := rfl

@[simp] theorem pref_mk (r : Nat) (v : Option V) (p : List Nat)
    (es : List (Nat × Node V)) : (Node.mk r v p es).pref = p := rfl

@[simp] theorem edges_mk (r : Nat) (v : Option V) (p : List Nat)
    (es : List (Nat × Node V)) : (Node.mk r v p es).edges = es := rfl

theorem eta (n : Node V) :
    Node.mk n.revision n.value n.pref n.edges = n := by
  cases n; rfl

theorem sizeOf_child_lt {l : Nat} {c : Node V} {n : Node V}
    (h : (l, c) ∈ n.edges) : sizeOf c < sizeOf n := by
  cases n with
  | mk r v p es =>
    have h1 : sizeOf (l, c) < sizeOf es := List.sizeOf_lt_of_mem h
    simp only [edges_mk] at h
    simp only [Node.mk.sizeOf_spec]
    simp only [Prod.mk.sizeOf_spec] at h1
    omega

end Node

/-- `New()`: the empty tree — no value, no edges, revision 0 (the Go zero
value of `Node`). -/
def emptyNode {V : Type} : Node V := .mk 0 none [] []

/-! ## Binary search over edge labels (`search` in the source) -/

/-- The label of entry `m` of an edge list (out-of-range reads return 0;
the loop below never reads out of range). -/
def labAt {V : Type} (es : List (Nat × Node V)) (m : Nat) : Nat :=
  ((es.getD m (0, emptyNode))).fst

/-- The half-interval loop of `search`: invariant `f(i-1) == false`,
`f(j) == true` where `f(h)` is `label ≤ es[h].label`. -/
def searchAux {V : Type} (es : List (Nat × Node V)) (label : Nat)
    (i j : Nat) : Nat :=
  if h : i < j then
    let m := (i + j) / 2
    if labAt es m < label then searchAux es label (m + 1) j
    else searchAux es label i m
  else i
  termination_by j - i
  decreasing_by
    · omega
    · omega

/-- Go `search(es, label)`: index of the first edge whose label is
`≥ label` (length of the list if none), by binary search. -/
def searchE {V : Type} (es : List (Nat × Node V)) (label : Nat) : Nat :=
  searchAux es label 0 es.length

theorem searchAux_ge_left {V : Type} (es : List (Nat × Node V)) (label : Nat)
    (i j : Nat) : i ≤ searchAux es label i j := by
  by_cases h : i < j
  · rw [searchAux]
    simp only [h, dite_true]
    by_cases h2 : labAt es ((i + j) / 2) < label
    · simp only [h2, if_true]
      have := searchAux_ge_left es label ((i + j) / 2 + 1) j
      omega
    · simp only [h2, if_false]
      exact searchAux_ge_left es label i ((i + j) / 2)
  · rw [searchAux]; simp [h]
  termination_by j - i
  decreasing_by
    · omega
    · omega

theorem searchAux_le_right {V : Type} (es : List (Nat × Node V)) (label : Nat)
    (i j : Nat) (hij : i ≤ j) : searchAux es label i j ≤ j := by
  by_cases h : i < j
  · rw [searchAux]
    simp only [h, dite_true]
    by_cases h2 : labAt es ((i + j) / 2) < label
    · simp only [h2, if_true]
      exact searchAux_le_right es label ((i + j) / 2 + 1) j (by omega)
    · simp only [h2, if_false]
      have := searchAux_le_right es label i ((i + j) / 2) (by omega)
      omega
  · rw [searchAux]; simp [h]; omega
  termination_by j - i
  decreasing_by
    · omega
    · omega

/-- Boundary property of the loop: entries strictly before the low end that
were probed stay `< label`, entries from the high end on stay `≥ label`.
Stated for a sorted label list this gives the full lower-bound property. -/
theorem searchAux_spec {V : Type} (es : List (Nat × Node V)) (label : Nat)
    (i j : Nat) (hij : i ≤ j) (hj : j ≤ es.length)
    (hsorted : (es.map Prod.fst).Pairwise (· < ·))
    (hlo : ∀ k, k < i → labAt es k < label)
    (hhi : ∀ k, j ≤ k → k < es.length → ¬ labAt es k < label) :
    (∀ k, k < searchAux es label i j → labAt es k < label) ∧
    (∀ k, searchAux es label i j ≤ k → k < es.length → ¬ labAt es k < label) := by
  by_cases h : i < j
  · rw [searchAux]
    simp only [h, dite_true]
    by_cases h2 : labAt es ((i + j) / 2) < label
    · simp only [h2, if_true]
      refine searchAux_spec es label ((i + j) / 2 + 1) j (by omega) hj hsorted ?_ hhi
      intro k hk
      rcases Nat.lt_or_ge k i with hk2 | hk2
      · exact hlo k hk2
      · -- i ≤ k ≤ (i+j)/2 < j ≤ len: use sortedness from k to the probe
        have hkm : k ≤ (i + j) / 2 := by omega
        rcases Nat.eq_or_lt_of_le hkm with rfl | hkm2
        · exact h2
        · have hmlen : (i + j) / 2 < es.length := by omega
          have hklen : k < es.length := by omega
          have hlt : labAt es k < labAt es ((i + j) / 2) := by
            have := List.pairwise_iff_get.mp hsorted
              ⟨k, by simpa using hklen⟩ ⟨(i + j) / 2, by simpa using hmlen⟩ hkm2
            simpa [labAt, List.getD_eq_getElem?_getD, List.getElem?_eq_getElem,
              hklen, hmlen] using this
          omega
    · simp only [h2, if_false]
      refine searchAux_spec es label i ((i + j) / 2) (by omega) (by omega) hsorted hlo ?_
      intro k hk hklen h3
      rcases Nat.eq_or_lt_of_le hk with rfl | hk2
      · exact h2 h3
      · -- probe < k, sortedness gives labAt probe ≤ ... < label contradicting h2
        have hmlen : (i + j) / 2 < es.length := by omega
        have hlt : labAt es ((i + j) / 2) < labAt es k := by
          have := List.pairwise_iff_get.mp hsorted
            ⟨(i + j) / 2, by simpa using hmlen⟩ ⟨k, by simpa using hklen⟩ hk2
          simpa [labAt, List.getD_eq_getElem?_getD, List.getElem?_eq_getElem,
            hklen, hmlen] using this
        omega
  · rw [searchAux]
    simp only [h, dite_false]
    have hij' : i = j := by omega
    subst hij'
    exact ⟨hlo, hhi⟩
  termination_by j - i
  decreasing_by
    · omega
    · omega

/-- The lower-bound specification of `search` on a sorted edge list. -/
theorem searchE_spec {V : Type} (es : List (Nat × Node V)) (label : Nat)
    (hsorted : (es.map Prod.fst).Pairwise (· < ·)) :
    searchE es label ≤ es.length ∧
    (∀ k, k < searchE es label → labAt es k < label) ∧
    (∀ k, searchE es label ≤ k → k < es.length → label ≤ labAt es k) := by
  have hle := searchAux_le_right es label 0 es.length (by omega)
  have hspec := searchAux_spec es label 0 es.length (by omega) (le_refl _) hsorted
    (by omega) (by omega)
  exact ⟨hle, hspec.1, fun k h1 h2 => by have := hspec.2 k h1 h2; omega⟩


/-! ## Edge primitives (`getEdge`, `addEdge`, `replaceEdge`, `delEdge`,
`getLowerBoundEdge`) -/

namespace Node

variable {V : Type}

/-- Go `getEdge(label)`: binary search; returns the index and the child on an
exact label match, `(-1, nil)` — here `none` — otherwise. -/
def getEdge (n : Node V) (label : Nat) : Option (Nat × Node V) :=
  let es := n.edges
  let idx := searchE es label
  if h : idx < es.length then
    if (es.get ⟨idx, h⟩).fst = label then some (idx, (es.get ⟨idx, h⟩).snd)
    else none
  else none

/-- Go `addEdge(e)`: append, then shift the tail right by one so that `e`
lands at the binary-search index — i.e. insertion at the lower-bound index. -/
def addEdge (n : Node V) (e : Nat × Node V) : Node V :=
  let idx := searchE n.edges e.fst
  Node.mk n.revision n.value n.pref
    (n.edges.take idx ++ e :: n.edges.drop idx)

/-- Go `replaceEdge(e)`: replace the child at the edge whose label is
`e.label`; `panic("replacing missing edge")` — modelled as `none` — if the
binary search does not land on that label. -/
def replaceEdge (n : Node V) (e : Nat × Node V) : Option (Node V) :=
  let es := n.edges
  let idx := searchE es e.fst
  if h : idx < es.length then
    if (es.get ⟨idx, h⟩).fst = e.fst then
      some (Node.mk n.revision n.value n.pref (es.set idx e))
    else none
  else none

/-- `replaceEdge` as used inside `Insert`: the edge is always present there
(the same binary search just found it), so the panic branch is unreachable
and is mapped to the unchanged node. -/
def replaceEdgeT (n : Node V) (e : Nat × Node V) : Node V :=
  (n.replaceEdge e).getD n

/-- Go `delEdge(label)`: remove the edge with that label, shifting the tail;
no-op when absent. -/
def delEdge (n : Node V) (label : Nat) : Node V :=
  let es := n.edges
  let idx := searchE es label
  if h : idx < es.length then
    if (es.get ⟨idx, h⟩).fst = label then
      Node.mk n.revision n.value n.pref (es.eraseIdx idx)
    else n
  else n

/-- Go `getLowerBoundEdge(label)`: the first edge whose label is `≥ label`,
even if not an exact match. -/
def getLowerBoundEdge (n : Node V) (label : Nat) : Option (Nat × Node V) :=
  let idx := searchE n.edges label
  if h : idx < n.edges.length then some (idx, (n.edges.get ⟨idx, h⟩).snd)
  else none

/-- The pointer write `nc.edges[idx].node = newChild` (label kept). -/
def setEdgeNode (n : Node V) (idx : Nat) (c : Node V) : Node V :=
  match n.edges.get? idx with
  | some (l, _) => Node.mk n.revision n.value n.pref (n.edges.set idx (l, c))
  | none => n

/-- The field write `nc.leaf = …` / `n.value = …`. -/
def setValue (n : Node V) (v : Option V) : Node V :=
  Node.mk n.revision v n.pref n.edges

/-- The field write `modChild.prefix = …`. -/
def setPref (n : Node V) (p : List Nat) : Node V :=
  Node.mk n.revision n.value p n.edges

@[simp] theorem setValue_value (n : Node V) (v : Option V) :
    (n.setValue v).value = v := rfl

@[simp] theorem setValue_edges (n : Node V) (v : Option V) :
    (n.setValue v).edges = n.edges := rfl

@[simp] theorem setValue_pref (n : Node V) (v : Option V) :
    (n.setValue v).pref = n.pref := rfl

@[simp] theorem setPref_pref (n : Node V) (p : List Nat) :
    (n.setPref p).pref = p := rfl

@[simp] theorem setPref_value (n : Node V) (p : List Nat) :
    (n.setPref p).value = n.value := rfl

@[simp] theorem setPref_edges (n : Node V) (p : List Nat) :
    (n.setPref p).edges = n.edges := rfl

/-- Go `Get(k)` — the exact-key lookup loop shared by both node flavours:
consume the key along matching edge prefixes; at exhaustion return the
node's value (`leaf.val` when `leaf.key != nil` in the non-generic flavour,
`value` pointer in the generic one). -/
def get (n : Node V) (s : List Nat) : Option V :=
  match s with
  | [] => n.value
  | b :: _ =>
    match h : n.getEdge b with
    | none => none
    | some (_, c) =>
      if hasPref s c.pref then get c (s.drop c.pref.length)
      else none
  termination_by sizeOf n
  decreasing_by
    · -- the matched edge's child is a member of the edge list
      rename_i hlt
      have hmem : (b, c) ∈ n.edges := by
        unfold getEdge at h
        simp only at h
        split at h
        · split at h
          · rename_i h1 h2
            have := List.get_mem n.edges _ h1
            cases hx : (n.edges.get ⟨searchE n.edges b, h1⟩) with
            | mk lf nd =>
              simp only [hx] at h h2 this
              cases h
              rw [← h2]
              exact this
          · cases h
        · cases h
      exact Node.sizeOf_child_lt hmem

end Node


namespace Node

variable {V : Type}

theorem getEdge_mem {n : Node V} {b i : Nat} {c : Node V}
    (h : n.getEdge b = some (i, c)) : (b, c) ∈ n.edges := by
  unfold getEdge at h
  simp only at h
  split at h
  · split at h
    · rename_i h1 h2
      have hmem := List.get_mem n.edges _ h1
      cases hx : (n.edges.get ⟨searchE n.edges b, h1⟩) with
      | mk lf nd =>
        simp only [hx] at h h2 hmem
        cases h
        rw [← h2]
        exact hmem
    · cases h
  · cases h

end Node

/-! ## The transaction engine (iradix.go) -/

variable {V : Type}

/-- Go `Txn.writeNode(n)`: reuse an already-owned node (same revision),
otherwise allocate a copy stamped with the transaction's revision.  In the
value model both branches denote the same tree contents. -/
def writeNode (rv : Nat) (n : Node V) : Node V :=
  if n.revision = rv then n else Node.mk rv n.value n.pref n.edges

@[simp] theorem writeNode_edges (rv : Nat) (n : Node V) :
    (writeNode rv n).edges = n.edges := by
  unfold writeNode; split <;> simp

@[simp] theorem writeNode_value (rv : Nat) (n : Node V) :
    (writeNode rv n).value = n.value := by
  unfold writeNode; split <;> simp

@[simp] theorem writeNode_pref (rv : Nat) (n : Node V) :
    (writeNode rv n).pref = n.pref := by
  unfold writeNode; split <;> simp

/-- Go `Txn.mergeChild(n)`: collapse `n` with its single child: concatenate
prefixes, take the child's leaf and edges.  Only called when
`len(n.edges) == 1`; on an impossible empty edge list (`n.edges[0]` would
panic) the node is returned unchanged. -/
def mergeChild (n : Node V) : Node V :=
  match n.edges with
  | (_, child) :: _ =>
    Node.mk n.revision child.value (concatB n.pref child.pref) child.edges
  | [] => n

/-- Go `Txn.Insert` (iradix.go:50), written recursively: the iterative
original holds a pointer `n` to the parent's edge slot and stores the cloned
node back through it (`*n = nc`, `n = &nc.edges[idx].node`); here the
recursion returns the new child and the parent re-attaches it
(`setEdgeNode`).  In the split arm the Go code mutates `splitNode` and
`modChild` through pointers after hooking them into `nc`; the value model
builds the finished `splitNode` first and then replaces the edge — the same
final tree.  The stored `leafNode{key,val}` materialises as `value := some v`
(`key` is exactly the inserted key and only witnesses presence).  Returns the
new node and the previous value. -/
def txInsert (rv : Nat) (n : Node V) (s : List Nat) (v : V) :
    Node V × Option V :=
  let nc := writeNode rv n
  match s with
  | [] => (nc.setValue (some v), nc.value)
  | b :: _ =>
    match h : nc.getEdge b with
    | none =>
      (nc.addEdge (b, Node.mk rv (some v) s []), none)
    | some (idx, child) =>
      let common := longestPref s child.pref
      if common = child.pref.length then
        let r := txInsert rv child (s.drop common) v
        (nc.setEdgeNode idx r.1, r.2)
      else
        let modChild := (writeNode rv child).setPref (child.pref.drop common)
        let splitN :=
          (Node.mk rv none (s.take common)
            (([] : List (Nat × Node V)))).addEdge
            (child.pref.getD common 0, modChild)
        match s.drop common with
        | [] => (nc.replaceEdgeT (b, splitN.setValue (some v)), none)
        | b2 :: t2 =>
          (nc.replaceEdgeT
            (b, splitN.addEdge (b2, Node.mk rv (some v) (b2 :: t2) [])), none)
  termination_by sizeOf n
  decreasing_by
    · have hmem : (b, child) ∈ n.edges := by
        have := Node.getEdge_mem h
        rwa [writeNode_edges] at this
      exact Node.sizeOf_child_lt hmem

/-- Go `Txn.delete` (iradix.go:221), recursive exactly like the original;
`isRoot` captures the pointer comparison `n != t.root` (the top-level call
passes the root).  Returns `none` when nothing changed (`newRoot == nil`),
otherwise the replacement node and the removed value. -/
def txDelete (rv : Nat) (isRoot : Bool) (n : Node V) (s : List Nat) :
    Option (Node V × V) :=
  match s with
  | [] =>
    match n.value with
    | none => none
    | some old =>
      let nc := (writeNode rv n).setValue none
      let nc2 := if !isRoot && nc.edges.length == 1 then mergeChild nc else nc
      some (nc2, old)
  | b :: _ =>
    match h : n.getEdge b with
    | none => none
    | some (idx, child) =>
      if hasPref s child.pref then
        match txDelete rv false child (s.drop child.pref.length) with
        | none => none
        | some (newChild, old) =>
          let nc := writeNode rv n
          if newChild.value.isNone && newChild.edges.isEmpty then
            let nc2 := nc.delEdge b
            let nc3 :=
              if !isRoot && nc2.edges.length == 1 && nc2.value.isNone then
                mergeChild nc2
              else nc2
            some (nc3, old)
          else
            some (nc.setEdgeNode idx newChild, old)
      else none
  termination_by sizeOf n
  decreasing_by
    · exact Node.sizeOf_child_lt (Node.getEdge_mem h)

/-- Go `Txn`: the revision stamped on nodes created by this transaction, and
the in-progress root. -/
structure Txn (V : Type) : Type where
  revision : Nat
  root : Node V

/-- Go `NewTxn(root)`. -/
def NewTxn (root : Node V) : Txn V := ⟨root.revision + 1, root⟩

/-- Go `Txn.Get`. -/
def Txn.get (t : Txn V) (k : List Nat) : Option V := t.root.get k

/-- Go `Txn.Insert` at the transaction level (`k == nil` is already `[]`). -/
def Txn.insert (t : Txn V) (k : List Nat) (v : V) : Txn V × Option V :=
  let r := txInsert t.revision t.root k v
  (⟨t.revision, r.1⟩, r.2)

/-- Go `Txn.Delete`: replace the root only when the recursive delete reports
a change. -/
def Txn.delete (t : Txn V) (k : List Nat) : Txn V × Option V :=
  match txDelete t.revision true t.root k with
  | none => (t, none)
  | some (nr, old) => (⟨t.revision, nr⟩, some old)

/-- Go `Txn.Commit`. -/
def Txn.commit (t : Txn V) : Node V := t.root

/-- Go `Txn.Clone`: bump the original transaction's revision, and hand the
clone a transaction with that same bumped revision and the shared root.
Returns (original after the bump, the clone). -/
def Txn.clone (t : Txn V) : Txn V × Txn V :=
  let t1 : Txn V := ⟨t.revision + 1, t.root⟩
  (t1, ⟨t1.revision, t1.root⟩)

/-! ## Operation sequences through transactions -/

/-- An `Insert` or `Delete` request. -/
inductive Op (V : Type) : Type where
  | ins (k : List Nat) (v : V)
  | del (k : List Nat)

/-- Apply one operation inside a transaction. -/
def applyOp (t : Txn V) : Op V → Txn V
  | .ins k v => (t.insert k v).1
  | .del k => (t.delete k).1

/-- Run one transaction over a committed root: `NewTxn`, the operations in
order, `Commit`. -/
def runTxn (n : Node V) (ops : List (Op V)) : Node V :=
  (ops.foldl applyOp (NewTxn n)).commit

/-- Run a sequence of transactions, each a batch of operations. -/
def runTxns (n : Node V) (bs : List (List (Op V))) : Node V :=
  bs.foldl runTxn n

/-- Run a sequence of transactions starting from the empty tree. -/
def runFromEmpty (bs : List (List (Op V))) : Node V := runTxns emptyNode bs

/-- The reference semantics of one operation on a finite map. -/
def specApply (m : List Nat → Option V) : Op V → (List Nat → Option V)
  | .ins k v => fun q => if q = k then some v else m q
  | .del k => fun q => if q = k then none else m q

/-- The reference semantics of a sequence of transactions: the most recent
insert of a key not undone by a later delete wins. -/
def specOf (bs : List (List (Op V))) : List Nat → Option V :=
  (bs.flatMap id).foldl specApply (fun _ => none)

/-! ## Lemmas about the byte-string primitives -/

theorem hasPref_iff (s p : List Nat) : hasPref s p = true ↔ ∃ t, s = p ++ t := by
  induction p generalizing s with
  | nil => simp [hasPref]
  | cons b bs ih =>
    cases s with
    | nil => simp [hasPref]
    | cons a as =>
      simp only [hasPref, Bool.and_eq_true, beq_iff_eq, ih, List.cons_append]
      constructor
      · rintro ⟨rfl, t, rfl⟩; exact ⟨t, rfl⟩
      · rintro ⟨t, h⟩
        cases h
        exact ⟨rfl, t, rfl⟩

theorem hasPref_append (p t : List Nat) : hasPref (p ++ t) p = true :=
  (hasPref_iff _ _).mpr ⟨t, rfl⟩

theorem hasPref_refl (p : List Nat) : hasPref p p = true := by
  simpa using hasPref_append p []

theorem append_drop_of_hasPref {s p : List Nat} (h : hasPref s p = true) :
    p ++ s.drop p.length = s := by
  obtain ⟨t, rfl⟩ := (hasPref_iff s p).mp h
  simp

theorem drop_of_hasPref {s p t : List Nat} (h : s = p ++ t) :
    s.drop p.length = t := by
  subst h; simp

theorem longestPref_le_left (a b : List Nat) : longestPref a b ≤ a.length := by
  induction a generalizing b with
  | nil => simp [longestPref]
  | cons x xs ih =>
    cases b with
    | nil => simp [longestPref]
    | cons y ys =>
      by_cases h : x = y
      · simp only [longestPref, h, if_true, List.length_cons]
        have := ih ys
        omega
      · simp [longestPref, h]

theorem longestPref_le_right (a b : List Nat) : longestPref a b ≤ b.length := by
  induction a generalizing b with
  | nil => simp [longestPref]
  | cons x xs ih =>
    cases b with
    | nil => simp [longestPref]
    | cons y ys =>
      by_cases h : x = y
      · simp only [longestPref, h, if_true, List.length_cons]
        have := ih ys
        omega
      · simp [longestPref, h]

theorem longestPref_take (a b : List Nat) :
    a.take (longestPref a b) = b.take (longestPref a b) := by
  induction a generalizing b with
  | nil => simp [longestPref]
  | cons x xs ih =>
    cases b with
    | nil => simp [longestPref]
    | cons y ys =>
      by_cases h : x = y
      · simp only [longestPref, h, if_true, List.take_succ_cons]
        rw [ih ys]
      · simp [longestPref, h]

theorem longestPref_append (p t : List Nat) :
    longestPref (p ++ t) p = p.length := by
  induction p with
  | nil => simp [longestPref]
  | cons x xs ih =>
    simpa [longestPref] using ih

theorem longestPref_eq_of_hasPref {s p : List Nat} (h : hasPref s p = true) :
    longestPref s p = p.length := by
  obtain ⟨t, rfl⟩ := (hasPref_iff s p).mp h
  exact longestPref_append p t

theorem hasPref_of_longestPref_eq {s p : List Nat}
    (h : longestPref s p = p.length) : hasPref s p = true := by
  rw [hasPref_iff]
  have h1 := longestPref_le_left s p
  have h2 := longestPref_take s p
  rw [h] at h1 h2
  simp only [List.take_length] at h2
  have h3 := List.take_append_drop p.length s
  rw [h2] at h3
  exact ⟨s.drop p.length, h3.symm⟩

theorem longestPref_mismatch {a b : List Nat}
    (ha : longestPref a b < a.length) (hb : longestPref a b < b.length) :
    a.getD (longestPref a b) 0 ≠ b.getD (longestPref a b) 0 := by
  induction a generalizing b with
  | nil => simp at ha
  | cons x xs ih =>
    cases b with
    | nil => simp at hb
    | cons y ys =>
      by_cases h : x = y
      · simp only [longestPref, h, if_true] at ha hb ⊢
        simp only [List.length_cons] at ha hb
        have := ih (b := ys) (by omega) (by omega)
        simpa using this
      · simpa [longestPref, h] using h

theorem longestPref_pos_of_head {x : Nat} {xs ys : List Nat} :
    0 < longestPref (x :: xs) (x :: ys) := by
  simp [longestPref]

/-- Keys under distinct first bytes compare by those bytes. -/
theorem bcmp_of_head_lt {a b : Nat} {x y : List Nat} (h : a < b) :
    bcmp (a :: x) (b :: y) = .lt := by
  simp [bcmp, h]

theorem keyLt_trans {x y z : List Nat} : keyLt x y → keyLt y z → keyLt x z := by
  unfold keyLt
  induction x generalizing y z with
  | nil =>
    intro h1 h2
    cases y with
    | nil => simp [bcmp] at h1
    | cons b bs =>
      cases z with
      | nil => simp [bcmp] at h2
      | cons c cs => simp [bcmp]
  | cons a as ih =>
    intro h1 h2
    cases y with
    | nil => simp [bcmp] at h1
    | cons b bs =>
      cases z with
      | nil => simp [bcmp] at h2
      | cons c cs =>
        rcases Nat.lt_trichotomy a b with hab | hab | hab
        · rcases Nat.lt_trichotomy b c with hbc | hbc | hbc
          · have hac : a < c := by omega
            simp [bcmp, hac]
          · subst hbc
            simp [bcmp, hab]
          · have hnbc : ¬ b < c := by omega
            simp [bcmp, hnbc, hbc] at h2
        · subst hab
          rcases Nat.lt_trichotomy a c with hbc | hbc | hbc
          · simp [bcmp, hbc]
          · subst hbc
            simp only [bcmp, lt_irrefl, if_false] at h1 h2 ⊢
            exact ih h1 h2
          · have hnbc : ¬ a < c := by omega
            simp [bcmp, hnbc, hbc] at h2
        · have hnab : ¬ a < b := by omega
          simp [bcmp, hnab, hab] at h1

instance : IsTrans (List Nat) keyLt := ⟨fun _ _ _ => keyLt_trans⟩

theorem keyLt_irrefl (x : List Nat) : ¬ keyLt x x := by
  simp [keyLt, bcmp_self]

theorem keyLe_of_keyLt {x y : List Nat} (h : keyLt x y) : keyLe x y := by
  unfold keyLt at h; unfold keyLe; rw [h]; simp

theorem keyLe_iff {x y : List Nat} : keyLe x y ↔ x = y ∨ keyLt x y := by
  constructor
  · intro h
    by_cases hxy : x = y
    · exact Or.inl hxy
    · refine Or.inr ?_
      unfold keyLe at h
      unfold keyLt
      cases hb : bcmp x y with
      | lt => rfl
      | eq => exact absurd ((bcmp_eq_iff x y).mp hb) hxy
      | gt => exact absurd hb h
  · rintro (rfl | h)
    · exact keyLe_refl x
    · exact keyLe_of_keyLt h

/-- `p` a proper prefix of `q` gives `p < q`. -/
theorem keyLt_of_proper_pref {p t : List Nat} (ht : t ≠ []) :
    keyLt p (p ++ t) := keyLt_append ht

theorem keyLt_append_right {p x y : List Nat} (h : keyLt x y) :
    keyLt (p ++ x) (p ++ y) := by
  unfold keyLt
  rw [bcmp_append_left]
  exact h

theorem keyLe_append_right {p x y : List Nat} (h : keyLe x y) :
    keyLe (p ++ x) (p ++ y) := by
  unfold keyLe
  rw [bcmp_append_left]
  exact h

theorem keyLe_append_cancel {p x y : List Nat} (h : keyLe (p ++ x) (p ++ y)) :
    keyLe x y := by
  unfold keyLe at h ⊢
  rwa [bcmp_append_left] at h

/-! ## Behaviour of the edge primitives -/

theorem labAt_eq {V : Type} (es : List (Nat × Node V)) (m : Nat) :
    labAt es m = (es.map Prod.fst).getD m 0 := by
  unfold labAt
  rw [List.getD_eq_getElem?_getD, List.getD_eq_getElem?_getD, List.getElem?_map]
  cases h : es[m]? with
  | none => simp
  | some e => simp

theorem searchAux_congr {V : Type} {es₁ es₂ : List (Nat × Node V)}
    (h : es₁.map Prod.fst = es₂.map Prod.fst) (b : Nat) (i j : Nat) :
    searchAux es₁ b i j = searchAux es₂ b i j := by
  by_cases hij : i < j
  · rw [searchAux, searchAux]
    simp only [hij, dite_true]
    have hlab : labAt es₁ ((i + j) / 2) = labAt es₂ ((i + j) / 2) := by
      rw [labAt_eq, labAt_eq, h]
    rw [hlab]
    by_cases h2 : labAt es₂ ((i + j) / 2) < b
    · simp only [h2, if_true]
      exact searchAux_congr h b ((i + j) / 2 + 1) j
    · simp only [h2, if_false]
      exact searchAux_congr h b i ((i + j) / 2)
  · rw [searchAux, searchAux]; simp [hij]
  termination_by j - i
  decreasing_by
    · omega
    · omega

theorem searchE_congr {V : Type} {es₁ es₂ : List (Nat × Node V)}
    (h : es₁.map Prod.fst = es₂.map Prod.fst) (b : Nat) :
    searchE es₁ b = searchE es₂ b := by
  unfold searchE
  have hlen : es₁.length = es₂.length := by
    have := congrArg List.length h
    simpa using this
  rw [hlen]
  exact searchAux_congr h b 0 es₂.length

namespace Node

variable {V : Type}

/-- The child stored under a label, ignoring the index. -/
def childFor (n : Node V) (b : Nat) : Option (Node V) :=
  (n.getEdge b).map Prod.snd

/-- Everything `getEdge n b = some (i, c)` says. -/
theorem getEdge_inv {n : Node V} {b i : Nat} {c : Node V}
    (h : n.getEdge b = some (i, c)) :
    searchE n.edges b = i ∧
      ∃ hlen : i < n.edges.length, n.edges.get ⟨i, hlen⟩ = (b, c) := by
  unfold getEdge at h
  simp only at h
  split at h
  · rename_i hlen
    split at h
    · rename_i heq
      injection h with h'
      injection h' with h1 h2
      subst h1
      refine ⟨rfl, hlen, ?_⟩
      cases hx : n.edges.get ⟨searchE n.edges b, hlen⟩ with
      | mk lf nd =>
        simp only [hx] at heq h2
        simp [heq, h2]
    · cases h
  · cases h

theorem getEdge_of_inv {n : Node V} {b i : Nat} {c : Node V}
    (hs : searchE n.edges b = i) (hlen : i < n.edges.length)
    (hget : n.edges.get ⟨i, hlen⟩ = (b, c)) :
    n.getEdge b = some (i, c) := by
  unfold getEdge
  simp only
  rw [hs]
  rw [dif_pos hlen]
  rw [hget]
  simp

/-- On a sorted edge list, a member is found by `getEdge`. -/
theorem getEdge_of_mem {n : Node V} {b : Nat} {c : Node V}
    (hsorted : (n.edges.map Prod.fst).Pairwise (· < ·))
    (hmem : (b, c) ∈ n.edges) :
    n.getEdge b = some (searchE n.edges b, c) := by
  obtain ⟨j, hj, hje⟩ := List.mem_iff_getElem.mp hmem
  obtain ⟨hle, hlt, hge⟩ := searchE_spec n.edges b hsorted
  set idx := searchE n.edges b with hidx
  have hjlab : (n.edges.map Prod.fst).getD j 0 = b := by
    rw [List.getD_eq_getElem?_getD, List.getElem?_map,
      List.getElem?_eq_getElem hj, hje]
    rfl
  have hjge : idx ≤ j := by
    by_contra hcon
    have := hlt j (by omega)
    rw [labAt_eq, hjlab] at this
    omega
  have hjeq : idx = j := by
    by_contra hcon
    have hlt2 : idx < j := by omega
    have hidxlen : idx < n.edges.length := by omega
    have h1 := hge idx (le_refl _) hidxlen
    rw [labAt_eq] at h1
    have h2 := List.pairwise_iff_getElem.mp hsorted idx j
      (by simpa using hidxlen) (by simpa using hj) hlt2
    simp only [List.getElem_map] at h2
    have h3 : (n.edges.map Prod.fst).getD idx 0 = (n.edges[idx]).fst := by
      rw [List.getD_eq_getElem?_getD, List.getElem?_map,
        List.getElem?_eq_getElem hidxlen]
      rfl
    rw [h3] at h1
    have h4 : (n.edges[j]).fst = b := by rw [hje]
    rw [h4] at h2
    omega
  subst hjeq
  exact getEdge_of_inv rfl hj (by simpa [List.get_eq_getElem] using hje)

theorem childFor_of_mem {n : Node V} {b : Nat} {c : Node V}
    (hsorted : (n.edges.map Prod.fst).Pairwise (· < ·))
    (hmem : (b, c) ∈ n.edges) :
    n.childFor b = some c := by
  unfold childFor
  rw [getEdge_of_mem hsorted hmem]
  rfl

theorem getEdge_none_iff {n : Node V} {b : Nat}
    (hsorted : (n.edges.map Prod.fst).Pairwise (· < ·)) :
    n.getEdge b = none ↔ ∀ c, (b, c) ∉ n.edges := by
  constructor
  · intro h c hc
    rw [getEdge_of_mem hsorted hc] at h
    cases h
  · intro h
    cases hg : n.getEdge b with
    | none => rfl
    | some ic =>
      cases ic with
      | mk i c =>
        exact absurd (getEdge_mem hg) (h c)

theorem childFor_none_iff {n : Node V} {b : Nat}
    (hsorted : (n.edges.map Prod.fst).Pairwise (· < ·)) :
    n.childFor b = none ↔ ∀ c, (b, c) ∉ n.edges := by
  unfold childFor
  rw [Option.map_eq_none']
  exact getEdge_none_iff hsorted

theorem childFor_mem {n : Node V} {b : Nat} {c : Node V}
    (h : n.childFor b = some c) : (b, c) ∈ n.edges := by
  unfold childFor at h
  cases hg : n.getEdge b with
  | none => rw [hg] at h; cases h
  | some ic =>
    cases ic with
    | mk i c' =>
      rw [hg] at h
      simp only [Option.map_some'] at h
      cases h
      exact getEdge_mem hg

end Node

namespace Node

variable {V : Type}

@[simp] theorem addEdge_value (n : Node V) (e : Nat × Node V) :
    (n.addEdge e).value = n.value := rfl

@[simp] theorem addEdge_pref (n : Node V) (e : Nat × Node V) :
    (n.addEdge e).pref = n.pref := rfl

@[simp] theorem addEdge_revision (n : Node V) (e : Nat × Node V) :
    (n.addEdge e).revision = n.revision := rfl

theorem addEdge_edges (n : Node V) (e : Nat × Node V) :
    (n.addEdge e).edges =
      n.edges.take (searchE n.edges e.fst) ++
        e :: n.edges.drop (searchE n.edges e.fst) := rfl

theorem mem_addEdge {n : Node V} {e x : Nat × Node V} :
    x ∈ (n.addEdge e).edges ↔ x = e ∨ x ∈ n.edges := by
  rw [addEdge_edges]
  have hsplit := List.take_append_drop (searchE n.edges e.fst) n.edges
  constructor
  · intro h
    rcases List.mem_append.mp h with h1 | h1
    · right
      rw [← hsplit]
      exact List.mem_append.mpr (Or.inl h1)
    · rcases List.mem_cons.mp h1 with h2 | h2
      · exact Or.inl h2
      · right
        rw [← hsplit]
        exact List.mem_append.mpr (Or.inr h2)
  · rintro (rfl | h)
    · exact List.mem_append.mpr (Or.inr (List.mem_cons_self _ _))
    · rw [← hsplit] at h
      rcases List.mem_append.mp h with h1 | h1
      · exact List.mem_append.mpr (Or.inl h1)
      · exact List.mem_append.mpr (Or.inr (List.mem_cons_of_mem _ h1))

/-- Elements of `take idx` have labels `< b`, elements of `drop idx` have
labels `≥ b`, for `idx = searchE es b` on a sorted list. -/
theorem mem_take_searchE {n : Node V} {b : Nat} {x : Nat × Node V}
    (hsorted : (n.edges.map Prod.fst).Pairwise (· < ·))
    (h : x ∈ n.edges.take (searchE n.edges b)) : x.fst < b := by
  obtain ⟨_, hlt, _⟩ := searchE_spec n.edges b hsorted
  obtain ⟨k, hk, hke⟩ := List.mem_iff_getElem.mp h
  have hk2 : k < searchE n.edges b := by
    have := List.length_take_le (searchE n.edges b) n.edges
    have h3 : (n.edges.take (searchE n.edges b)).length =
        min (searchE n.edges b) n.edges.length := List.length_take _ _
    omega
  have := hlt k hk2
  rw [labAt_eq] at this
  have hklen : k < n.edges.length := by
    have h4 := List.length_take (searchE n.edges b) n.edges
    omega
  have hx : n.edges[k] = x := by
    rw [← hke]
    exact (List.getElem_take _).symm
  rw [List.getD_eq_getElem?_getD, List.getElem?_map,
    List.getElem?_eq_getElem hklen, hx] at this
  simpa using this

theorem mem_drop_searchE {n : Node V} {b : Nat} {x : Nat × Node V}
    (hsorted : (n.edges.map Prod.fst).Pairwise (· < ·))
    (h : x ∈ n.edges.drop (searchE n.edges b)) : b ≤ x.fst := by
  obtain ⟨_, _, hge⟩ := searchE_spec n.edges b hsorted
  obtain ⟨k, hk, hke⟩ := List.mem_iff_getElem.mp h
  have hklen : searchE n.edges b + k < n.edges.length := by
    have := List.length_drop (searchE n.edges b) n.edges
    omega
  have := hge (searchE n.edges b + k) (by omega) hklen
  rw [labAt_eq] at this
  have hx : n.edges[searchE n.edges b + k] = x := by
    rw [← hke]
    exact (List.getElem_drop _).symm
  rw [List.getD_eq_getElem?_getD, List.getElem?_map,
    List.getElem?_eq_getElem hklen, hx] at this
  simpa using this

/-- `addEdge` keeps the labels strictly sorted when the label is new. -/
theorem sorted_addEdge {n : Node V} {b : Nat} {c : Node V}
    (hsorted : (n.edges.map Prod.fst).Pairwise (· < ·))
    (habs : ∀ c', (b, c') ∉ n.edges) :
    ((n.addEdge (b, c)).edges.map Prod.fst).Pairwise (· < ·) := by
  rw [addEdge_edges]
  simp only [List.map_append, List.map_cons]
  rw [List.pairwise_append]
  have hsplit := List.take_append_drop (searchE n.edges (b, c).fst) n.edges
  have hmem_ne : ∀ x ∈ n.edges, x.fst ≠ b := by
    intro x hx hxb
    cases x with
    | mk lf nd =>
      subst hxb
      exact habs nd hx
  refine ⟨?_, ?_, ?_⟩
  · rw [List.map_take]
    exact List.Pairwise.sublist (List.take_sublist _ _) hsorted
  · rw [List.pairwise_cons]
    constructor
    · intro y hy
      rw [List.map_drop] at hy
      obtain ⟨x, hx, rfl⟩ := by
        rw [← List.map_drop] at hy
        exact List.mem_map.mp hy
      have h1 := mem_drop_searchE (b := (b, c).fst) hsorted hx
      have h2 := hmem_ne x (by
        rw [← hsplit]
        exact List.mem_append.mpr (Or.inr hx))
      simp only at h1
      omega
    · rw [List.map_drop]
      rw [← List.map_drop]
      exact hsorted.sublist ((List.drop_sublist _ _).map _)
  · intro x hx y hy
    obtain ⟨x', hx', rfl⟩ := by
      rw [List.map_take, ← List.map_take] at hx
      exact List.mem_map.mp hx
    have h1 := mem_take_searchE (b := (b, c).fst) hsorted hx'
    rcases List.mem_cons.mp hy with rfl | hy2
    · simpa using h1
    · obtain ⟨y', hy', rfl⟩ := by
        rw [List.map_drop, ← List.map_drop] at hy2
        exact List.mem_map.mp hy2
      have h2 := mem_drop_searchE (b := (b, c).fst) hsorted hy'
      have h3 := hmem_ne y' (by
        rw [← hsplit]
        exact List.mem_append.mpr (Or.inr hy'))
      simp only at h1 h2
      omega

end Node

namespace Node

variable {V : Type}

theorem childFor_addEdge {n : Node V} {b : Nat} {c : Node V}
    (hsorted : (n.edges.map Prod.fst).Pairwise (· < ·))
    (habs : ∀ c', (b, c') ∉ n.edges) (b' : Nat) :
    (n.addEdge (b, c)).childFor b' =
      if b' = b then some c else n.childFor b' := by
  have hsorted' := sorted_addEdge (c := c) hsorted habs
  by_cases hb : b' = b
  · subst hb
    rw [if_pos rfl]
    exact childFor_of_mem hsorted' (mem_addEdge.mpr (Or.inl rfl))
  · rw [if_neg hb]
    cases h : n.childFor b' with
    | some c' =>
      exact childFor_of_mem hsorted'
        (mem_addEdge.mpr (Or.inr (childFor_mem h)))
    | none =>
      rw [childFor_none_iff hsorted']
      intro c' hc'
      rcases mem_addEdge.mp hc' with h1 | h1
      · exact hb (congrArg Prod.fst h1)
      · exact (childFor_none_iff hsorted).mp h c' h1

@[simp] theorem delEdge_value (n : Node V) (b : Nat) :
    (n.delEdge b).value = n.value := by
  unfold delEdge
  simp only
  split
  · split <;> simp
  · simp

@[simp] theorem delEdge_pref (n : Node V) (b : Nat) :
    (n.delEdge b).pref = n.pref := by
  unfold delEdge
  simp only
  split
  · split <;> simp
  · simp

@[simp] theorem delEdge_revision (n : Node V) (b : Nat) :
    (n.delEdge b).revision = n.revision := by
  unfold delEdge
  simp only
  split
  · split <;> simp
  · simp

theorem delEdge_eq_self {n : Node V} {b : Nat}
    (habs : ∀ c, (b, c) ∉ n.edges) : n.delEdge b = n := by
  unfold delEdge
  simp only
  split
  · rename_i hlen
    split
    · rename_i heq
      exfalso
      refine habs (n.edges.get ⟨searchE n.edges b, hlen⟩).snd ?_
      have := List.get_mem n.edges _ hlen
      cases hx : n.edges.get ⟨searchE n.edges b, hlen⟩ with
      | mk lf nd =>
        rw [hx] at heq this
        simp only at heq
        subst heq
        simpa [hx] using this
    · rfl
  · rfl

theorem delEdge_edges_of_mem {n : Node V} {b : Nat} {c : Node V}
    (hsorted : (n.edges.map Prod.fst).Pairwise (· < ·))
    (hmem : (b, c) ∈ n.edges) :
    (n.delEdge b).edges =
      n.edges.take (searchE n.edges b) ++
        n.edges.drop (searchE n.edges b + 1) := by
  obtain ⟨hs, hlen, hget⟩ := getEdge_inv (getEdge_of_mem hsorted hmem)
  unfold delEdge
  simp only
  rw [dif_pos hlen, if_pos (by rw [hget]), edges_mk,
    List.eraseIdx_eq_take_drop_succ]

theorem mem_delEdge_iff {n : Node V} {b : Nat} {x : Nat × Node V}
    (hsorted : (n.edges.map Prod.fst).Pairwise (· < ·)) :
    x ∈ (n.delEdge b).edges ↔ x ∈ n.edges ∧ x.fst ≠ b := by
  by_cases hb : ∃ c, (b, c) ∈ n.edges
  · obtain ⟨c, hmem⟩ := hb
    obtain ⟨hs, hlenb, hget⟩ := getEdge_inv (getEdge_of_mem hsorted hmem)
    rw [delEdge_edges_of_mem hsorted hmem]
    set idx := searchE n.edges b with hidx
    have hgetb : n.edges[idx] = (b, c) := by
      simpa [List.get_eq_getElem] using hget
    constructor
    · intro h
      rcases List.mem_append.mp h with h1 | h1
      · refine ⟨List.mem_of_mem_take h1, ?_⟩
        have := mem_take_searchE (b := b) hsorted h1
        omega
      · refine ⟨List.mem_of_mem_drop h1, ?_⟩
        obtain ⟨k, hk, hke⟩ := List.mem_iff_getElem.mp h1
        have hklen : idx + 1 + k < n.edges.length := by
          have := List.length_drop (idx + 1) n.edges
          omega
        have hx : n.edges[idx + 1 + k] = x := by
          rw [← hke]
          exact (List.getElem_drop _).symm
        have hlt := List.pairwise_iff_getElem.mp hsorted idx (idx + 1 + k)
          (by simpa using hlenb) (by simpa using hklen) (by omega)
        simp only [List.getElem_map] at hlt
        rw [hgetb, hx] at hlt
        simp only at hlt
        omega
    · rintro ⟨hmem2, hne⟩
      obtain ⟨j, hj, hje⟩ := List.mem_iff_getElem.mp hmem2
      have hjne : j ≠ idx := by
        intro hcon
        subst hcon
        rw [hgetb] at hje
        exact hne (by rw [← hje])
      rcases Nat.lt_or_ge j idx with hj2 | hj2
      · refine List.mem_append.mpr (Or.inl ?_)
        rw [List.mem_iff_getElem]
        have hjt : j < (n.edges.take idx).length := by
          rw [List.length_take]
          omega
        exact ⟨j, hjt, by rw [List.getElem_take]; exact hje⟩
      · have hj3 : idx + 1 ≤ j := by omega
        refine List.mem_append.mpr (Or.inr ?_)
        rw [List.mem_iff_getElem]
        have hjt : j - (idx + 1) < (n.edges.drop (idx + 1)).length := by
          rw [List.length_drop]
          omega
        refine ⟨j - (idx + 1), hjt, ?_⟩
        rw [List.getElem_drop]
        have : idx + 1 + (j - (idx + 1)) = j := by omega
        simp only [this]
        exact hje
  · push_neg at hb
    rw [delEdge_eq_self hb]
    constructor
    · intro h
      refine ⟨h, ?_⟩
      intro hcon
      cases x with
      | mk lf nd =>
        simp only at hcon
        subst hcon
        exact hb nd h
    · exact fun h => h.1

theorem sorted_delEdge {n : Node V} {b : Nat}
    (hsorted : (n.edges.map Prod.fst).Pairwise (· < ·)) :
    ((n.delEdge b).edges.map Prod.fst).Pairwise (· < ·) := by
  unfold delEdge
  simp only
  split
  · split
    · simp only [edges_mk]
      exact List.Pairwise.sublist ((List.eraseIdx_sublist _ _).map _) hsorted
    · exact hsorted
  · exact hsorted

theorem childFor_delEdge {n : Node V} {b : Nat}
    (hsorted : (n.edges.map Prod.fst).Pairwise (· < ·)) (b' : Nat) :
    (n.delEdge b).childFor b' = if b' = b then none else n.childFor b' := by
  have hsorted' := sorted_delEdge (b := b) hsorted
  by_cases hb : b' = b
  · subst hb
    rw [if_pos rfl, childFor_none_iff hsorted']
    intro c hc
    exact ((mem_delEdge_iff hsorted).mp hc).2 rfl
  · rw [if_neg hb]
    cases h : n.childFor b' with
    | some c =>
      exact childFor_of_mem hsorted'
        ((mem_delEdge_iff hsorted).mpr ⟨childFor_mem h, hb⟩)
    | none =>
      rw [childFor_none_iff hsorted']
      intro c hc
      exact (childFor_none_iff hsorted).mp h c
        ((mem_delEdge_iff hsorted).mp hc).1

end Node

namespace Node

variable {V : Type}

theorem set_getElem_self {α : Type} {l : List α} {i : Nat} {a : α}
    (h : l[i]? = some a) : l.set i a = l := by
  refine List.ext_getElem? (fun m => ?_)
  rw [List.getElem?_set]
  split
  · rename_i him
    subst him
    split
    · exact h.symm
    · rename_i hlen
      exfalso
      rw [List.getElem?_eq_none (by omega)] at h
      cases h
  · rfl

theorem edges_setEdgeNode {n : Node V} {idx : Nat} {b : Nat} {child c' : Node V}
    (hget : n.edges[idx]? = some (b, child)) :
    (n.setEdgeNode idx c').edges = n.edges.set idx (b, c') := by
  unfold setEdgeNode
  rw [List.get?_eq_getElem?, hget]
  rfl

theorem setEdgeNode_value {n : Node V} (idx : Nat) (c' : Node V) :
    (n.setEdgeNode idx c').value = n.value := by
  unfold setEdgeNode
  split
  · rename_i e h
    cases e
    simp
  · rfl

theorem setEdgeNode_pref {n : Node V} (idx : Nat) (c' : Node V) :
    (n.setEdgeNode idx c').pref = n.pref := by
  unfold setEdgeNode
  split
  · rename_i e h
    cases e
    simp
  · rfl

theorem labels_setEdgeNode {n : Node V} {idx : Nat} {b : Nat}
    {child c' : Node V} (hget : n.edges[idx]? = some (b, child)) :
    (n.setEdgeNode idx c').edges.map Prod.fst = n.edges.map Prod.fst := by
  rw [edges_setEdgeNode hget, List.map_set]
  apply set_getElem_self
  rw [List.getElem?_map, hget]
  rfl

theorem mem_setEdgeNode {n : Node V} {idx : Nat} {b : Nat}
    {child c' : Node V} {x : Nat × Node V}
    (hget : n.edges[idx]? = some (b, child))
    (h : x ∈ (n.setEdgeNode idx c').edges) :
    x = (b, c') ∨ x ∈ n.edges := by
  rw [edges_setEdgeNode hget] at h
  rcases List.mem_or_eq_of_mem_set h with h1 | h1
  · exact Or.inr h1
  · exact Or.inl h1

theorem getEdge_setEdgeNode_self {n : Node V} {idx : Nat} {b : Nat}
    {child : Node V} (hget : n.getEdge b = some (idx, child)) (c' : Node V) :
    (n.setEdgeNode idx c').getEdge b = some (idx, c') := by
  obtain ⟨hs, hlen, hgete⟩ := getEdge_inv hget
  have hget? : n.edges[idx]? = some (b, child) := by
    rw [List.getElem?_eq_getElem hlen]
    simpa [List.get_eq_getElem] using hgete
  have hlabels := @labels_setEdgeNode _ _ _ _ _ c' hget?
  have hsame : searchE (n.setEdgeNode idx c').edges b = idx := by
    rw [searchE_congr hlabels, hs]
  have hlen' : idx < (n.setEdgeNode idx c').edges.length := by
    rw [edges_setEdgeNode hget?, List.length_set]
    exact hlen
  refine getEdge_of_inv hsame hlen' ?_
  rw [List.get_eq_getElem]
  have : (n.setEdgeNode idx c').edges[idx]? = some (b, c') := by
    rw [edges_setEdgeNode hget?]
    exact List.getElem?_set_self (by simpa using hlen)
  rw [List.getElem?_eq_getElem hlen'] at this
  injection this

theorem getEdge_setEdgeNode_ne {n : Node V} {idx : Nat} {b : Nat}
    {child : Node V} (hget : n.getEdge b = some (idx, child)) (c' : Node V)
    {b' : Nat} (hne : b' ≠ b) :
    (n.setEdgeNode idx c').getEdge b' = n.getEdge b' := by
  obtain ⟨hs, hlen, hgete⟩ := getEdge_inv hget
  have hget? : n.edges[idx]? = some (b, child) := by
    rw [List.getElem?_eq_getElem hlen]
    simpa [List.get_eq_getElem] using hgete
  have hlabels := @labels_setEdgeNode _ _ _ _ _ c' hget?
  have hsame : searchE (n.setEdgeNode idx c').edges b' = searchE n.edges b' := by
    rw [searchE_congr hlabels]
  have hedges := @edges_setEdgeNode _ _ _ _ _ c' hget?
  have hleneq : (n.setEdgeNode idx c').edges.length = n.edges.length := by
    rw [hedges, List.length_set]
  unfold getEdge
  simp only
  rw [hsame]
  set j := searchE n.edges b' with hj
  by_cases hjlen : j < n.edges.length
  · have hjlen' : j < (n.setEdgeNode idx c').edges.length := by
      rw [hleneq]; exact hjlen
    rw [dif_pos hjlen', dif_pos hjlen]
    have hjidx : j ≠ idx ∨ j = idx := by omega
    by_cases hji : j = idx
    · -- at idx the label is b ≠ b', both sides take the none branch
      subst hji
      have h1 : (n.setEdgeNode j c').edges.get ⟨j, by omega⟩ = (b, c') := by
        rw [List.get_eq_getElem]
        have : (n.setEdgeNode j c').edges[j]? = some (b, c') := by
          rw [hedges]
          exact List.getElem?_set_self (by simpa using hlen)
        rw [List.getElem?_eq_getElem (by omega)] at this
        injection this
      have h2 : n.edges.get ⟨j, hjlen⟩ = (b, child) := by
        simpa [List.get_eq_getElem] using hgete
      rw [h1, h2]
      simp only
      rw [if_neg (by omega), if_neg (by omega)]
    · have h1 : (n.setEdgeNode idx c').edges.get ⟨j, by omega⟩ =
          n.edges.get ⟨j, hjlen⟩ := by
        rw [List.get_eq_getElem, List.get_eq_getElem]
        have : (n.setEdgeNode idx c').edges[j]? = n.edges[j]? := by
          rw [hedges]
          exact List.getElem?_set_ne (fun hcon => hji hcon.symm)
        rw [List.getElem?_eq_getElem (by omega),
          List.getElem?_eq_getElem hjlen] at this
        injection this
      rw [h1]
  · have hjlen' : ¬ j < (n.setEdgeNode idx c').edges.length := by
      rw [hleneq]; exact hjlen
    rw [dif_neg hjlen', dif_neg hjlen]

theorem childFor_setEdgeNode {n : Node V} {idx : Nat} {b : Nat}
    {child : Node V} (hget : n.getEdge b = some (idx, child)) (c' : Node V)
    (b' : Nat) :
    (n.setEdgeNode idx c').childFor b' =
      if b' = b then some c' else n.childFor b' := by
  unfold childFor
  by_cases hb : b' = b
  · subst hb
    rw [if_pos rfl, getEdge_setEdgeNode_self hget]
    rfl
  · rw [if_neg hb, getEdge_setEdgeNode_ne hget c' hb]

theorem replaceEdgeT_eq_setEdgeNode {n : Node V} {idx : Nat} {b : Nat}
    {child : Node V} (hget : n.getEdge b = some (idx, child)) (c' : Node V) :
    n.replaceEdgeT (b, c') = n.setEdgeNode idx c' := by
  obtain ⟨hs, hlen, hgete⟩ := getEdge_inv hget
  have hget? : n.edges[idx]? = some (b, child) := by
    rw [List.getElem?_eq_getElem hlen]
    simpa [List.get_eq_getElem] using hgete
  unfold replaceEdgeT replaceEdge
  simp only
  rw [hs, dif_pos hlen, if_pos (by rw [hgete])]
  simp only [Option.getD_some]
  unfold setEdgeNode
  rw [List.get?_eq_getElem?, hget?]

end Node

namespace Node

variable {V : Type}

theorem replaceEdgeT_value (n : Node V) (e : Nat × Node V) :
    (n.replaceEdgeT e).value = n.value := by
  unfold replaceEdgeT replaceEdge
  simp only
  split
  · split <;> simp
  · simp

theorem replaceEdgeT_pref (n : Node V) (e : Nat × Node V) :
    (n.replaceEdgeT e).pref = n.pref := by
  unfold replaceEdgeT replaceEdge
  simp only
  split
  · split <;> simp
  · simp

theorem replaceEdgeT_edges_length (n : Node V) (e : Nat × Node V) :
    (n.replaceEdgeT e).edges.length = n.edges.length := by
  unfold replaceEdgeT replaceEdge
  simp only
  split
  · split <;> simp
  · simp

theorem setEdgeNode_edges_length (n : Node V) (idx : Nat) (c' : Node V) :
    (n.setEdgeNode idx c').edges.length = n.edges.length := by
  unfold setEdgeNode
  split
  · rename_i e h
    cases e
    simp
  · rfl

theorem addEdge_edges_ne_nil (n : Node V) (e : Nat × Node V) :
    (n.addEdge e).edges ≠ [] := by
  rw [addEdge_edges]
  intro h
  have := congrArg List.length h
  simp at this

end Node

/-- First unfolding lemma of `Txn.Insert`: key exhaustion. -/
theorem txInsert_nil (rv : Nat) (n : Node V) (v : V) :
    txInsert rv n [] v =
      ((writeNode rv n).setValue (some v), (writeNode rv n).value) := by
  unfold txInsert
  rfl

/-- Unfolding lemma of `Txn.Insert`: no edge for the first search byte. -/
theorem txInsert_cons_noedge {rv : Nat} {n : Node V} {b : Nat} {t : List Nat}
    {v : V} (hg : (writeNode rv n).getEdge b = none) :
    txInsert rv n (b :: t) v =
      ((writeNode rv n).addEdge (b, Node.mk rv (some v) (b :: t) []), none) := by
  unfold txInsert
  split
  · rename_i heq
    cases heq
  · rename_i s' b' t' heq
    injection heq with hb ht
    subst hb
    subst ht
    dsimp only
    split
    · rfl
    · rename_i idx child heq2
      rw [hg] at heq2
      cases heq2

/-- Unfolding lemma of `Txn.Insert`: full edge-prefix match, descend. -/
theorem txInsert_cons_descend {rv : Nat} {n : Node V} {b : Nat} {t : List Nat}
    {v : V} {idx : Nat} {child : Node V}
    (hg : (writeNode rv n).getEdge b = some (idx, child))
    (hc : longestPref (b :: t) child.pref = child.pref.length) :
    txInsert rv n (b :: t) v =
      ((writeNode rv n).setEdgeNode idx
          (txInsert rv child ((b :: t).drop child.pref.length) v).1,
        (txInsert rv child ((b :: t).drop child.pref.length) v).2) := by
  conv_lhs => unfold txInsert
  split
  · rename_i heq
    cases heq
  · rename_i s' b' t' heq
    injection heq with hb ht
    subst hb
    subst ht
    dsimp only
    split
    · rename_i heq2
      rw [hg] at heq2
      cases heq2
    · rename_i idx' child' heq2
      rw [hg] at heq2
      injection heq2 with h'
      injection h' with h1 h2
      subst h1
      subst h2
      rw [if_pos hc, hc]

/-- Unfolding lemma of `Txn.Insert`: partial edge-prefix match, split the
edge.  The final split node carries the common prefix, the trimmed old child
under its discriminating byte, and either the new value (key exhausted) or a
new leaf edge. -/
theorem txInsert_cons_split {rv : Nat} {n : Node V} {b : Nat} {t : List Nat}
    {v : V} {idx : Nat} {child : Node V}
    (hg : (writeNode rv n).getEdge b = some (idx, child))
    (hc : longestPref (b :: t) child.pref ≠ child.pref.length) :
    txInsert rv n (b :: t) v =
      ((writeNode rv n).replaceEdgeT
          (b,
            (match (b :: t).drop (longestPref (b :: t) child.pref) with
              | [] =>
                ((Node.mk rv none
                      ((b :: t).take (longestPref (b :: t) child.pref))
                      []).addEdge
                    (child.pref.getD (longestPref (b :: t) child.pref) 0,
                      (writeNode rv child).setPref
                        (child.pref.drop
                          (longestPref (b :: t) child.pref)))).setValue
                  (some v)
              | b2 :: t2 =>
                ((Node.mk rv none
                      ((b :: t).take (longestPref (b :: t) child.pref))
                      []).addEdge
                    (child.pref.getD (longestPref (b :: t) child.pref) 0,
                      (writeNode rv child).setPref
                        (child.pref.drop
                          (longestPref (b :: t) child.pref)))).addEdge
                  (b2, Node.mk rv (some v) (b2 :: t2) []))),
        none) := by
  unfold txInsert
  split
  · rename_i heq
    cases heq
  · rename_i s' b' t' heq
    injection heq with hb ht
    subst hb
    subst ht
    dsimp only
    split
    · rename_i heq2
      rw [hg] at heq2
      cases heq2
    · rename_i idx' child' heq2
      rw [hg] at heq2
      injection heq2 with h'
      injection h' with h1 h2
      subst h1
      subst h2
      rw [if_neg hc]
      split <;> rfl

/-! ## The well-formedness invariant

`WfN n` captures the structural invariants of every node reachable from a
committed or in-progress root (the root's own `pref` is not constrained —
it is never consumed):
edge labels strictly sorted (I1), each child's `pref` starts with its edge
label (I2), no child is simultaneously valueless and edgeless (I4), and
children are recursively well-formed. -/
inductive WfN : Node V → Prop where
  | intro (n : Node V)
      (hsort : (n.edges.map Prod.fst).Pairwise (· < ·))
      (hhead : ∀ l c, (l, c) ∈ n.edges → c.pref.head? = some l)
      (hne : ∀ l c, (l, c) ∈ n.edges → c.value.isSome = true ∨ c.edges ≠ [])
      (hch : ∀ l c, (l, c) ∈ n.edges → WfN c) : WfN n

theorem WfN.sorted {n : Node V} (h : WfN n) :
    (n.edges.map Prod.fst).Pairwise (· < ·) := by
  cases h; assumption

theorem WfN.head {n : Node V} (h : WfN n) :
    ∀ l c, (l, c) ∈ n.edges → c.pref.head? = some l := by
  cases h; assumption

theorem WfN.valEdges {n : Node V} (h : WfN n) :
    ∀ l c, (l, c) ∈ n.edges → c.value.isSome = true ∨ c.edges ≠ [] := by
  cases h; assumption

theorem WfN.child {n : Node V} (h : WfN n) :
    ∀ l c, (l, c) ∈ n.edges → WfN c := by
  cases h; assumption

theorem wfN_of_edges_eq {m n : Node V} (he : m.edges = n.edges) (h : WfN n) :
    WfN m := by
  cases h with
  | intro _ hsort hhead hne hch =>
    exact WfN.intro m (he ▸ hsort) (he ▸ hhead) (he ▸ hne) (he ▸ hch)

theorem wfN_of_no_edges {n : Node V} (he : n.edges = []) : WfN n := by
  refine WfN.intro n ?_ ?_ ?_ ?_ <;> rw [he] <;> simp

theorem wfN_writeNode {rv : Nat} {n : Node V} (h : WfN n) :
    WfN (writeNode rv n) :=
  wfN_of_edges_eq (writeNode_edges rv n) h

theorem getEdge_writeNode (rv : Nat) (n : Node V) (b : Nat) :
    (writeNode rv n).getEdge b = n.getEdge b := by
  unfold writeNode
  split
  · rfl
  · rfl

theorem childFor_writeNode (rv : Nat) (n : Node V) (b : Nat) :
    (writeNode rv n).childFor b = n.childFor b := by
  unfold Node.childFor
  rw [getEdge_writeNode]

/-- One-step unfolding of `Get` on a nonempty key, phrased through
`childFor`. -/
theorem get_cons (n : Node V) (b : Nat) (t : List Nat) :
    n.get (b :: t) =
      match n.childFor b with
      | none => none
      | some c =>
        if hasPref (b :: t) c.pref then c.get ((b :: t).drop c.pref.length)
        else none := by
  conv_lhs => unfold Node.get
  split
  · rename_i heq
    unfold Node.childFor
    rw [heq]
    rfl
  · rename_i i c heq
    unfold Node.childFor
    rw [heq]
    rfl

@[simp] theorem get_nil (n : Node V) : n.get [] = n.value := by
  unfold Node.get
  rfl

/-- `Insert` never changes the prefix of the node it was called on: the Go
loop only rewrites the spine below the entry slot. -/
theorem txInsert_fst_pref (rv : Nat) (n : Node V) (s : List Nat) (v : V) :
    (txInsert rv n s v).1.pref = n.pref := by
  cases s with
  | nil =>
    rw [txInsert_nil]
    simp
  | cons b t =>
    cases hg : (writeNode rv n).getEdge b with
    | none =>
      rw [txInsert_cons_noedge hg]
      simp
    | some ic =>
      cases ic with
      | mk idx child =>
        by_cases hc : longestPref (b :: t) child.pref = child.pref.length
        · rw [txInsert_cons_descend hg hc]
          simp only [Node.setEdgeNode_pref, writeNode_pref]
        · rw [txInsert_cons_split hg hc]
          simp only [Node.replaceEdgeT_pref, writeNode_pref]

/-- The node returned by `Insert` carries a value or at least one edge. -/
theorem txInsert_fst_valEdges (rv : Nat) (n : Node V) (s : List Nat) (v : V) :
    (txInsert rv n s v).1.value.isSome = true ∨
      (txInsert rv n s v).1.edges ≠ [] := by
  cases s with
  | nil =>
    rw [txInsert_nil]
    simp
  | cons b t =>
    cases hg : (writeNode rv n).getEdge b with
    | none =>
      rw [txInsert_cons_noedge hg]
      exact Or.inr (Node.addEdge_edges_ne_nil _ _)
    | some ic =>
      cases ic with
      | mk idx child =>
        obtain ⟨hs, hlen, hget⟩ := Node.getEdge_inv hg
        by_cases hc : longestPref (b :: t) child.pref = child.pref.length
        · rw [txInsert_cons_descend hg hc]
          refine Or.inr ?_
          intro hcon
          have := congrArg List.length hcon
          rw [Node.setEdgeNode_edges_length] at this
          simp only [List.length_nil] at this
          omega
        · rw [txInsert_cons_split hg hc]
          refine Or.inr ?_
          intro hcon
          have := congrArg List.length hcon
          rw [Node.replaceEdgeT_edges_length] at this
          simp only [List.length_nil] at this
          omega

theorem head?_drop_eq {l : List Nat} {c : Nat} (h : c < l.length) :
    (l.drop c).head? = some (l.getD c 0) := by
  rw [List.head?_eq_getElem?, List.getElem?_drop, List.getD_eq_getElem?_getD,
    Nat.add_zero, List.getElem?_eq_getElem h]
  rfl

theorem drop_cons_inv {l : List Nat} {c x : Nat} {xs : List Nat}
    (h : l.drop c = x :: xs) : c < l.length ∧ l.getD c 0 = x := by
  have hlen : c < l.length := by
    by_contra hcon
    rw [List.drop_eq_nil_of_le (by omega)] at h
    cases h
  have := head?_drop_eq hlen
  rw [h] at this
  simp only [List.head?_cons] at this
  exact ⟨hlen, by injection this with h'; exact h'.symm⟩

theorem searchE_nil {V : Type} (b : Nat) :
    searchE ([] : List (Nat × Node V)) b = 0 := by
  unfold searchE searchAux
  simp

theorem addEdge_nil_edges (r : Nat) (v : Option V) (p : List Nat)
    (e : Nat × Node V) :
    ((Node.mk r v p ([] : List (Nat × Node V))).addEdge e).edges = [e] := by
  rw [Node.addEdge_edges]
  simp [searchE_nil]

theorem wfN_single {r : Nat} {v : Option V} {p : List Nat} {lbl : Nat}
    {c : Node V} (hhead : c.pref.head? = some lbl)
    (hne : c.value.isSome = true ∨ c.edges ≠ []) (hwfc : WfN c) :
    WfN (Node.mk r v p [(lbl, c)]) := by
  refine WfN.intro _ (by simp) ?_ ?_ ?_
  · intro l' c' hm
    simp only [Node.edges_mk, List.mem_singleton] at hm
    cases hm
    exact hhead
  · intro l' c' hm
    simp only [Node.edges_mk, List.mem_singleton] at hm
    cases hm
    exact hne
  · intro l' c' hm
    simp only [Node.edges_mk, List.mem_singleton] at hm
    cases hm
    exact hwfc

/-- Replacing the child at an existing edge slot with a node whose prefix
still starts with the label preserves well-formedness. -/
theorem wf_setEdgeNode {n : Node V} {idx b : Nat} {child c' : Node V}
    (hwf : WfN n) (hg : n.getEdge b = some (idx, child))
    (hpref : c'.pref.head? = some b)
    (hval : c'.value.isSome = true ∨ c'.edges ≠ [])
    (hwfc : WfN c') : WfN (n.setEdgeNode idx c') := by
  obtain ⟨hs, hlen, hget⟩ := Node.getEdge_inv hg
  have hget? : n.edges[idx]? = some (b, child) := by
    rw [List.getElem?_eq_getElem hlen]
    simpa [List.get_eq_getElem] using hget
  refine WfN.intro _ ?_ ?_ ?_ ?_
  · rw [Node.labels_setEdgeNode hget?]
    exact hwf.sorted
  · intro l c hm
    rcases Node.mem_setEdgeNode hget? hm with h1 | h1
    · injection h1 with e1 e2
      subst e1
      subst e2
      exact hpref
    · exact hwf.head l c h1
  · intro l c hm
    rcases Node.mem_setEdgeNode hget? hm with h1 | h1
    · injection h1 with e1 e2
      subst e1
      subst e2
      exact hval
    · exact hwf.valEdges l c h1
  · intro l c hm
    rcases Node.mem_setEdgeNode hget? hm with h1 | h1
    · injection h1 with e1 e2
      subst e1
      subst e2
      exact hwfc
    · exact hwf.child l c h1

/-- `Insert` preserves the node invariants. -/
theorem wf_txInsert {rv : Nat} {n : Node V} {s : List Nat} {v : V}
    (hwf : WfN n) : WfN (txInsert rv n s v).1 := by
  cases s with
  | nil =>
    rw [txInsert_nil]
    exact wfN_of_edges_eq (by simp [writeNode_edges]) hwf
  | cons b t =>
    cases hg : (writeNode rv n).getEdge b with
    | none =>
      rw [txInsert_cons_noedge hg]
      have hsorted : ((writeNode rv n).edges.map Prod.fst).Pairwise (· < ·) := by
        rw [writeNode_edges]
        exact hwf.sorted
      have habs : ∀ c', (b, c') ∉ (writeNode rv n).edges :=
        (Node.getEdge_none_iff hsorted).mp hg
      refine WfN.intro _ (Node.sorted_addEdge hsorted habs) ?_ ?_ ?_
      · intro l c hm
        rcases Node.mem_addEdge.mp hm with h1 | h1
        · injection h1 with e1 e2
          subst e1
          subst e2
          simp
        · rw [writeNode_edges] at h1
          exact hwf.head l c h1
      · intro l c hm
        rcases Node.mem_addEdge.mp hm with h1 | h1
        · injection h1 with e1 e2
          subst e1
          subst e2
          simp
        · rw [writeNode_edges] at h1
          exact hwf.valEdges l c h1
      · intro l c hm
        rcases Node.mem_addEdge.mp hm with h1 | h1
        · injection h1 with e1 e2
          subst e1
          subst e2
          exact wfN_of_no_edges rfl
        · rw [writeNode_edges] at h1
          exact hwf.child l c h1
    | some ic =>
      cases ic with
      | mk idx child =>
        have hmemb : (b, child) ∈ n.edges := by
          have := Node.getEdge_mem hg
          rwa [writeNode_edges] at this
        have hwfc : WfN child := hwf.child b child hmemb
        have hheadc : child.pref.head? = some b := hwf.head b child hmemb
        have hwfnc : WfN (writeNode rv n) := wfN_writeNode hwf
        by_cases hc : longestPref (b :: t) child.pref = child.pref.length
        · rw [txInsert_cons_descend hg hc]
          refine wf_setEdgeNode hwfnc hg ?_ ?_ ?_
          · rw [txInsert_fst_pref]
            exact hheadc
          · exact txInsert_fst_valEdges rv child _ v
          · exact wf_txInsert hwfc
        · rw [txInsert_cons_split hg hc]
          -- facts about the split point
          have hclen : longestPref (b :: t) child.pref < child.pref.length :=
            lt_of_le_of_ne (longestPref_le_right _ _) hc
          set common := longestPref (b :: t) child.pref with hcommon
          have hcpos : 0 < common := by
            rw [hcommon]
            cases hcp : child.pref with
            | nil =>
              rw [hcp] at hheadc
              cases hheadc
            | cons cb ct =>
              rw [hcp] at hheadc
              simp only [List.head?_cons] at hheadc
              injection hheadc with h'
              subst h'
              exact longestPref_pos_of_head
          -- the trimmed old child
          have hmodpref :
              ((writeNode rv child).setPref (child.pref.drop common)).pref.head? =
                some (child.pref.getD common 0) := by
            rw [Node.setPref_pref]
            exact head?_drop_eq hclen
          have hmodwf : WfN ((writeNode rv child).setPref (child.pref.drop common)) := by
            refine wfN_of_edges_eq ?_ hwfc
            simp [Node.setPref_edges, writeNode_edges]
          have hmodval :
              ((writeNode rv child).setPref (child.pref.drop common)).value.isSome = true ∨
                ((writeNode rv child).setPref (child.pref.drop common)).edges ≠ [] := by
            have := hwf.valEdges b child hmemb
            simpa [Node.setPref_edges, writeNode_edges] using this
          have htake : ((b :: t).take common).head? = some b := by
            cases hcm : common with
            | zero => omega
            | succ k => simp
          -- the split node with the single trimmed-child edge
          have hsplit1 :
              WfN ((Node.mk rv none ((b :: t).take common)
                  ([] : List (Nat × Node V))).addEdge
                  (child.pref.getD common 0,
                    (writeNode rv child).setPref (child.pref.drop common))) := by
            have h1 := wfN_single (r := rv) (v := none) (p := [])
              hmodpref hmodval hmodwf
            refine wfN_of_edges_eq ?_ h1
            rw [addEdge_nil_edges]
            simp
          cases hdrop : (b :: t).drop common with
          | nil =>
            refine ?_
            rw [Node.replaceEdgeT_eq_setEdgeNode hg]
            refine wf_setEdgeNode hwfnc hg ?_ ?_ ?_
            · simpa using htake
            · simp
            · exact wfN_of_edges_eq (by simp) hsplit1
          | cons b2 t2 =>
            rw [Node.replaceEdgeT_eq_setEdgeNode hg]
            have hslen : common < (b :: t).length ∧ (b :: t).getD common 0 = b2 :=
              drop_cons_inv hdrop
            have hb2ne : b2 ≠ child.pref.getD common 0 := by
              have := longestPref_mismatch (a := b :: t) (b := child.pref)
                (by rw [← hcommon]; exact hslen.1) (by rw [← hcommon]; exact hclen)
              rw [← hcommon] at this
              rw [← hslen.2]
              exact this
            refine wf_setEdgeNode hwfnc hg ?_ ?_ ?_
            · simpa using htake
            · refine Or.inr ?_
              exact Node.addEdge_edges_ne_nil _ _
            · -- the split node with the trimmed child and the new leaf
              have hsorted1 :
                  ((((Node.mk rv none ((b :: t).take common)
                      ([] : List (Nat × Node V))).addEdge
                      (child.pref.getD common 0,
                        (writeNode rv child).setPref
                          (child.pref.drop common))).edges.map
                      Prod.fst).Pairwise (· < ·)) := by
                rw [addEdge_nil_edges]
                simp
              have habs1 : ∀ c',
                  (b2, c') ∉ (((Node.mk rv none ((b :: t).take common)
                      ([] : List (Nat × Node V))).addEdge
                      (child.pref.getD common 0,
                        (writeNode rv child).setPref
                          (child.pref.drop common))).edges) := by
                intro c' hm
                rw [addEdge_nil_edges] at hm
                simp only [List.mem_singleton] at hm
                injection hm with e1 e2
                exact hb2ne e1
              refine WfN.intro _ (Node.sorted_addEdge hsorted1 habs1) ?_ ?_ ?_
              · intro l c hm
                rcases Node.mem_addEdge.mp hm with h1 | h1
                · injection h1 with e1 e2
                  subst e1
                  subst e2
                  simp
                · rw [addEdge_nil_edges] at h1
                  simp only [List.mem_singleton] at h1
                  injection h1 with e1 e2
                  subst e1
                  subst e2
                  exact hmodpref
              · intro l c hm
                rcases Node.mem_addEdge.mp hm with h1 | h1
                · injection h1 with e1 e2
                  subst e1
                  subst e2
                  simp
                · rw [addEdge_nil_edges] at h1
                  simp only [List.mem_singleton] at h1
                  injection h1 with e1 e2
                  subst e1
                  subst e2
                  exact hmodval
              · intro l c hm
                rcases Node.mem_addEdge.mp hm with h1 | h1
                · injection h1 with e1 e2
                  subst e1
                  subst e2
                  exact wfN_of_no_edges rfl
                · rw [addEdge_nil_edges] at h1
                  simp only [List.mem_singleton] at h1
                  injection h1 with e1 e2
                  subst e1
                  subst e2
                  exact hmodwf
  termination_by sizeOf n
  decreasing_by
    · exact Node.sizeOf_child_lt hmemb

theorem getEdge_congr {m n : Node V} (he : m.edges = n.edges) (b : Nat) :
    m.getEdge b = n.getEdge b := by
  cases m with
  | mk r1 v1 p1 es1 =>
    cases n with
    | mk r2 v2 p2 es2 =>
      simp only [Node.edges_mk] at he
      subst he
      rfl

theorem childFor_congr {m n : Node V} (he : m.edges = n.edges) (b : Nat) :
    m.childFor b = n.childFor b := by
  unfold Node.childFor
  rw [getEdge_congr he]

/-- `Get` only looks at the value and the edges of the node it starts from
(its own prefix was consumed by the parent). -/
theorem get_congr {m n : Node V} (hv : m.value = n.value)
    (he : m.edges = n.edges) (q : List Nat) : m.get q = n.get q := by
  cases q with
  | nil => simp [hv]
  | cons b t =>
    rw [get_cons, get_cons, childFor_congr he]

theorem childFor_no_edges {n : Node V} (he : n.edges = []) (b : Nat) :
    n.childFor b = none := by
  unfold Node.childFor Node.getEdge
  simp only
  split
  · rename_i hlen
    rw [he] at hlen
    simp at hlen
  · rfl

theorem hasPref_trans {q p r : List Nat} (h1 : hasPref q p = true)
    (h2 : hasPref p r = true) : hasPref q r = true := by
  rw [hasPref_iff] at *
  obtain ⟨u1, rfl⟩ := h1
  obtain ⟨u2, rfl⟩ := h2
  exact ⟨u2 ++ u1, by simp⟩

theorem hasPref_take (p : List Nat) (k : Nat) :
    hasPref p (p.take k) = true := by
  rw [hasPref_iff]
  exact ⟨p.drop k, (List.take_append_drop k p).symm⟩

theorem hasPref_append_cancel (a x y : List Nat) :
    hasPref (a ++ x) (a ++ y) = hasPref x y := by
  induction a with
  | nil => simp
  | cons b bs ih => simpa [hasPref] using ih

theorem getD_eq_of_hasPref {q p : List Nat} (h : hasPref q p = true)
    {i : Nat} (hi : i < p.length) : q.getD i 0 = p.getD i 0 := by
  obtain ⟨u, rfl⟩ := (hasPref_iff q p).mp h
  rw [List.getD_eq_getElem?_getD, List.getD_eq_getElem?_getD]
  rw [List.getElem?_append_left hi]

theorem not_hasPref_of_longer {q p : List Nat} (h : q.length < p.length) :
    hasPref q p = false := by
  by_contra hcon
  rw [Bool.not_eq_false] at hcon
  obtain ⟨u, rfl⟩ := (hasPref_iff q p).mp hcon
  simp at h

theorem drop_append_len (a u : List Nat) : (a ++ u).drop a.length = u := by
  simp

theorem hasPref_nil_iff (p : List Nat) : hasPref [] p = (p = []) := by
  cases p <;> simp [hasPref]

theorem childFor_single {n : Node V} {l : Nat} {c : Node V}
    (he : n.edges = [(l, c)]) (b : Nat) :
    n.childFor b = if b = l then some c else none := by
  have hsorted : (n.edges.map Prod.fst).Pairwise (· < ·) := by
    rw [he]; simp
  by_cases hb : b = l
  · subst hb
    rw [if_pos rfl]
    exact Node.childFor_of_mem hsorted (by rw [he]; simp)
  · rw [if_neg hb]
    rw [Node.childFor_none_iff hsorted]
    intro c' hc'
    rw [he] at hc'
    simp only [List.mem_singleton] at hc'
    injection hc' with e1 e2
    exact hb e1

theorem getD_append_len (a : List Nat) (x : Nat) (y : List Nat) :
    (a ++ x :: y).getD a.length 0 = x := by
  rw [List.getD_eq_getElem?_getD, List.getElem?_append_right (le_refl _)]
  simp

theorem length_take_of_le {l : List Nat} {k : Nat} (h : k ≤ l.length) :
    (l.take k).length = k := by
  rw [List.length_take]
  omega

theorem not_hasPref_of_getD {q p : List Nat} {i : Nat} (hi : i < p.length)
    (hne : q.getD i 0 ≠ p.getD i 0) : hasPref q p = false := by
  by_contra hcon
  rw [Bool.not_eq_false] at hcon
  exact hne (getD_eq_of_hasPref hcon hi)

/-- Crossing a split point: testing the remaining suffix against the
trimmed prefix and continuing is the same as testing the whole key against
the whole prefix. -/
theorem pref_split_step {a d q u : List Nat} (hq : q = a ++ u)
    (f : List Nat → Option V) :
    (if hasPref u d = true then f (u.drop d.length) else none) =
    (if hasPref q (a ++ d) = true then f (q.drop (a ++ d).length)
      else none) := by
  subst hq
  rw [hasPref_append_cancel]
  by_cases h : hasPref u d = true
  · rw [if_pos h, if_pos h]
    congr 1
    rw [List.length_append]
    exact (List.drop_append d.length).symm
  · rw [if_neg h, if_neg h]

theorem get_writeNode_setPref (rv : Nat) (m : Node V) (p q : List Nat) :
    ((writeNode rv m).setPref p).get q = m.get q :=
  get_congr (by simp) (by simp) q

theorem ne_append_cons (a : List Nat) (x : Nat) (y : List Nat) :
    a ≠ a ++ x :: y := by
  intro h
  have := congrArg List.length h
  simp at this

/-- The central correctness lemma of `Insert`: on a well-formed node the
result looks up as a point update of the original map. -/
theorem get_txInsert {rv : Nat} {n : Node V} (s : List Nat) {v : V}
    (hwf : WfN n) (q : List Nat) :
    (txInsert rv n s v).1.get q = if q = s then some v else n.get q := by
  cases s with
  | nil =>
    rw [txInsert_nil]
    cases q with
    | nil =>
      rw [if_pos rfl]
      simp
    | cons b' t' =>
      rw [if_neg (by simp)]
      have hsve : ((writeNode rv n).setValue (some v)).edges = n.edges := by
        simp
      rw [get_cons, get_cons, childFor_congr hsve b']
  | cons b t =>
    cases hg : (writeNode rv n).getEdge b with
    | none =>
      rw [txInsert_cons_noedge hg]
      have hsnc : ((writeNode rv n).edges.map Prod.fst).Pairwise (· < ·) := by
        rw [writeNode_edges]
        exact hwf.sorted
      have habs : ∀ c', (b, c') ∉ (writeNode rv n).edges :=
        (Node.getEdge_none_iff hsnc).mp hg
      have hcfn : n.childFor b = none := by
        have h1 : (writeNode rv n).childFor b = none := by
          unfold Node.childFor
          rw [hg]
          rfl
        rwa [childFor_writeNode] at h1
      cases q with
      | nil =>
        rw [if_neg (by simp)]
        rw [get_nil, get_nil]
        simp
      | cons b' t' =>
        rw [get_cons, Node.childFor_addEdge hsnc habs b']
        by_cases hb : b' = b
        · subst hb
          rw [if_pos rfl]
          dsimp only
          simp only [Node.pref_mk]
          by_cases hq : hasPref (b' :: t') (b' :: t) = true
          · rw [if_pos hq]
            by_cases hqs : (b' :: t' : List Nat) = (b' :: t)
            · rw [if_pos hqs, hqs, List.drop_length]
              simp
            · rw [if_neg hqs]
              obtain ⟨u, hu⟩ := (hasPref_iff _ _).mp hq
              have hune : u ≠ [] := by
                intro h
                subst h
                rw [List.append_nil] at hu
                exact hqs hu
              cases u with
              | nil => exact absurd rfl hune
              | cons u0 u' =>
                have hdropq : (b' :: t').drop (b' :: t).length = u0 :: u' := by
                  rw [hu]
                  exact drop_append_len _ _
                rw [hdropq, get_cons,
                  childFor_no_edges
                    (n := Node.mk rv (some v) (b' :: t)
                      ([] : List (Nat × Node V))) rfl u0]
                rw [get_cons, hcfn]
          · rw [if_neg hq]
            have hqs : (b' :: t' : List Nat) ≠ (b' :: t) := by
              intro h
              rw [h] at hq
              exact hq (hasPref_refl _)
            rw [if_neg hqs, get_cons, hcfn]
        · rw [if_neg hb, childFor_writeNode]
          have hqs : (b' :: t' : List Nat) ≠ (b :: t) := by
            intro h
            injection h with h1 _
            exact hb h1
          rw [if_neg hqs, get_cons]
    | some ic =>
      cases ic with
      | mk idx child =>
        have hmemb : (b, child) ∈ n.edges := by
          have := Node.getEdge_mem hg
          rwa [writeNode_edges] at this
        have hwfc : WfN child := hwf.child b child hmemb
        have hcfb : n.childFor b = some child := by
          have h1 : (writeNode rv n).childFor b = some child := by
            unfold Node.childFor
            rw [hg]
            rfl
          rwa [childFor_writeNode] at h1
        by_cases hc : longestPref (b :: t) child.pref = child.pref.length
        · -- descend into the matching edge
          rw [txInsert_cons_descend hg hc]
          have hpfx : hasPref (b :: t) child.pref = true :=
            hasPref_of_longestPref_eq hc
          cases q with
          | nil =>
            rw [if_neg (by simp)]
            rw [get_nil, get_nil, Node.setEdgeNode_value, writeNode_value]
          | cons b' t' =>
            rw [get_cons, Node.childFor_setEdgeNode hg _ b']
            by_cases hb : b' = b
            · subst hb
              rw [if_pos rfl]
              dsimp only
              rw [txInsert_fst_pref]
              by_cases hq : hasPref (b' :: t') child.pref = true
              · rw [if_pos hq]
                rw [get_txInsert ((b' :: t).drop child.pref.length) hwfc
                  ((b' :: t').drop child.pref.length)]
                have hrecon_q := append_drop_of_hasPref hq
                have hrecon_s := append_drop_of_hasPref hpfx
                by_cases hqs : (b' :: t' : List Nat) = (b' :: t)
                · rw [if_pos hqs]
                  rw [if_pos (by rw [hqs])]
                · rw [if_neg hqs]
                  rw [if_neg (fun hdr => hqs (by
                    rw [← hrecon_q, ← hrecon_s, hdr]))]
                  rw [get_cons, hcfb]
                  dsimp only
                  rw [if_pos hq]
              · rw [if_neg hq]
                have hqs : (b' :: t' : List Nat) ≠ (b' :: t) := by
                  intro h
                  rw [h] at hq
                  exact hq hpfx
                rw [if_neg hqs, get_cons, hcfb]
                dsimp only
                rw [if_neg hq]
            · rw [if_neg hb, childFor_writeNode]
              have hqs : (b' :: t' : List Nat) ≠ (b :: t) := by
                intro h
                injection h with h1 _
                exact hb h1
              rw [if_neg hqs, get_cons]
        · -- split the matching edge
          rw [txInsert_cons_split hg hc, Node.replaceEdgeT_eq_setEdgeNode hg]
          have hclen : longestPref (b :: t) child.pref < child.pref.length :=
            lt_of_le_of_ne (longestPref_le_right _ _) hc
          have hslen : longestPref (b :: t) child.pref ≤ (b :: t).length :=
            longestPref_le_left _ _
          have htakeq : (b :: t).take (longestPref (b :: t) child.pref) =
              child.pref.take (longestPref (b :: t) child.pref) :=
            longestPref_take _ _
          have hpretake : hasPref child.pref
              ((b :: t).take (longestPref (b :: t) child.pref)) = true := by
            rw [htakeq]
            exact hasPref_take _ _
          cases q with
          | nil =>
            rw [if_neg (by simp)]
            rw [get_nil, get_nil, Node.setEdgeNode_value, writeNode_value]
          | cons b' t' =>
            rw [get_cons, Node.childFor_setEdgeNode hg _ b']
            by_cases hb : b' = b
            · subst hb
              rw [if_pos rfl]
              dsimp only
              cases hdrop :
                  (b' :: t).drop (longestPref (b' :: t) child.pref) with
              | nil =>
                -- the whole remaining key is the common prefix
                have hcmlen : longestPref (b' :: t) child.pref =
                    (b' :: t).length := by
                  have h1 := List.drop_eq_nil_iff.mp hdrop
                  omega
                have htake_self :
                    (b' :: t).take (longestPref (b' :: t) child.pref) =
                      (b' :: t) := by
                  rw [hcmlen, List.take_length]
                have hst : child.pref.take (longestPref (b' :: t) child.pref) =
                    (b' :: t) := htakeq.symm.trans htake_self
                dsimp only
                simp only [Node.setValue_pref, Node.addEdge_pref,
                  Node.pref_mk, htake_self]
                by_cases hq : hasPref (b' :: t') (b' :: t) = true
                · rw [if_pos hq]
                  obtain ⟨u, hu⟩ := (hasPref_iff _ _).mp hq
                  cases u with
                  | nil =>
                    rw [List.append_nil] at hu
                    rw [if_pos hu]
                    have hdropq : (b' :: t').drop (b' :: t).length = [] := by
                      rw [hu]
                      exact List.drop_length _
                    rw [hdropq, get_nil]
                    simp
                  | cons u0 u' =>
                    rw [if_neg (by
                      rw [hu]
                      intro h
                      exact ne_append_cons _ _ _ h.symm)]
                    have hdropq : (b' :: t').drop (b' :: t).length =
                        u0 :: u' := by
                      rw [hu]
                      exact drop_append_len _ _
                    rw [hdropq, get_cons,
                      childFor_single
                        (by rw [Node.setValue_edges]
                            exact addEdge_nil_edges _ _ _ _) u0]
                    by_cases hu0 : u0 =
                        child.pref.getD (longestPref (b' :: t) child.pref) 0
                    · rw [if_pos hu0]
                      dsimp only
                      simp only [Node.setPref_pref]
                      rw [get_writeNode_setPref]
                      have hq' : (b' :: t' : List Nat) =
                          child.pref.take
                              (longestPref (b' :: t) child.pref) ++
                            (u0 :: u') := by
                        rw [hst]
                        exact hu
                      have hstep := pref_split_step
                        (d := child.pref.drop
                          (longestPref (b' :: t) child.pref)) hq' child.get
                      rw [List.take_append_drop] at hstep
                      rw [hstep, get_cons, hcfb]
                    · rw [if_neg hu0]
                      have h1 := getD_append_len (b' :: t) u0 u'
                      rw [← hcmlen] at h1
                      rw [← hu] at h1
                      have hpf : hasPref (b' :: t') child.pref = false :=
                        not_hasPref_of_getD hclen (by rw [h1]; exact hu0)
                      rw [get_cons, hcfb]
                      dsimp only
                      rw [if_neg (by
                        intro hcon
                        rw [hpf] at hcon
                        cases hcon)]
                · rw [if_neg hq]
                  have hqs : (b' :: t' : List Nat) ≠ (b' :: t) := by
                    intro h
                    rw [h] at hq
                    exact hq (hasPref_refl _)
                  rw [if_neg hqs, get_cons, hcfb]
                  dsimp only
                  rw [htake_self] at hpretake
                  rw [if_neg (fun hcon => hq (hasPref_trans hcon hpretake))]
              | cons b2 t2 =>
                have hdc := drop_cons_inv hdrop
                have hlblne : b2 ≠
                    child.pref.getD (longestPref (b' :: t) child.pref) 0 := by
                  have hmm := longestPref_mismatch (a := b' :: t)
                    (b := child.pref) hdc.1 hclen
                  rw [hdc.2] at hmm
                  exact hmm
                have hlen_take :
                    ((b' :: t).take (longestPref (b' :: t) child.pref)).length =
                      longestPref (b' :: t) child.pref :=
                  length_take_of_le (le_of_lt hdc.1)
                dsimp only
                simp only [Node.addEdge_pref, Node.pref_mk]
                by_cases hq1 : hasPref (b' :: t')
                    ((b' :: t).take (longestPref (b' :: t) child.pref)) = true
                · rw [if_pos hq1]
                  obtain ⟨u, hu⟩ := (hasPref_iff _ _).mp hq1
                  have hdropq : (b' :: t').drop
                      ((b' :: t).take
                        (longestPref (b' :: t) child.pref)).length = u := by
                    rw [hu]
                    exact drop_append_len _ _
                  have hueq : (b' :: t' : List Nat) = (b' :: t) →
                      u = b2 :: t2 := by
                    intro h
                    have h2 := hdropq.symm
                    rw [h] at h2
                    rw [hlen_take, hdrop] at h2
                    exact h2
                  rw [hdropq]
                  cases u with
                  | nil =>
                    rw [List.append_nil] at hu
                    rw [get_nil]
                    simp only [Node.addEdge_value, Node.value_mk]
                    have hqs : (b' :: t' : List Nat) ≠ (b' :: t) := by
                      intro h
                      exact List.cons_ne_nil _ _ (hueq h).symm
                    rw [if_neg hqs, get_cons, hcfb]
                    dsimp only
                    have hshort : (b' :: t').length < child.pref.length := by
                      rw [hu, hlen_take]
                      exact hclen
                    rw [if_neg (by
                      intro hcon
                      rw [not_hasPref_of_longer hshort] at hcon
                      cases hcon)]
                  | cons u0 u' =>
                    rw [get_cons,
                      Node.childFor_addEdge
                        (by rw [addEdge_nil_edges]; simp)
                        (by intro c' hm
                            rw [addEdge_nil_edges] at hm
                            simp only [List.mem_singleton] at hm
                            injection hm with e1 _
                            exact hlblne e1) u0]
                    have h1 := getD_append_len
                      ((b' :: t).take (longestPref (b' :: t) child.pref)) u0 u'
                    rw [hlen_take] at h1
                    rw [← hu] at h1
                    by_cases hu0b2 : u0 = b2
                    · rw [if_pos hu0b2]
                      dsimp only
                      simp only [Node.pref_mk]
                      by_cases hq2 : hasPref (u0 :: u') (b2 :: t2) = true
                      · rw [if_pos hq2]
                        obtain ⟨w, hw⟩ := (hasPref_iff _ _).mp hq2
                        have hdropw : (u0 :: u').drop (b2 :: t2).length =
                            w := by
                          rw [hw]
                          exact drop_append_len _ _
                        rw [hdropw]
                        cases w with
                        | nil =>
                          rw [List.append_nil] at hw
                          have hqs : (b' :: t' : List Nat) = (b' :: t) := by
                            rw [hu, hw]
                            conv_rhs => rw [← List.take_append_drop
                              (longestPref (b' :: t) child.pref) (b' :: t),
                              hdrop]
                          rw [if_pos hqs, get_nil]
                          simp
                        | cons w0 w' =>
                          rw [get_cons,
                            childFor_no_edges
                              (n := Node.mk rv (some v) (b2 :: t2)
                                ([] : List (Nat × Node V))) rfl w0]
                          dsimp only
                          have hqs : (b' :: t' : List Nat) ≠ (b' :: t) := by
                            intro h
                            have h2 := hueq h
                            rw [hw] at h2
                            have h3 := congrArg List.length h2
                            simp [List.length_append] at h3
                          rw [if_neg hqs, get_cons, hcfb]
                          dsimp only
                          have hpf : hasPref (b' :: t') child.pref = false :=
                            not_hasPref_of_getD hclen (by
                              rw [h1, hu0b2]
                              exact hlblne)
                          rw [if_neg (by
                            intro hcon
                            rw [hpf] at hcon
                            cases hcon)]
                      · rw [if_neg hq2]
                        have hqs : (b' :: t' : List Nat) ≠ (b' :: t) := by
                          intro h
                          exact hq2 (by
                            rw [hueq h]
                            exact hasPref_refl _)
                        rw [if_neg hqs, get_cons, hcfb]
                        dsimp only
                        have hpf : hasPref (b' :: t') child.pref = false :=
                          not_hasPref_of_getD hclen (by
                            rw [h1, hu0b2]
                            exact hlblne)
                        rw [if_neg (by
                          intro hcon
                          rw [hpf] at hcon
                          cases hcon)]
                    · rw [if_neg hu0b2]
                      rw [childFor_single (addEdge_nil_edges _ _ _ _) u0]
                      have hqs : (b' :: t' : List Nat) ≠ (b' :: t) := by
                        intro h
                        have h2 := hueq h
                        injection h2 with h3 _
                        exact hu0b2 h3
                      by_cases hu0l : u0 =
                          child.pref.getD (longestPref (b' :: t) child.pref) 0
                      · rw [if_pos hu0l]
                        dsimp only
                        simp only [Node.setPref_pref]
                        rw [get_writeNode_setPref]
                        rw [if_neg hqs]
                        have hq' : (b' :: t' : List Nat) =
                            child.pref.take
                                (longestPref (b' :: t) child.pref) ++
                              (u0 :: u') := by
                          rw [hu, htakeq]
                        have hstep := pref_split_step
                          (d := child.pref.drop
                            (longestPref (b' :: t) child.pref)) hq' child.get
                        rw [List.take_append_drop] at hstep
                        rw [hstep, get_cons, hcfb]
                      · rw [if_neg hu0l]
                        rw [if_neg hqs, get_cons, hcfb]
                        dsimp only
                        have hpf : hasPref (b' :: t') child.pref = false :=
                          not_hasPref_of_getD hclen (by
                            rw [h1]
                            exact hu0l)
                        rw [if_neg (by
                          intro hcon
                          rw [hpf] at hcon
                          cases hcon)]
                · rw [if_neg hq1]
                  have hqs : (b' :: t' : List Nat) ≠ (b' :: t) := by
                    intro h
                    rw [h] at hq1
                    exact hq1 (hasPref_take _ _)
                  rw [if_neg hqs, get_cons, hcfb]
                  dsimp only
                  rw [if_neg (fun hcon => hq1 (hasPref_trans hcon hpretake))]
            · rw [if_neg hb, childFor_writeNode]
              have hqs : (b' :: t' : List Nat) ≠ (b :: t) := by
                intro h
                injection h with h1 _
                exact hb h1
              rw [if_neg hqs, get_cons]
  termination_by sizeOf n
  decreasing_by
    · exact Node.sizeOf_child_lt hmemb

/-! ## Unfolding lemmas of `Txn.delete` -/

theorem txDelete_nil_none {rv : Nat} {isRoot : Bool} {n : Node V}
    (h : n.value = none) : txDelete rv isRoot n [] = none := by
  unfold txDelete
  rw [h]

theorem txDelete_nil_some {rv : Nat} {isRoot : Bool} {n : Node V} {old : V}
    (h : n.value = some old) :
    txDelete rv isRoot n [] =
      some
        (if !isRoot && ((writeNode rv n).setValue none).edges.length == 1 then
           mergeChild ((writeNode rv n).setValue none)
         else (writeNode rv n).setValue none, old) := by
  unfold txDelete
  rw [h]

theorem txDelete_cons_noedge {rv : Nat} {isRoot : Bool} {n : Node V}
    {b : Nat} {t : List Nat} (hg : n.getEdge b = none) :
    txDelete rv isRoot n (b :: t) = none := by
  unfold txDelete
  split
  <;> first
    | rfl
    | (rename_i idx child heq
       exact Option.noConfusion (hg.symm.trans heq))

theorem txDelete_cons_nopref {rv : Nat} {isRoot : Bool} {n : Node V}
    {b : Nat} {t : List Nat} {idx : Nat} {child : Node V}
    (hg : n.getEdge b = some (idx, child))
    (hp : ¬ hasPref (b :: t) child.pref = true) :
    txDelete rv isRoot n (b :: t) = none := by
  unfold txDelete
  split
  <;> first
    | rfl
    | (rename_i idx' child' heq
       have h' := hg.symm.trans heq
       injection h' with h''
       injection h'' with h1 h2
       subst h1
       subst h2
       rw [if_neg hp])

theorem txDelete_cons_rec {rv : Nat} {isRoot : Bool} {n : Node V}
    {b : Nat} {t : List Nat} {idx : Nat} {child : Node V}
    (hg : n.getEdge b = some (idx, child))
    (hp : hasPref (b :: t) child.pref = true) :
    txDelete rv isRoot n (b :: t) =
      match txDelete rv false child ((b :: t).drop child.pref.length) with
      | none => none
      | some (newChild, old) =>
        if newChild.value.isNone && newChild.edges.isEmpty then
          some
            (if !isRoot && ((writeNode rv n).delEdge b).edges.length == 1 &&
                ((writeNode rv n).delEdge b).value.isNone then
               mergeChild ((writeNode rv n).delEdge b)
             else (writeNode rv n).delEdge b, old)
        else some ((writeNode rv n).setEdgeNode idx newChild, old) := by
  conv_lhs => unfold txDelete
  split
  <;> first
    | (rename_i heq
       exact Option.noConfusion (hg.symm.trans heq))
    | (rename_i idx' child' heq
       have h' := hg.symm.trans heq
       injection h' with h''
       injection h'' with h1 h2
       subst h1
       subst h2
       rw [if_pos hp])

/-! ## Delete: semantics helpers -/

/-- Lookup from the parent's perspective: consume this node's own prefix
first (a node's `Get` starts after its prefix was matched by the parent). -/
def getP (n : Node V) (q : List Nat) : Option V :=
  if hasPref q n.pref then n.get (q.drop n.pref.length) else none

theorem get_of_empty {n : Node V} (hv : n.value = none) (he : n.edges = [])
    (x : List Nat) : n.get x = none := by
  cases x with
  | nil => simpa using hv
  | cons b u =>
    rw [get_cons, childFor_no_edges he]

theorem getP_of_empty {n : Node V} (hv : n.value = none) (he : n.edges = [])
    (q : List Nat) : getP n q = none := by
  unfold getP
  split
  · exact get_of_empty hv he _
  · rfl

theorem mergeChild_eq {nc : Node V} {l0 : Nat} {c0 : Node V}
    {rest : List (Nat × Node V)} (he : nc.edges = (l0, c0) :: rest) :
    mergeChild nc =
      Node.mk nc.revision c0.value (concatB nc.pref c0.pref) c0.edges := by
  unfold mergeChild
  split
  · rename_i l' c' rest' heq
    rw [he] at heq
    injection heq with h1 h2
    injection h1 with h3 h4
    subst h4
    rfl
  · rename_i heq
    rw [he] at heq
    cases heq

theorem wf_delEdge {n : Node V} (hwf : WfN n) (b : Nat) :
    WfN (n.delEdge b) := by
  refine WfN.intro _ (Node.sorted_delEdge hwf.sorted) ?_ ?_ ?_
  · intro l c hm
    exact hwf.head l c ((Node.mem_delEdge_iff hwf.sorted).mp hm).1
  · intro l c hm
    exact hwf.valEdges l c ((Node.mem_delEdge_iff hwf.sorted).mp hm).1
  · intro l c hm
    exact hwf.child l c ((Node.mem_delEdge_iff hwf.sorted).mp hm).1

theorem wf_mergeChild {nc : Node V} {l0 : Nat} {c0 : Node V}
    {rest : List (Nat × Node V)} (he : nc.edges = (l0, c0) :: rest)
    (hwfc : WfN c0) : WfN (mergeChild nc) := by
  rw [mergeChild_eq he]
  exact wfN_of_edges_eq (by simp [concatB]) hwfc

theorem hasPref_cons_ne {b : Nat} {u : List Nat} {l : Nat} {p : List Nat}
    (h : b ≠ l) : hasPref (b :: u) (l :: p) = false := by
  simp [hasPref, h]

/-- Collapsing a valueless single-edge node does not change what is stored
under it, seen from the parent. -/
theorem getP_mergeChild {nc : Node V} {l0 : Nat} {c0 : Node V}
    (he : nc.edges = [(l0, c0)]) (hv : nc.value = none)
    (hh : c0.pref.head? = some l0) (q : List Nat) :
    getP (mergeChild nc) q = getP nc q := by
  rw [mergeChild_eq he]
  obtain ⟨cb, cp, hcp⟩ : ∃ cb cp, c0.pref = cb :: cp ∧ cb = l0 := by
    cases hx : c0.pref with
    | nil =>
      rw [hx] at hh
      cases hh
    | cons cb cp =>
      rw [hx] at hh
      simp only [List.head?_cons] at hh
      injection hh with h'
      exact ⟨cb, cp, rfl, h'⟩
  obtain ⟨hcp, rfl⟩ := hcp
  unfold getP
  simp only [Node.pref_mk, concatB]
  by_cases h1 : hasPref q nc.pref = true
  · obtain ⟨u, hu⟩ := (hasPref_iff _ _).mp h1
    rw [if_pos h1]
    have hdropu : q.drop nc.pref.length = u := by
      rw [hu]
      exact drop_append_len _ _
    rw [hdropu]
    have hcond : hasPref q (nc.pref ++ c0.pref) = hasPref u c0.pref := by
      rw [hu, hasPref_append_cancel]
    rw [hcond]
    cases u with
    | nil =>
      have hfalse : hasPref [] c0.pref = false := by
        rw [hcp]
        rfl
      rw [if_neg (by rw [hfalse]; simp), get_nil, hv]
    | cons b u2 =>
      rw [get_cons]
      rw [childFor_single he b]
      by_cases hbl : b = cb
      · subst hbl
        rw [if_pos rfl]
        dsimp only
        by_cases h2 : hasPref (b :: u2) c0.pref = true
        · rw [if_pos h2, if_pos h2]
          have hget : (Node.mk nc.revision c0.value (nc.pref ++ c0.pref)
              c0.edges).get (q.drop (nc.pref ++ c0.pref).length) =
              c0.get ((b :: u2).drop c0.pref.length) := by
            rw [get_congr (n := c0) (by simp) (by simp) _]
            congr 1
            rw [hu, List.length_append, List.drop_append]
          rw [hget]
        · rw [if_neg h2, if_neg h2]
      · rw [if_neg hbl]
        dsimp only
        have hfalse : hasPref (b :: u2) c0.pref = false := by
          rw [hcp]
          exact hasPref_cons_ne hbl
        rw [if_neg (by rw [hfalse]; simp)]
  · rw [if_neg h1]
    have h2 : ¬ hasPref q (nc.pref ++ c0.pref) = true := by
      intro hcon
      exact h1 (hasPref_trans hcon (hasPref_append _ _))
    rw [if_neg h2]

theorem getP_same_shape {m n : Node V} (hpref : m.pref = n.pref)
    (hval : m.value = none) (hcf : ∀ b, m.childFor b = n.childFor b)
    (q : List Nat) : getP m q = if q = n.pref then none else getP n q := by
  unfold getP
  rw [hpref]
  by_cases h1 : hasPref q n.pref = true
  · rw [if_pos h1]
    obtain ⟨u, hu⟩ := (hasPref_iff _ _).mp h1
    have hdropu : q.drop n.pref.length = u := by
      rw [hu]
      exact drop_append_len _ _
    rw [hdropu]
    cases u with
    | nil =>
      rw [List.append_nil] at hu
      rw [if_pos hu, get_nil, hval]
    | cons b2 u2 =>
      have hqne : q ≠ n.pref := by
        rw [hu]
        intro h
        exact ne_append_cons _ _ _ h.symm
      rw [if_neg hqne, if_pos h1, get_cons, get_cons, hcf b2]
  · rw [if_neg h1]
    have hqne : q ≠ n.pref := by
      intro h
      rw [h] at h1
      exact h1 (hasPref_refl _)
    rw [if_neg hqne, if_neg h1]

/-- Removing the edge to a now-empty child updates the parent-view map at
exactly the deleted key. -/
theorem getP_delEdge_step {rv : Nat} {n : Node V} {b : Nat} {t : List Nat}
    {idx : Nat} {child newChild : Node V}
    (hwf : WfN n) (hg : n.getEdge b = some (idx, child))
    (hp : hasPref (b :: t) child.pref = true)
    (hchild : ∀ q', getP newChild q' =
      if q' = b :: t then none else getP child q')
    (hvE : newChild.value = none) (heE : newChild.edges = [])
    (q : List Nat) :
    getP ((writeNode rv n).delEdge b) q =
      if q = n.pref ++ (b :: t) then none else getP n q := by
  have hsnc : ((writeNode rv n).edges.map Prod.fst).Pairwise (· < ·) := by
    rw [writeNode_edges]
    exact hwf.sorted
  have hcfb : n.childFor b = some child := by
    unfold Node.childFor
    rw [hg]
    rfl
  have hprefd : ((writeNode rv n).delEdge b).pref = n.pref := by simp
  unfold getP
  rw [hprefd]
  by_cases h1 : hasPref q n.pref = true
  · rw [if_pos h1]
    obtain ⟨u, hu⟩ := (hasPref_iff _ _).mp h1
    have hdropu : q.drop n.pref.length = u := by
      rw [hu]
      exact drop_append_len _ _
    rw [hdropu]
    have hiff : q = n.pref ++ (b :: t) ↔ u = b :: t := by
      rw [hu]
      exact ⟨fun h => List.append_cancel_left h, fun h => by rw [h]⟩
    cases u with
    | nil =>
      have hqne : ¬ q = n.pref ++ (b :: t) := fun h => by cases hiff.mp h
      rw [if_neg hqne, if_pos h1, get_nil, get_nil]
      simp
    | cons b2 u2 =>
      rw [get_cons, Node.childFor_delEdge hsnc b2]
      by_cases hb2 : b2 = b
      · subst hb2
        rw [if_pos rfl]
        dsimp only
        by_cases hub : (b2 :: u2 : List Nat) = b2 :: t
        · rw [if_pos (hiff.mpr hub)]
        · rw [if_neg (fun h => hub (hiff.mp h)), if_pos h1,
            get_cons, hcfb]
          dsimp only
          by_cases h2 : hasPref (b2 :: u2) child.pref = true
          · rw [if_pos h2]
            have h3 := hchild (b2 :: u2)
            rw [getP_of_empty hvE heE] at h3
            rw [if_neg hub] at h3
            unfold getP at h3
            rw [if_pos h2] at h3
            exact h3
          · rw [if_neg h2]
      · rw [if_neg hb2, childFor_writeNode]
        have hqne : ¬ q = n.pref ++ (b :: t) := by
          intro h
          have h2 := hiff.mp h
          injection h2 with h3 _
          exact hb2 h3
        rw [if_neg hqne, if_pos h1, get_cons]
  · rw [if_neg h1]
    have hqne : ¬ q = n.pref ++ (b :: t) := by
      intro h
      rw [h] at h1
      exact h1 (hasPref_append _ _)
    rw [if_neg hqne, if_neg h1]

/-- Replacing the edge child with the recursively deleted child updates the
parent-view map at exactly the deleted key. -/
theorem getP_setEdge_step {rv : Nat} {n : Node V} {b : Nat} {t : List Nat}
    {idx : Nat} {child newChild : Node V}
    (hwf : WfN n) (hg : n.getEdge b = some (idx, child))
    (hchild : ∀ q', getP newChild q' =
      if q' = b :: t then none else getP child q')
    (q : List Nat) :
    getP ((writeNode rv n).setEdgeNode idx newChild) q =
      if q = n.pref ++ (b :: t) then none else getP n q := by
  have hgw : (writeNode rv n).getEdge b = some (idx, child) := by
    rw [getEdge_writeNode]
    exact hg
  have hcfb : n.childFor b = some child := by
    unfold Node.childFor
    rw [hg]
    rfl
  have hprefd : ((writeNode rv n).setEdgeNode idx newChild).pref = n.pref := by
    rw [Node.setEdgeNode_pref, writeNode_pref]
  unfold getP
  rw [hprefd]
  by_cases h1 : hasPref q n.pref = true
  · rw [if_pos h1]
    obtain ⟨u, hu⟩ := (hasPref_iff _ _).mp h1
    have hdropu : q.drop n.pref.length = u := by
      rw [hu]
      exact drop_append_len _ _
    rw [hdropu]
    have hiff : q = n.pref ++ (b :: t) ↔ u = b :: t := by
      rw [hu]
      exact ⟨fun h => List.append_cancel_left h, fun h => by rw [h]⟩
    cases u with
    | nil =>
      have hqne : ¬ q = n.pref ++ (b :: t) := fun h => by cases hiff.mp h
      rw [if_neg hqne, if_pos h1, get_nil, get_nil,
        Node.setEdgeNode_value, writeNode_value]
    | cons b2 u2 =>
      rw [get_cons, Node.childFor_setEdgeNode hgw _ b2]
      by_cases hb2 : b2 = b
      · subst hb2
        rw [if_pos rfl]
        dsimp only
        have h3 := hchild (b2 :: u2)
        unfold getP at h3
        by_cases hub : (b2 :: u2 : List Nat) = b2 :: t
        · rw [if_pos (hiff.mpr hub)]
          rw [if_pos hub] at h3
          exact h3
        · rw [if_neg (fun h => hub (hiff.mp h)), if_pos h1,
            get_cons, hcfb]
          dsimp only
          rw [if_neg hub] at h3
          exact h3
      · rw [if_neg hb2, childFor_writeNode]
        have hqne : ¬ q = n.pref ++ (b :: t) := by
          intro h
          have h2 := hiff.mp h
          injection h2 with h3 _
          exact hb2 h3
        rw [if_neg hqne, if_pos h1, get_cons]
  · rw [if_neg h1]
    have hqne : ¬ q = n.pref ++ (b :: t) := by
      intro h
      rw [h] at h1
      exact h1 (hasPref_append _ _)
    rw [if_neg hqne, if_neg h1]

/-- `delete` returns `nil` exactly when nothing was removed; then the key was
not present. -/
theorem txDelete_none_spec {rv : Nat} {isRoot : Bool} {n : Node V}
    (s : List Nat) (hwf : WfN n) (hd : txDelete rv isRoot n s = none) :
    n.get s = none := by
  cases s with
  | nil =>
    cases hv : n.value with
    | none =>
      rw [get_nil]
      exact hv
    | some old =>
      rw [txDelete_nil_some hv] at hd
      cases hd
  | cons b t =>
    cases hg : n.getEdge b with
    | none =>
      have hcf : n.childFor b = none := by
        unfold Node.childFor
        rw [hg]
        rfl
      rw [get_cons, hcf]
    | some ic =>
      cases ic with
      | mk idx child =>
        have hcf : n.childFor b = some child := by
          unfold Node.childFor
          rw [hg]
          rfl
        by_cases hp : hasPref (b :: t) child.pref = true
        · rw [txDelete_cons_rec hg hp] at hd
          cases hrec : txDelete rv false child
              ((b :: t).drop child.pref.length) with
          | some pr =>
            rw [hrec] at hd
            cases pr with
            | mk newChild oldc =>
              dsimp only at hd
              split at hd <;> cases hd
          | none =>
            rw [hrec] at hd
            have hwfc : WfN child := hwf.child b child (Node.getEdge_mem hg)
            have hih := txDelete_none_spec
              ((b :: t).drop child.pref.length) hwfc hrec
            rw [get_cons, hcf]
            dsimp only
            rw [if_pos hp, hih]
        · rw [get_cons, hcf]
          dsimp only
          rw [if_neg hp]
  termination_by sizeOf n
  decreasing_by
    · exact Node.sizeOf_child_lt (Node.getEdge_mem hg)

/-- Full specification of a successful `delete`: the removed value was the
stored one, invariants are preserved, the node's prefix is only ever
extended (never at the root), and the parent-view map loses exactly the
deleted key. -/
theorem txDelete_some_spec {rv : Nat} {isRoot : Bool} {n : Node V}
    (s : List Nat) {n' : Node V} {old : V} (hwf : WfN n)
    (hd : txDelete rv isRoot n s = some (n', old)) :
    n.get s = some old ∧ WfN n' ∧
      (∃ ext, n'.pref = n.pref ++ ext ∧ (isRoot = true → ext = [])) ∧
      (∀ q, getP n' q = if q = n.pref ++ s then none else getP n q) := by
  cases s with
  | nil =>
    cases hv : n.value with
    | none =>
      rw [txDelete_nil_none hv] at hd
      cases hd
    | some old0 =>
      rw [txDelete_nil_some hv] at hd
      injection hd with h'
      injection h' with h1 h2
      subst h2
      have hbase : ∀ q, getP ((writeNode rv n).setValue none) q =
          if q = n.pref then none else getP n q := fun q =>
        getP_same_shape (by simp) (by simp)
          (fun b => childFor_congr (by simp) b) q
      refine ⟨by rw [get_nil, hv], ?_, ?_, ?_⟩
      · rw [← h1]
        split
        · rename_i hcond
          simp only [Bool.and_eq_true, Bool.not_eq_true', beq_iff_eq]
            at hcond
          have hlen1 : n.edges.length = 1 := by
            have h2 := hcond.2
            simpa using h2
          obtain ⟨e, he⟩ := List.length_eq_one.mp hlen1
          cases e with
          | mk l0 c0 =>
            have he' : ((writeNode rv n).setValue none).edges =
                (l0, c0) :: [] := by simp [he]
            exact wf_mergeChild he' (hwf.child l0 c0 (by rw [he]; simp))
        · exact wfN_of_edges_eq (by simp) hwf
      · rw [← h1]
        split
        · rename_i hcond
          simp only [Bool.and_eq_true, Bool.not_eq_true', beq_iff_eq]
            at hcond
          have hlen1 : n.edges.length = 1 := by
            have h2 := hcond.2
            simpa using h2
          obtain ⟨e, he⟩ := List.length_eq_one.mp hlen1
          cases e with
          | mk l0 c0 =>
            have he' : ((writeNode rv n).setValue none).edges =
                (l0, c0) :: [] := by simp [he]
            refine ⟨c0.pref, ?_, ?_⟩
            · rw [mergeChild_eq he']
              simp [concatB]
            · intro habs
              rw [habs] at hcond
              cases hcond.1
        · exact ⟨[], by simp, fun _ => rfl⟩
      · intro q
        rw [← h1, List.append_nil]
        split
        · rename_i hcond
          simp only [Bool.and_eq_true, Bool.not_eq_true', beq_iff_eq]
            at hcond
          have hlen1 : n.edges.length = 1 := by
            have h2 := hcond.2
            simpa using h2
          obtain ⟨e, he⟩ := List.length_eq_one.mp hlen1
          cases e with
          | mk l0 c0 =>
            have he' : ((writeNode rv n).setValue none).edges =
                [(l0, c0)] := by simp [he]
            rw [getP_mergeChild he' (by simp)
              (hwf.head l0 c0 (by rw [he]; simp)) q]
            exact hbase q
        · exact hbase q
  | cons b t =>
    cases hg : n.getEdge b with
    | none =>
      rw [txDelete_cons_noedge hg] at hd
      cases hd
    | some ic =>
      cases ic with
      | mk idx child =>
        have hmemb : (b, child) ∈ n.edges := Node.getEdge_mem hg
        have hwfc : WfN child := hwf.child b child hmemb
        have hheadc : child.pref.head? = some b := hwf.head b child hmemb
        have hcfb : n.childFor b = some child := by
          unfold Node.childFor
          rw [hg]
          rfl
        by_cases hp : hasPref (b :: t) child.pref = true
        · rw [txDelete_cons_rec hg hp] at hd
          cases hrec : txDelete rv false child
              ((b :: t).drop child.pref.length) with
          | none =>
            rw [hrec] at hd
            cases hd
          | some pr =>
            cases pr with
            | mk newChild old0 =>
              rw [hrec] at hd
              dsimp only at hd
              obtain ⟨hgetold, hwfnew, ⟨ext, hexts, _⟩, hspec⟩ :=
                txDelete_some_spec ((b :: t).drop child.pref.length) hwfc hrec
              have hkey : child.pref ++ (b :: t).drop child.pref.length =
                  b :: t := append_drop_of_hasPref hp
              have hchild' : ∀ q', getP newChild q' =
                  if q' = b :: t then none else getP child q' := by
                intro q'
                have h1 := hspec q'
                simp only [hkey] at h1
                exact h1
              by_cases hempty :
                  (newChild.value.isNone && newChild.edges.isEmpty) = true
              · rw [if_pos hempty] at hd
                injection hd with h'
                injection h' with h1 h2
                subst h2
                simp only [Bool.and_eq_true, Option.isNone_iff_eq_none,
                  List.isEmpty_iff] at hempty
                have hvE : newChild.value = none := hempty.1
                have heE : newChild.edges = [] := hempty.2
                have hbase := @getP_delEdge_step _ rv _ _ _ _ _ _ hwf hg hp
                  hchild' hvE heE
                have hwfnd : WfN ((writeNode rv n).delEdge b) :=
                  wf_delEdge (wfN_writeNode hwf) b
                refine ⟨?_, ?_, ?_, ?_⟩
                · rw [get_cons, hcfb]
                  dsimp only
                  rw [if_pos hp, hgetold]
                · rw [← h1]
                  split
                  · rename_i hcond
                    simp only [Bool.and_eq_true, Bool.not_eq_true',
                      beq_iff_eq] at hcond
                    obtain ⟨e, he⟩ := List.length_eq_one.mp hcond.1.2
                    cases e with
                    | mk l0 c0 =>
                      have he' : ((writeNode rv n).delEdge b).edges =
                          (l0, c0) :: [] := by rw [he]
                      exact wf_mergeChild he'
                        (hwfnd.child l0 c0 (by rw [he]; simp))
                  · exact hwfnd
                · rw [← h1]
                  split
                  · rename_i hcond
                    simp only [Bool.and_eq_true, Bool.not_eq_true',
                      beq_iff_eq] at hcond
                    obtain ⟨e, he⟩ := List.length_eq_one.mp hcond.1.2
                    cases e with
                    | mk l0 c0 =>
                      have he' : ((writeNode rv n).delEdge b).edges =
                          (l0, c0) :: [] := by rw [he]
                      refine ⟨c0.pref, ?_, ?_⟩
                      · rw [mergeChild_eq he']
                        simp [concatB]
                      · intro habs
                        rw [habs] at hcond
                        cases hcond.1.1
                  · exact ⟨[], by simp, fun _ => rfl⟩
                · intro q
                  rw [← h1]
                  split
                  · rename_i hcond
                    simp only [Bool.and_eq_true, Bool.not_eq_true',
                      beq_iff_eq, Option.isNone_iff_eq_none] at hcond
                    obtain ⟨e, he⟩ := List.length_eq_one.mp hcond.1.2
                    cases e with
                    | mk l0 c0 =>
                      have he' : ((writeNode rv n).delEdge b).edges =
                          [(l0, c0)] := by rw [he]
                      rw [getP_mergeChild he' hcond.2
                        (hwfnd.head l0 c0 (by rw [he]; simp)) q]
                      exact hbase q
                  · exact hbase q
              · rw [if_neg hempty] at hd
                injection hd with h'
                injection h' with h1 h2
                subst h2
                have hvalE : newChild.value.isSome = true ∨
                    newChild.edges ≠ [] := by
                  cases hval : newChild.value with
                  | some v => exact Or.inl rfl
                  | none =>
                    refine Or.inr ?_
                    intro hcone
                    refine hempty ?_
                    rw [hval, hcone]
                    rfl
                have hgw : (writeNode rv n).getEdge b = some (idx, child) := by
                  rw [getEdge_writeNode]
                  exact hg
                have hheadnew : newChild.pref.head? = some b := by
                  rw [hexts]
                  cases hcp : child.pref with
                  | nil =>
                    rw [hcp] at hheadc
                    cases hheadc
                  | cons cb cp =>
                    rw [hcp] at hheadc
                    simp only [List.head?_cons] at hheadc
                    simpa using hheadc
                refine ⟨?_, ?_, ?_, ?_⟩
                · rw [get_cons, hcfb]
                  dsimp only
                  rw [if_pos hp, hgetold]
                · rw [← h1]
                  exact wf_setEdgeNode (wfN_writeNode hwf) hgw hheadnew
                    hvalE hwfnew
                · rw [← h1]
                  exact ⟨[], by simp [Node.setEdgeNode_pref], fun _ => rfl⟩
                · intro q
                  rw [← h1]
                  exact getP_setEdge_step hwf hg hchild' q
        · rw [txDelete_cons_nopref hg hp] at hd
          cases hd
  termination_by sizeOf n
  decreasing_by
    · exact Node.sizeOf_child_lt hmemb

/-! ## Root-level invariant and the transaction-level map semantics -/

/-- A committed root: structurally well formed, with the empty prefix (the
root node is never merged, so its prefix stays empty). -/
def WfRoot (n : Node V) : Prop := WfN n ∧ n.pref = []

theorem getP_pref_nil {n : Node V} (hp : n.pref = []) (q : List Nat) :
    getP n q = n.get q := by
  unfold getP
  rw [hp]
  simp [hasPref]

theorem wfRoot_empty : WfRoot (emptyNode (V := V)) :=
  ⟨wfN_of_no_edges rfl, rfl⟩

/-- Each transaction operation transforms the root exactly as the reference
map semantics prescribes, and keeps the root invariant. -/
theorem applyOp_root {t : Txn V} (hwf : WfRoot t.root) (op : Op V) :
    WfRoot (applyOp t op).root ∧
      ∀ q, (applyOp t op).root.get q = specApply (fun x => t.root.get x) op q := by
  cases op with
  | ins k v =>
    refine ⟨⟨wf_txInsert hwf.1, (txInsert_fst_pref _ _ _ _).trans hwf.2⟩,
      fun q => ?_⟩
    exact get_txInsert k hwf.1 q
  | del k =>
    have happ : applyOp t (.del k) = (t.delete k).1 := rfl
    cases hd : txDelete t.revision true t.root k with
    | none =>
      have hroot : (t.delete k).1 = t := by
        unfold Txn.delete
        rw [hd]
      rw [happ, hroot]
      have hn := txDelete_none_spec k hwf.1 hd
      refine ⟨hwf, fun q => ?_⟩
      show t.root.get q = if q = k then none else t.root.get q
      split
      · rename_i hq
        subst hq
        exact hn
      · rfl
    | some pr =>
      cases pr with
      | mk nr old =>
        have hroot : (t.delete k).1 = ⟨t.revision, nr⟩ := by
          unfold Txn.delete
          rw [hd]
        obtain ⟨hget, hwf', ⟨ext, hext, hroot0⟩, hspec⟩ :=
          txDelete_some_spec k hwf.1 hd
        have hextnil : ext = [] := hroot0 rfl
        have hprefnr : nr.pref = [] := by
          rw [hext, hextnil, hwf.2]
          rfl
        rw [happ, hroot]
        refine ⟨⟨hwf', hprefnr⟩, fun q => ?_⟩
        show nr.get q = if q = k then none else t.root.get q
        have h1 := hspec q
        rw [getP_pref_nil hprefnr, getP_pref_nil hwf.2, hwf.2] at h1
        simpa using h1

theorem foldl_applyOp {t : Txn V} (ops : List (Op V)) (hwf : WfRoot t.root) :
    WfRoot ((ops.foldl applyOp t).root) ∧
      ∀ q, (ops.foldl applyOp t).root.get q =
        ops.foldl specApply (fun x => t.root.get x) q := by
  induction ops generalizing t with
  | nil => exact ⟨hwf, fun _ => rfl⟩
  | cons op ops ih =>
    obtain ⟨hw1, hg1⟩ := applyOp_root hwf op
    obtain ⟨hw2, hg2⟩ := ih hw1
    refine ⟨hw2, fun q => ?_⟩
    rw [List.foldl_cons, List.foldl_cons, hg2 q]
    have hfun : (fun x => (applyOp t op).root.get x) =
        specApply (fun x => t.root.get x) op := funext hg1
    rw [hfun]

theorem runTxn_spec {n : Node V} (ops : List (Op V)) (hwf : WfRoot n) :
    WfRoot (runTxn n ops) ∧
      ∀ q, (runTxn n ops).get q =
        ops.foldl specApply (fun x => n.get x) q :=
  foldl_applyOp ops hwf

theorem runTxns_spec {n : Node V} (bs : List (List (Op V))) (hwf : WfRoot n) :
    WfRoot (runTxns n bs) ∧
      ∀ q, (runTxns n bs).get q =
        (bs.flatMap id).foldl specApply (fun x => n.get x) q := by
  induction bs generalizing n with
  | nil => exact ⟨hwf, fun _ => rfl⟩
  | cons b bs ih =>
    obtain ⟨hw1, hg1⟩ := runTxn_spec b hwf
    obtain ⟨hw2, hg2⟩ := ih hw1
    refine ⟨hw2, fun q => ?_⟩
    show (runTxns (runTxn n b) bs).get q = _
    rw [hg2 q]
    have hfun : (fun x => (runTxn n b).get x) =
        b.foldl specApply (fun x => n.get x) := funext hg1
    rw [hfun]
    simp only [List.flatMap_cons, id_eq, List.foldl_append]

/-- C1: starting from the empty tree, any finite sequence of `Insert` and
`Delete` operations applied through transactions yields a root on which
`Get` agrees with the reference finite map: the most recent insert of a
key not undone by a later delete wins, and every other key is absent. -/
theorem c1_last_wins_map_semantics (bs : List (List (Op V))) (k : List Nat) :
    (runFromEmpty bs).get k = specOf bs k := by
  have h := (runTxns_spec bs (wfRoot_empty (V := V))).2 k
  unfold runFromEmpty
  rw [h]
  unfold specOf
  have hfun : (fun x => (emptyNode (V := V)).get x) =
      (fun _ => (none : Option V)) := funext fun x => get_of_empty (n := emptyNode) rfl rfl x
  rw [hfun]

/-! ## C10: `replaceEdge` and the "replacing missing edge" panic -/

theorem replaceEdge_none_iff_getEdge {n : Node V} (e : Nat × Node V) :
    n.replaceEdge e = none ↔ n.getEdge e.fst = none := by
  unfold Node.replaceEdge Node.getEdge
  dsimp only
  by_cases h : searchE n.edges e.fst < n.edges.length
  · rw [dif_pos h, dif_pos h]
    by_cases h2 : (n.edges.get ⟨searchE n.edges e.fst, h⟩).fst = e.fst
    · rw [if_pos h2, if_pos h2]
      simp
    · rw [if_neg h2, if_neg h2]
      exact ⟨fun _ => rfl, fun _ => rfl⟩
  · rw [dif_neg h, dif_neg h]
    exact ⟨fun _ => rfl, fun _ => rfl⟩

/-- C10: on a node whose edge labels are sorted (the stated representation
invariant), `replaceEdge e` panics — modelled as `none` — exactly when no
edge carries the label `e.fst`; and whenever some edge does carry it, the
call succeeds, its result keeps the node's value and prefix, routes
`e.fst` to the new child `e.snd`, and routes every other label exactly as
before. -/
theorem c10_replaceEdge_spec {n : Node V} (e : Nat × Node V)
    (hsorted : (n.edges.map Prod.fst).Pairwise (· < ·)) :
    (n.replaceEdge e = none ↔ ∀ c, (e.fst, c) ∉ n.edges) ∧
    (∀ c, (e.fst, c) ∈ n.edges → ∃ m, n.replaceEdge e = some m ∧
      m.value = n.value ∧ m.pref = n.pref ∧
      m.childFor e.fst = some e.snd ∧
      ∀ b, b ≠ e.fst → m.childFor b = n.childFor b) := by
  obtain ⟨lbl, nd⟩ := e
  constructor
  · rw [replaceEdge_none_iff_getEdge]
    exact Node.getEdge_none_iff hsorted
  · intro c hmem
    have hget : n.getEdge lbl = some (searchE n.edges lbl, c) :=
      Node.getEdge_of_mem hsorted hmem
    have hne : n.replaceEdge (lbl, nd) ≠ none := by
      intro hcon
      rw [replaceEdge_none_iff_getEdge] at hcon
      rw [hget] at hcon
      cases hcon
    cases hrep : n.replaceEdge (lbl, nd) with
    | none => exact absurd hrep hne
    | some m =>
      have hm : m = n.setEdgeNode (searchE n.edges lbl) nd := by
        have heq := Node.replaceEdgeT_eq_setEdgeNode hget nd
        unfold Node.replaceEdgeT at heq
        rw [hrep] at heq
        exact heq
      refine ⟨m, rfl, ?_, ?_, ?_, ?_⟩
      · rw [hm, Node.setEdgeNode_value]
      · rw [hm, Node.setEdgeNode_pref]
      · rw [hm, Node.childFor_setEdgeNode hget nd lbl, if_pos rfl]
      · intro b hb
        rw [hm, Node.childFor_setEdgeNode hget nd b, if_neg hb]

def c10node : Node Nat :=
  Node.mk 0 none []
    [(1, Node.mk 0 (some 10) [1] []), (3, Node.mk 0 (some 30) [3] [])]

def c10new : Node Nat := Node.mk 0 (some 20) [3, 7] []

theorem c10_replaceEdge_spec_witness :
    ((c10node.edges.map Prod.fst).Pairwise (· < ·)) ∧
    ((c10node.replaceEdge (3, c10new) = none ↔
        ∀ c, ((3 : Nat), c) ∉ c10node.edges) ∧
      (∀ c, ((3 : Nat), c) ∈ c10node.edges →
        ∃ m, c10node.replaceEdge (3, c10new) = some m ∧
          m.value = c10node.value ∧ m.pref = c10node.pref ∧
          m.childFor 3 = some c10new ∧
          ∀ b, b ≠ 3 → m.childFor b = c10node.childFor b)) :=
  ⟨by decide, c10_replaceEdge_spec (3, c10new) (by decide)⟩

/-! ## C9: `Clone` and the two transactions' revision stamps -/

/-- C9 (amended): `Clone` bumps the original transaction's revision and
returns a new transaction sharing the current root; both the original and
the clone then carry the SAME incremented revision stamp `old + 1` — the
two stamps are equal, not distinct. -/
theorem c9_clone_same_revision (t : Txn V) :
    (t.clone).1.revision = t.revision + 1 ∧
    (t.clone).2.revision = t.revision + 1 ∧
    (t.clone).1.root = t.root ∧ (t.clone).2.root = t.root ∧
    (t.clone).1.revision = (t.clone).2.revision :=
  ⟨rfl, rfl, rfl, rfl, rfl⟩

/-- C9 (counterexample to the frozen claim): on a concrete transaction over
the empty tree, the post-`Clone` revision stamps of the original and of the
clone coincide, refuting `t1.revision ≠ t2.revision`. -/
theorem c9_clone_revision_ne_refuted :
    ¬ ((NewTxn (emptyNode (V := Nat))).clone.1.revision ≠
        (NewTxn (emptyNode (V := Nat))).clone.2.revision) :=
  fun h => h rfl

/-! ## The per-subtree entry list: the specification of iteration

`subVals n` is the list of values stored in the subtree of `n` in the order
the forward iterator emits them (the node's own value, then each child's
subtree in edge order); `subEntries n` pairs each value with its key
relative to `n` (the bytes consumed below `n`, i.e. excluding `n.pref`). -/

def subVals (n : Node V) : List V :=
  (match n.value with
   | some v => [v]
   | none => []) ++
    n.edges.attach.flatMap (fun x =>
      match x with
      | ⟨(_, c), _⟩ => subVals c)
  termination_by sizeOf n
  decreasing_by exact Node.sizeOf_child_lt (by assumption)

def subEntries (n : Node V) : List (List Nat × V) :=
  (match n.value with
   | some v => [(([] : List Nat), v)]
   | none => []) ++
    n.edges.attach.flatMap (fun x =>
      match x with
      | ⟨(_, c), _⟩ =>
        (subEntries c).map (fun kv => (c.pref ++ kv.1, kv.2)))
  termination_by sizeOf n
  decreasing_by exact Node.sizeOf_child_lt (by assumption)

theorem attach_flatMap {α β : Type} (l : List α) (f : α → List β) :
    l.attach.flatMap (fun x => f x.1) = l.flatMap f := by
  induction l with
  | nil => rfl
  | cons a t ih =>
    simp only [List.attach_cons, List.flatMap_cons, List.flatMap_map]
    rw [← ih]

theorem subVals_eq (n : Node V) :
    subVals n = (match n.value with
      | some v => [v]
      | none => []) ++ n.edges.flatMap (fun e => subVals e.2) := by
  conv_lhs => unfold subVals
  congr 1
  rw [← attach_flatMap n.edges (fun e => subVals e.2)]

theorem subEntries_eq (n : Node V) :
    subEntries n = (match n.value with
      | some v => [(([] : List Nat), v)]
      | none => []) ++
      n.edges.flatMap (fun e =>
        (subEntries e.2).map (fun kv => (e.2.pref ++ kv.1, kv.2))) := by
  conv_lhs => unfold subEntries
  congr 1
  rw [← attach_flatMap n.edges
    (fun e => (subEntries e.2).map (fun kv => (e.2.pref ++ kv.1, kv.2)))]

theorem flatMap_congr_mem {α β : Type} {l : List α} {f g : α → List β}
    (h : ∀ a ∈ l, f a = g a) : l.flatMap f = l.flatMap g := by
  induction l with
  | nil => rfl
  | cons a t ih =>
    simp only [List.flatMap_cons]
    rw [h a (by simp), ih (fun a ha => h a (by simp [ha]))]

theorem subEntries_vals (n : Node V) :
    (subEntries n).map Prod.snd = subVals n := by
  rw [subEntries_eq, subVals_eq, List.map_append]
  congr 1
  · cases n.value <;> rfl
  · rw [List.map_flatMap]
    refine flatMap_congr_mem (fun e he => ?_)
    rw [List.map_map]
    have : (Prod.snd ∘ fun kv : List Nat × V => (e.2.pref ++ kv.1, kv.2)) =
        Prod.snd := rfl
    rw [this]
    exact subEntries_vals e.2
  termination_by sizeOf n
  decreasing_by exact Node.sizeOf_child_lt (by exact he)

theorem head?_append_left {p : List Nat} {a : Nat} (h : p.head? = some a)
    (x : List Nat) : (p ++ x).head? = some a := by
  cases p with
  | nil => cases h
  | cons q qs => simpa using h

theorem keyLt_of_head_lt {x y : List Nat} {a b : Nat}
    (hx : x.head? = some a) (hy : y.head? = some b) (hab : a < b) :
    keyLt x y := by
  cases x with
  | nil => cases hx
  | cons c cs =>
    cases y with
    | nil => cases hy
    | cons d ds =>
      injection hx with hx
      injection hy with hy
      subst hx
      subst hy
      simp [keyLt, bcmp, hab]

/-- Keys coming out of an edge list in label order are strictly ascending,
provided each child's keys are, each child's keys start with its label, and
the labels are sorted. -/
theorem pairwise_keys_flatMap {es : List (Nat × Node V)}
    (hsorted : (es.map Prod.fst).Pairwise (· < ·))
    (hhead : ∀ l c, (l, c) ∈ es → c.pref.head? = some l)
    (hch : ∀ l c, (l, c) ∈ es →
      ((subEntries c).map Prod.fst).Pairwise keyLt) :
    ((es.flatMap fun e =>
        (subEntries e.2).map (fun kv => (e.2.pref ++ kv.1, kv.2))).map
      Prod.fst).Pairwise keyLt := by
  induction es with
  | nil => simp
  | cons e rest ih =>
    cases e with
    | mk l c =>
      rw [List.flatMap_cons, List.map_append, List.pairwise_append]
      have hson : (List.map Prod.fst rest).Pairwise (· < ·) :=
        (by simpa using hsorted : _ ∧ _).2
      refine ⟨?_, ?_, ?_⟩
      · rw [List.map_map]
        have hmap : (Prod.fst ∘ fun kv : List Nat × V =>
            (c.pref ++ kv.1, kv.2)) =
            (fun k => c.pref ++ k) ∘ Prod.fst := rfl
        rw [hmap, ← List.map_map]
        exact (hch l c (by simp)).map _ (fun a b hab => keyLt_append_right hab)
      · exact ih hson (fun l' c' hm => hhead l' c' (by simp [hm]))
          (fun l' c' hm => hch l' c' (by simp [hm]))
      · intro a ha b hb
        simp only [List.map_map, List.mem_map] at ha
        obtain ⟨kv, _, hkva⟩ := ha
        simp only [List.mem_map, List.mem_flatMap] at hb
        obtain ⟨kv', ⟨e', he', hkv'⟩, hkvb⟩ := hb
        have hkv2 : ∃ kv0 ∈ subEntries e'.2,
            (e'.2.pref ++ kv0.1, kv0.2) = kv' := by simpa using hkv'
        obtain ⟨kv0, _, hkv0⟩ := hkv2
        have hla : a.head? = some l := by
          rw [← hkva]
          exact head?_append_left (hhead l c (by simp)) _
        have hlb : b.head? = some e'.1 := by
          rw [← hkvb, ← hkv0]
          exact head?_append_left
            (hhead e'.1 e'.2 (by simpa using List.mem_cons_of_mem _ he')) _
        have hlt : l < e'.1 := by
          have := List.pairwise_cons.mp hsorted
          exact this.1 e'.1 (by
            simp only [List.mem_map]
            exact ⟨e', he', rfl⟩)
        exact keyLt_of_head_lt hla hlb hlt

/-- Under the structural invariant, the relative keys of a subtree are
strictly ascending in `bytes.Compare` order. -/
theorem subEntries_sorted {n : Node V} (hwf : WfN n) :
    ((subEntries n).map Prod.fst).Pairwise keyLt := by
  rw [subEntries_eq, List.map_append, List.pairwise_append]
  refine ⟨?_, ?_, ?_⟩
  · cases n.value <;> simp
  · exact pairwise_keys_flatMap hwf.sorted hwf.head
      (fun l c hm => subEntries_sorted (hwf.child l c hm))
  · intro a ha b hb
    have hanil : a = [] := by
      cases hv : n.value with
      | none => rw [hv] at ha; cases ha
      | some w =>
        rw [hv] at ha
        simp at ha
        exact ha
    subst hanil
    simp only [List.mem_map, List.mem_flatMap] at hb
    obtain ⟨kv, ⟨e, he, hkv⟩, hkvb⟩ := hb
    have hkv2 : ∃ kv0 ∈ subEntries e.2,
        (e.2.pref ++ kv0.1, kv0.2) = kv := by simpa using hkv
    obtain ⟨kv0, _, hkv0⟩ := hkv2
    have hlb : b.head? = some e.1 := by
      rw [← hkvb, ← hkv0]
      exact head?_append_left (hwf.head e.1 e.2 (by simpa using he)) _
    cases b with
    | nil => cases hlb
    | cons x xs => simp [keyLt, bcmp]
  termination_by sizeOf n
  decreasing_by exact Node.sizeOf_child_lt (by assumption)

/-- The relative entry list is exactly the graph of `Get` below `n`. -/
theorem get_iff_subEntries {n : Node V} (hwf : WfN n) (k : List Nat) (v : V) :
    n.get k = some v ↔ (k, v) ∈ subEntries n := by
  cases k with
  | nil =>
    rw [get_nil, subEntries_eq]
    simp only [List.mem_append]
    constructor
    · intro h
      left
      rw [h]
      simp
    · rintro (h | h)
      · cases hv : n.value with
        | none => rw [hv] at h; cases h
        | some w =>
          rw [hv] at h
          simp at h
          rw [h]
      · exfalso
        simp only [List.mem_flatMap, List.mem_map] at h
        obtain ⟨e, he, kv, _, hkv⟩ := h
        have := hwf.head e.1 e.2 (by simpa using he)
        have hnil : e.2.pref ++ kv.1 = [] := congrArg Prod.fst hkv
        rw [List.append_eq_nil] at hnil
        rw [hnil.1] at this
        cases this
  | cons b t =>
    rw [get_cons, subEntries_eq]
    simp only [List.mem_append]
    constructor
    · intro h
      cases hcf : n.childFor b with
      | none => rw [hcf] at h; cases h
      | some c =>
        rw [hcf] at h
        dsimp only at h
        by_cases hp : hasPref (b :: t) c.pref = true
        · rw [if_pos hp] at h
          have hmem : (b, c) ∈ n.edges := Node.childFor_mem hcf
          have hih := (get_iff_subEntries (hwf.child b c hmem)
            ((b :: t).drop c.pref.length) v).mp h
          right
          simp only [List.mem_flatMap, List.mem_map]
          refine ⟨(b, c), by simpa using hmem,
            ((b :: t).drop c.pref.length, v), hih, ?_⟩
          simp only
          rw [append_drop_of_hasPref hp]
        · rw [if_neg hp] at h
          cases h
    · rintro (h | h)
      · exfalso
        cases hv : n.value with
        | none => rw [hv] at h; cases h
        | some w =>
          rw [hv] at h
          simp at h
      · simp only [List.mem_flatMap, List.mem_map] at h
        obtain ⟨e, he, kv, hkv, heq⟩ := h
        have hkey : e.2.pref ++ kv.1 = b :: t := congrArg Prod.fst heq
        have hval : kv.2 = v := congrArg Prod.snd heq
        have hhead := hwf.head e.1 e.2 (by simpa using he)
        have hlab : e.1 = b := by
          have := head?_append_left hhead kv.1
          rw [hkey] at this
          simpa using this.symm
        have hmem : (b, e.2) ∈ n.edges := by
          rw [← hlab]
          simpa using he
        have hcf : n.childFor b = some e.2 :=
          Node.childFor_of_mem hwf.sorted hmem
        rw [hcf]
        dsimp only
        have hp : hasPref (b :: t) e.2.pref = true := by
          rw [hasPref_iff]
          exact ⟨kv.1, hkey.symm⟩
        rw [if_pos hp]
        have hdrop : (b :: t).drop e.2.pref.length = kv.1 := by
          rw [← hkey, drop_append_len]
        rw [hdrop, ← hval]
        exact (get_iff_subEntries (hwf.child b e.2 hmem) kv.1 kv.2).mpr
          (by
            have hkveta : (kv.1, kv.2) = kv := rfl
            rw [hkveta]
            exact hkv)
  termination_by sizeOf n
  decreasing_by
    · exact Node.sizeOf_child_lt hmem
    · exact Node.sizeOf_child_lt hmem

/-! ## The forward iterator (`iter.go`)

The iterator state is the stack of edge-list frames.  Go appends new frames
at the END of `i.stack` and inspects `i.stack[n-1]`; here the HEAD of the
list is that last (top) frame, so Go's `append(stack, fr)` is `fr :: stack`.
Within a frame Go inspects `last[0]` — frames keep their order. -/

theorem attach_map {α β : Type} (l : List α) (f : α → β) :
    l.attach.map (fun x => f x.1) = l.map f := by
  simp

/-- Size of a subtree (number of nodes); the iterator's termination
measure. -/
def nodeW (n : Node V) : Nat :=
  1 + (n.edges.attach.map (fun x =>
    match x with
    | ⟨(_, c), _⟩ => nodeW c)).sum
  termination_by sizeOf n
  decreasing_by exact Node.sizeOf_child_lt (by assumption)

def frameW (fr : List (Nat × Node V)) : Nat :=
  (fr.map (fun e => nodeW e.2)).sum

def stackW (st : List (List (Nat × Node V))) : Nat :=
  (st.map frameW).sum

theorem nodeW_eq (n : Node V) : nodeW n = 1 + frameW n.edges := by
  conv_lhs => unfold nodeW
  rw [frameW]
  congr 1
  exact congrArg List.sum (attach_map n.edges (fun e => nodeW e.2))

theorem frameW_edges_lt (n : Node V) : frameW n.edges < nodeW n := by
  rw [nodeW_eq]
  omega

@[simp] theorem frameW_nil : frameW ([] : List (Nat × Node V)) = 0 := rfl

@[simp] theorem frameW_cons (e : Nat × Node V) (fr : List (Nat × Node V)) :
    frameW (e :: fr) = nodeW e.2 + frameW fr := by
  simp [frameW]

@[simp] theorem stackW_nil : stackW ([] : List (List (Nat × Node V))) = 0 := rfl

@[simp] theorem stackW_cons (fr : List (Nat × Node V))
    (st : List (List (Nat × Node V))) :
    stackW (fr :: st) = frameW fr + stackW st := by
  simp [stackW]

/-- The conditional frame push shared by `Next`'s two stack updates: Go
replaces the top frame by its nonempty tail (else pops it), and pushes
`elem.edges` only when nonempty. -/
def pushFrame (fr : List (Nat × Node V)) (st : List (List (Nat × Node V))) :
    List (List (Nat × Node V)) :=
  if fr.isEmpty then st else fr :: st

theorem stackW_pushFrame (fr : List (Nat × Node V))
    (st : List (List (Nat × Node V))) :
    stackW (pushFrame fr st) = frameW fr + stackW st := by
  unfold pushFrame
  split
  · rename_i h
    rw [List.isEmpty_iff] at h
    subst h
    simp
  · simp

theorem length_pushFrame_le (fr : List (Nat × Node V))
    (st : List (List (Nat × Node V))) :
    (pushFrame fr st).length ≤ st.length + 1 := by
  unfold pushFrame
  split <;> simp

/-- Go `Iterator.Next`, one call: `none` is Go's `return nil` (iteration
exhausted), `some (v, st)` returns the value `v` and the updated stack. -/
def nextIter : List (List (Nat × Node V)) →
    Option (V × List (List (Nat × Node V)))
  | [] => none
  | last :: rest =>
    match last with
    | [] => nextIter rest
    | (_, elem) :: tail =>
      match elem.value with
      | some v => some (v, pushFrame elem.edges (pushFrame tail rest))
      | none => nextIter (pushFrame elem.edges (pushFrame tail rest))
  termination_by st => 2 * stackW st + st.length
  decreasing_by
    · simp only [stackW_cons, frameW_nil, List.length_cons]
      omega
    · have h1 : frameW elem.edges < nodeW elem := frameW_edges_lt elem
      have h2 := stackW_pushFrame elem.edges (pushFrame tail rest)
      have h3 := stackW_pushFrame tail rest
      have h4 := length_pushFrame_le elem.edges (pushFrame tail rest)
      have h5 := length_pushFrame_le tail rest
      simp only [stackW_cons, frameW_cons, List.length_cons]
      omega

theorem nextIter_nil : nextIter (V := V) [] = none := by
  conv_lhs => unfold nextIter

theorem nextIter_empty_frame (rest : List (List (Nat × Node V))) :
    nextIter ([] :: rest) = nextIter rest := by
  conv_lhs => unfold nextIter

theorem nextIter_cons_some {elem : Node V} {v : V} (l : Nat)
    (tail : List (Nat × Node V)) (rest : List (List (Nat × Node V)))
    (hv : elem.value = some v) :
    nextIter (((l, elem) :: tail) :: rest) =
      some (v, pushFrame elem.edges (pushFrame tail rest)) := by
  conv_lhs => unfold nextIter
  dsimp only
  rw [hv]

theorem nextIter_cons_none {elem : Node V} (l : Nat)
    (tail : List (Nat × Node V)) (rest : List (List (Nat × Node V)))
    (hv : elem.value = none) :
    nextIter (((l, elem) :: tail) :: rest) =
      nextIter (pushFrame elem.edges (pushFrame tail rest)) := by
  conv_lhs => unfold nextIter
  dsimp only
  rw [hv]

/-- Each produced step strictly shrinks the termination measure, so the
iteration terminates. -/
theorem nextIter_measure {st st' : List (List (Nat × Node V))} {v : V}
    (h : nextIter st = some (v, st')) :
    2 * stackW st' + st'.length < 2 * stackW st + st.length := by
  have H : ∀ m (st st' : List (List (Nat × Node V))) (v : V),
      2 * stackW st + st.length ≤ m → nextIter st = some (v, st') →
      2 * stackW st' + st'.length < 2 * stackW st + st.length := by
    intro m
    induction m with
    | zero =>
      intro st st' v hm h
      cases st with
      | nil => rw [nextIter_nil] at h; cases h
      | cons last rest =>
        simp only [stackW_cons, List.length_cons] at hm
        omega
    | succ m ih =>
      intro st st' v hm h
      cases st with
      | nil => rw [nextIter_nil] at h; cases h
      | cons last rest =>
        cases last with
        | nil =>
          rw [nextIter_empty_frame] at h
          have hrec := ih rest st' v (by
            simp only [stackW_cons, frameW_nil, List.length_cons] at hm
            omega) h
          simp only [stackW_cons, frameW_nil, List.length_cons]
          omega
        | cons e tail =>
          cases e with
          | mk l elem =>
            have h1' : frameW elem.edges < nodeW elem := frameW_edges_lt elem
            have h2' := stackW_pushFrame elem.edges (pushFrame tail rest)
            have h3 := stackW_pushFrame tail rest
            have h4 := length_pushFrame_le elem.edges (pushFrame tail rest)
            have h5 := length_pushFrame_le tail rest
            cases hv : elem.value with
            | some w =>
              rw [nextIter_cons_some l tail rest hv] at h
              injection h with h'
              injection h' with h1 h2
              subst h2
              simp only [stackW_cons, frameW_cons, List.length_cons]
              omega
            | none =>
              rw [nextIter_cons_none l tail rest hv] at h
              have hm2 : 2 * stackW (pushFrame elem.edges (pushFrame tail rest)) +
                  (pushFrame elem.edges (pushFrame tail rest)).length ≤ m := by
                simp only [stackW_cons, frameW_cons, List.length_cons] at hm
                omega
              have hrec := ih _ st' v hm2 h
              simp only [stackW_cons, frameW_cons, List.length_cons]
              omega
  exact H (2 * stackW st + st.length) st st' v (le_refl _) h

/-- Exhaustive iteration: call `Next` until it returns `nil`, collecting the
returned values in order. -/
def collectIter (st : List (List (Nat × Node V))) : List V :=
  match h : nextIter st with
  | none => []
  | some (v, st') => v :: collectIter st'
  termination_by 2 * stackW st + st.length
  decreasing_by exact nextIter_measure h

theorem collectIter_none {st : List (List (Nat × Node V))}
    (h : nextIter st = none) : collectIter st = [] := by
  conv_lhs => unfold collectIter
  split
  · rfl
  · rename_i v st' heq
    rw [h] at heq
    cases heq

theorem collectIter_some {st st' : List (List (Nat × Node V))} {v : V}
    (h : nextIter st = some (v, st')) :
    collectIter st = v :: collectIter st' := by
  conv_lhs => unfold collectIter
  split
  · rename_i heq
    rw [h] at heq
    cases heq
  · rename_i w st2 heq
    rw [h] at heq
    injection heq with heq'
    injection heq' with h1 h2
    subst h1
    subst h2
    rfl

/-- The values still pending in a stack: frames top-down, each frame's
entries in order, each entry its whole subtree. -/
def stVals (st : List (List (Nat × Node V))) : List V :=
  st.flatMap (fun fr => fr.flatMap (fun e => subVals e.2))

@[simp] theorem stVals_nil : stVals ([] : List (List (Nat × Node V))) = [] := rfl

@[simp] theorem stVals_cons (fr : List (Nat × Node V))
    (st : List (List (Nat × Node V))) :
    stVals (fr :: st) = fr.flatMap (fun e => subVals e.2) ++ stVals st := by
  simp [stVals]

theorem stVals_pushFrame (fr : List (Nat × Node V))
    (st : List (List (Nat × Node V))) :
    stVals (pushFrame fr st) = fr.flatMap (fun e => subVals e.2) ++ stVals st := by
  unfold pushFrame
  split
  · rename_i h
    rw [List.isEmpty_iff] at h
    subst h
    simp
  · simp

/-- Exhaustive `Next` iteration returns exactly the pending values of the
stack, in order. -/
theorem collectIter_stVals (st : List (List (Nat × Node V))) :
    collectIter st = stVals st := by
  have H : ∀ m (st : List (List (Nat × Node V))),
      2 * stackW st + st.length ≤ m → collectIter st = stVals st := by
    intro m
    induction m with
    | zero =>
      intro st hm
      cases st with
      | nil => rw [collectIter_none nextIter_nil, stVals_nil]
      | cons last rest =>
        simp only [stackW_cons, List.length_cons] at hm
        omega
    | succ m ih =>
      intro st hm
      cases st with
      | nil => rw [collectIter_none nextIter_nil, stVals_nil]
      | cons last rest =>
        cases last with
        | nil =>
          have hstep : collectIter ([] :: rest) = collectIter rest := by
            cases hn : nextIter rest with
            | none =>
              rw [collectIter_none ((nextIter_empty_frame rest).trans hn),
                collectIter_none hn]
            | some p =>
              cases p with
              | mk v st' =>
                rw [collectIter_some ((nextIter_empty_frame rest).trans hn),
                  collectIter_some hn]
          rw [hstep, ih rest (by
            simp only [stackW_cons, frameW_nil, List.length_cons] at hm
            omega)]
          simp
        | cons e tail =>
          cases e with
          | mk l elem =>
            have h1' : frameW elem.edges < nodeW elem := frameW_edges_lt elem
            have h2' := stackW_pushFrame elem.edges (pushFrame tail rest)
            have h3 := stackW_pushFrame tail rest
            have h4 := length_pushFrame_le elem.edges (pushFrame tail rest)
            have h5 := length_pushFrame_le tail rest
            have hm2 : 2 * stackW (pushFrame elem.edges (pushFrame tail rest)) +
                (pushFrame elem.edges (pushFrame tail rest)).length ≤ m := by
              simp only [stackW_cons, frameW_cons, List.length_cons] at hm
              omega
            cases hv : elem.value with
            | some v =>
              rw [collectIter_some (nextIter_cons_some l tail rest hv),
                ih _ hm2, stVals_pushFrame, stVals_pushFrame]
              simp only [stVals_cons, List.flatMap_cons]
              rw [subVals_eq elem, hv]
              simp
            | none =>
              have hstep : collectIter (((l, elem) :: tail) :: rest) =
                  collectIter (pushFrame elem.edges (pushFrame tail rest)) := by
                cases hn : nextIter (pushFrame elem.edges (pushFrame tail rest)) with
                | none =>
                  rw [collectIter_none
                      ((nextIter_cons_none l tail rest hv).trans hn),
                    collectIter_none hn]
                | some p =>
                  cases p with
                  | mk v st' =>
                    rw [collectIter_some
                        ((nextIter_cons_none l tail rest hv).trans hn),
                      collectIter_some hn]
              rw [hstep, ih _ hm2, stVals_pushFrame, stVals_pushFrame]
              simp only [stVals_cons, List.flatMap_cons]
              rw [subVals_eq elem, hv]
              simp
  exact H (2 * stackW st + st.length) st (le_refl _)

/-- The stack `Next` builds on its first call on a fresh iterator over `n`
(Go pushes a single zero-labelled edge to `i.node`). -/
def iterInit (n : Node V) : List (List (Nat × Node V)) := [[(0, n)]]

theorem collectIter_iterInit (n : Node V) :
    collectIter (iterInit n) = subVals n := by
  rw [collectIter_stVals]
  simp [iterInit, stVals]

/-- C3: on any committed root reached from the empty tree by transactions
of `Insert`/`Delete` operations, exhausting `Next()` on a fresh `Iterator`
yields exactly the stored values, keyed by strictly ascending keys, each
exactly once: the output is the value column of the entry list, whose key
column is strictly ascending in `bytes.Compare` order and whose graph is
exactly `Get`. -/
theorem c3_forward_iteration (bs : List (List (Op V))) :
    collectIter (iterInit (runFromEmpty bs)) =
      (subEntries (runFromEmpty bs)).map Prod.snd ∧
    ((subEntries (runFromEmpty bs)).map Prod.fst).Pairwise keyLt ∧
    (∀ k v, (runFromEmpty bs).get k = some v ↔
      (k, v) ∈ subEntries (runFromEmpty bs)) := by
  have hwf : WfN (runFromEmpty bs) := (runTxns_spec bs wfRoot_empty).1.1
  exact ⟨by rw [collectIter_iterInit, subEntries_vals],
    subEntries_sorted hwf,
    fun k v => get_iff_subEntries hwf k v⟩

/-! ## `SeekPrefix` (iter.go) -/

theorem hasPref_nil_cons (b : Nat) (t : List Nat) :
    hasPref [] (b :: t) = false := rfl

theorem hasPref_any_nil (x : List Nat) : hasPref x [] = true := by
  cases x <;> rfl

theorem hasPref_head_ne {k : List Nat} {l b : Nat} {t : List Nat}
    (hh : k.head? = some l) (hne : l ≠ b) : hasPref k (b :: t) = false := by
  cases k with
  | nil => cases hh
  | cons a as =>
    injection hh with hh
    subst hh
    simp [hasPref, hne]

theorem filter_flatMap {α β : Type} (l : List α) (f : α → List β)
    (p : β → Bool) :
    (l.flatMap f).filter p = l.flatMap (fun a => (f a).filter p) := by
  induction l with
  | nil => rfl
  | cons a tl ih => simp [List.flatMap_cons, List.filter_append, ih]

theorem filter_child_ne {c : Node V} {l b : Nat} {t : List Nat}
    (hh : c.pref.head? = some l) (hne : l ≠ b) :
    ((subEntries c).map (fun kv => (c.pref ++ kv.1, kv.2))).filter
      (fun kv => hasPref kv.1 (b :: t)) = [] := by
  rw [List.filter_eq_nil_iff]
  intro kv hm
  simp only [List.mem_map] at hm
  obtain ⟨kv0, _, hk⟩ := hm
  rw [← hk]
  simp only
  rw [hasPref_head_ne (head?_append_left hh _) hne]
  simp

theorem flatMap_filter_label {es : List (Nat × Node V)} {b : Nat}
    {t : List Nat} {c : Node V}
    (hsorted : (es.map Prod.fst).Pairwise (· < ·))
    (hhead : ∀ l c', (l, c') ∈ es → c'.pref.head? = some l)
    (hm : (b, c) ∈ es) :
    es.flatMap (fun e =>
        ((subEntries e.2).map (fun kv => (e.2.pref ++ kv.1, kv.2))).filter
          (fun kv => hasPref kv.1 (b :: t))) =
      ((subEntries c).map (fun kv => (c.pref ++ kv.1, kv.2))).filter
        (fun kv => hasPref kv.1 (b :: t)) := by
  induction es with
  | nil => cases hm
  | cons e rest ih =>
    cases e with
    | mk l c' =>
      rw [List.flatMap_cons]
      rcases List.mem_cons.mp hm with heq | hmr
      · injection heq with h1 h2
        subst h1
        subst h2
        have hrest : rest.flatMap (fun e =>
            ((subEntries e.2).map (fun kv => (e.2.pref ++ kv.1, kv.2))).filter
              (fun kv => hasPref kv.1 (b :: t))) = [] := by
          rw [List.flatMap_eq_nil_iff]
          intro e he
          cases e with
          | mk l2 c2 =>
            have hlt : b < l2 := by
              have := List.pairwise_cons.mp hsorted
              exact this.1 l2 (by
                simp only [List.mem_map]
                exact ⟨(l2, c2), he, rfl⟩)
            exact filter_child_ne
              (hhead l2 c2 (List.mem_cons_of_mem _ he)) (by omega)
        rw [hrest, List.append_nil]
      · have hlb : l < b := by
          have := List.pairwise_cons.mp hsorted
          exact this.1 b (by
            simp only [List.mem_map]
            exact ⟨(b, c), hmr, rfl⟩)
        rw [filter_child_ne (hhead l c' (by simp)) (by omega),
          List.nil_append]
        exact ih (List.pairwise_cons.mp hsorted).2
          (fun l2 c2 h2 => hhead l2 c2 (List.mem_cons_of_mem _ h2)) hmr

theorem flatMap_filter_label_none {es : List (Nat × Node V)} {b : Nat}
    {t : List Nat}
    (hhead : ∀ l c', (l, c') ∈ es → c'.pref.head? = some l)
    (hno : ∀ c, (b, c) ∉ es) :
    es.flatMap (fun e =>
        ((subEntries e.2).map (fun kv => (e.2.pref ++ kv.1, kv.2))).filter
          (fun kv => hasPref kv.1 (b :: t))) = [] := by
  rw [List.flatMap_eq_nil_iff]
  intro e he
  cases e with
  | mk l c' =>
    have hne : l ≠ b := by
      intro hcon
      subst hcon
      exact hno c' he
    exact filter_child_ne (hhead l c' he) hne

theorem filter_entries_value_nil {n : Node V} (b : Nat) (t : List Nat) :
    (match n.value with
      | some v => [(([] : List Nat), v)]
      | none => ([] : List (List Nat × V))).filter
        (fun kv : List Nat × V => hasPref kv.1 (b :: t)) = [] := by
  cases n.value <;> simp [hasPref_nil_cons]

theorem filter_entries_of_mem {n : Node V} (hwf : WfN n) {b : Nat}
    (t : List Nat) {c : Node V} (hm : (b, c) ∈ n.edges) :
    (subEntries n).filter (fun kv => hasPref kv.1 (b :: t)) =
      ((subEntries c).map (fun kv => (c.pref ++ kv.1, kv.2))).filter
        (fun kv => hasPref kv.1 (b :: t)) := by
  rw [subEntries_eq, List.filter_append, filter_entries_value_nil,
    List.nil_append, filter_flatMap]
  exact flatMap_filter_label hwf.sorted hwf.head hm

theorem filter_entries_none {n : Node V} (hwf : WfN n) {b : Nat}
    (t : List Nat) (hcf : n.childFor b = none) :
    (subEntries n).filter (fun kv => hasPref kv.1 (b :: t)) = [] := by
  rw [subEntries_eq, List.filter_append, filter_entries_value_nil,
    List.nil_append, filter_flatMap]
  exact flatMap_filter_label_none hwf.head
    ((Node.childFor_none_iff hwf.sorted).mp hcf)

theorem hasPref_append_split {a x s : List Nat}
    (h : hasPref (a ++ x) s = true) :
    hasPref a s = true ∨ hasPref s a = true := by
  induction a generalizing s with
  | nil => exact Or.inr (hasPref_any_nil s)
  | cons ah at2 ih =>
    cases s with
    | nil => exact Or.inl (hasPref_any_nil _)
    | cons sh st2 =>
      simp only [List.cons_append, hasPref, Bool.and_eq_true, beq_iff_eq] at h
      rcases ih h.2 with h1 | h1
      · refine Or.inl ?_
        simp [hasPref, h.1, h1]
      · refine Or.inr ?_
        simp [hasPref, h.1, h1]

/-- Go `Iterator.SeekPrefix`: wipe the stack and walk down matching
`prefix`; the result is the node the iterator is left on (with the trailing
`skip` count), or `none` when `i.node` ends up `nil`. -/
def seekPref (n : Node V) (search : List Nat) : Option (Node V × Nat) :=
  match search with
  | [] => some (n, n.pref.length)
  | b :: _ =>
    match h : n.getEdge b with
    | none => none
    | some (_, c) =>
      if hasPref search c.pref then seekPref c (search.drop c.pref.length)
      else if hasPref c.pref search then some (c, search.length)
      else none
  termination_by sizeOf n
  decreasing_by exact Node.sizeOf_child_lt (Node.getEdge_mem h)

theorem seekPref_spec {n : Node V} (hwf : WfN n) (p : List Nat) :
    (match seekPref n p with
     | none => ([] : List V)
     | some (c, _) => subVals c) =
      ((subEntries n).filter (fun kv => hasPref kv.1 p)).map Prod.snd := by
  cases p with
  | nil =>
    have hs : seekPref n [] = some (n, n.pref.length) := by
      conv_lhs => unfold seekPref
    rw [hs]
    have hall : (subEntries n).filter (fun kv => hasPref kv.1 []) =
        subEntries n :=
      List.filter_eq_self.mpr (fun kv _ => hasPref_any_nil kv.1)
    rw [hall, subEntries_vals]
  | cons b t =>
    cases hg : n.getEdge b with
    | none =>
      have hs : seekPref n (b :: t) = none := by
        conv_lhs => unfold seekPref
        rw [hg]
      have hcf : n.childFor b = none := by
        unfold Node.childFor
        rw [hg]
        rfl
      rw [hs, filter_entries_none hwf t hcf]
      rfl
    | some ic =>
      cases ic with
      | mk idx c =>
        have hmem : (b, c) ∈ n.edges := Node.getEdge_mem hg
        have hwfc : WfN c := hwf.child b c hmem
        have hhc : c.pref.head? = some b := hwf.head b c hmem
        rw [filter_entries_of_mem hwf t hmem]
        by_cases hp : hasPref (b :: t) c.pref = true
        · have hs : seekPref n (b :: t) =
              seekPref c ((b :: t).drop c.pref.length) := by
            conv_lhs => unfold seekPref
            rw [hg]
            dsimp only
            rw [if_pos hp]
          rw [hs]
          have hkey : c.pref ++ (b :: t).drop c.pref.length = b :: t :=
            append_drop_of_hasPref hp
          have hfilter :
              ((subEntries c).map
                  (fun kv => (c.pref ++ kv.1, kv.2))).filter
                (fun kv => hasPref kv.1 (b :: t)) =
              ((subEntries c).filter
                (fun kv =>
                  hasPref kv.1 ((b :: t).drop c.pref.length))).map
                (fun kv => (c.pref ++ kv.1, kv.2)) := by
            rw [List.filter_map]
            congr 1
            refine List.filter_congr (fun kv _ => ?_)
            simp only [Function.comp]
            have hbt : (b : Nat) :: t =
                c.pref ++ (b :: t).drop c.pref.length := hkey.symm
            conv_lhs => rw [hbt]
            exact hasPref_append_cancel _ _ _
          rw [hfilter, List.map_map]
          have hsnd : (Prod.snd ∘ fun kv : List Nat × V =>
              (c.pref ++ kv.1, kv.2)) = Prod.snd := rfl
          rw [hsnd]
          exact seekPref_spec hwfc ((b :: t).drop c.pref.length)
        · by_cases hq : hasPref c.pref (b :: t) = true
          · have hs : seekPref n (b :: t) = some (c, (b :: t).length) := by
              conv_lhs => unfold seekPref
              rw [hg]
              dsimp only
              rw [if_neg hp, if_pos hq]
            rw [hs]
            have hall : ((subEntries c).map
                (fun kv => (c.pref ++ kv.1, kv.2))).filter
                  (fun kv => hasPref kv.1 (b :: t)) =
                (subEntries c).map (fun kv => (c.pref ++ kv.1, kv.2)) := by
              refine List.filter_eq_self.mpr (fun kv hkv => ?_)
              simp only [List.mem_map] at hkv
              obtain ⟨kv0, _, hk⟩ := hkv
              rw [← hk]
              simp only
              exact hasPref_trans ((hasPref_iff _ _).mpr ⟨kv0.1, rfl⟩) hq
            rw [hall, List.map_map]
            have hsnd : (Prod.snd ∘ fun kv : List Nat × V =>
                (c.pref ++ kv.1, kv.2)) = Prod.snd := rfl
            rw [hsnd, subEntries_vals]
          · have hs : seekPref n (b :: t) = none := by
              conv_lhs => unfold seekPref
              rw [hg]
              dsimp only
              rw [if_neg hp, if_neg hq]
            rw [hs]
            have hnil : ((subEntries c).map
                (fun kv => (c.pref ++ kv.1, kv.2))).filter
                  (fun kv => hasPref kv.1 (b :: t)) = [] := by
              rw [List.filter_eq_nil_iff]
              intro kv hkv
              simp only [List.mem_map] at hkv
              obtain ⟨kv0, _, hk⟩ := hkv
              rw [← hk]
              simp only
              intro hcon
              rcases hasPref_append_split hcon with h1 | h1
              · exact absurd h1 (by simpa using hq)
              · exact absurd h1 (by simpa using hp)
            rw [hnil]
            rfl
  termination_by sizeOf n
  decreasing_by exact Node.sizeOf_child_lt hmem

/-- `SeekPrefix(p)` followed by exhaustive `Next()`: when the seek left
`i.node = nil` the stack stays empty and `Next` returns `nil` at once;
otherwise `Next` initializes the stack on the node the seek found. -/
def seekPrefVals (n : Node V) (p : List Nat) : List V :=
  match seekPref n p with
  | none => []
  | some (c, _) => collectIter (iterInit c)

/-- C5: on any committed root reached from the empty tree, `SeekPrefix(p)`
followed by exhaustive `Next()` yields exactly the values of the stored
keys having `p` as a byte-prefix, in ascending key order (their keys are
the ascending filtered key column of the entry list). -/
theorem c5_seek_prefix (bs : List (List (Op V))) (p : List Nat) :
    seekPrefVals (runFromEmpty bs) p =
      ((subEntries (runFromEmpty bs)).filter
        (fun kv => hasPref kv.1 p)).map Prod.snd ∧
    (((subEntries (runFromEmpty bs)).filter
        (fun kv => hasPref kv.1 p)).map Prod.fst).Pairwise keyLt := by
  have hwf : WfN (runFromEmpty bs) := (runTxns_spec bs wfRoot_empty).1.1
  constructor
  · have h := seekPref_spec hwf p
    unfold seekPrefVals
    cases hs : seekPref (runFromEmpty bs) p with
    | none =>
      rw [hs] at h
      rw [← h]
    | some cp =>
      cases cp with
      | mk c skip =>
        rw [hs] at h
        dsimp only at h ⊢
        rw [collectIter_iterInit, ← h]
  · exact ((subEntries_sorted hwf).sublist
      ((List.filter_sublist _).map Prod.fst)).imp (fun h => h)

/-! ## `SeekLowerBound` (iter.go) -/

theorem bcmp_lt_iff_gt (x y : List Nat) :
    bcmp x y = .lt ↔ bcmp y x = .gt := by
  induction x generalizing y with
  | nil => cases y <;> simp [bcmp]
  | cons a as ih =>
    cases y with
    | nil => simp [bcmp]
    | cons b bs =>
      by_cases h1 : a < b
      · simp [bcmp, h1, (show ¬ b < a by omega)]
      · by_cases h2 : b < a
        · simp [bcmp, h1, h2]
        · simp [bcmp, h1, h2, ih]

theorem not_keyLe_of_keyLt {a b : List Nat} (h : keyLt a b) : ¬ keyLe b a := by
  unfold keyLe
  rw [keyLt, bcmp_lt_iff_gt] at h
  simp [h]

theorem keyLe_self_append (s x : List Nat) : keyLe s (s ++ x) := by
  unfold keyLe
  have h := bcmp_append_left s [] x
  rw [List.append_nil] at h
  rw [h]
  cases x <;> simp [bcmp]

theorem keyLt_of_take_lt {p s : List Nat}
    (h : bcmp p (s.take p.length) = .lt) (t : List Nat) :
    keyLt (p ++ t) s := by
  induction p generalizing s with
  | nil => simp [bcmp] at h
  | cons a as ih =>
    cases s with
    | nil => simp [bcmp] at h
    | cons b bs =>
      simp only [List.length_cons, List.take_succ_cons, bcmp] at h
      by_cases h1 : a < b
      · simp [keyLt, bcmp, h1]
      · by_cases h2 : b < a
        · rw [if_neg h1, if_pos h2] at h
          cases h
        · rw [if_neg h1, if_neg h2] at h
          have := ih h
          simp only [keyLt, List.cons_append, bcmp, if_neg h1, if_neg h2]
          exact this

theorem keyLt_of_take_gt {p s : List Nat}
    (h : bcmp p (s.take p.length) = .gt) (t : List Nat) :
    keyLt s (p ++ t) := by
  induction p generalizing s with
  | nil => simp [bcmp] at h
  | cons a as ih =>
    cases s with
    | nil => simp [keyLt, bcmp]
    | cons b bs =>
      simp only [List.length_cons, List.take_succ_cons, bcmp] at h
      by_cases h1 : a < b
      · rw [if_pos h1] at h
        cases h
      · by_cases h2 : b < a
        · simp [keyLt, bcmp, h2, (show ¬ b < b by omega)]
        · rw [if_neg h1, if_neg h2] at h
          have := ih h
          have hab : a = b := by omega
          subst hab
          simp only [keyLt, List.cons_append, bcmp,
            if_neg (show ¬ a < a by omega)]
          exact this

/-- The branching comparison of `SeekLowerBound` is a truncated
`bytes.Compare`. -/
theorem prefixCmp_eq_take (p s : List Nat) :
    (if p.length < s.length then bcmp p (s.take p.length) else bcmp p s) =
      bcmp p (s.take p.length) := by
  split
  · rfl
  · rename_i h
    rw [List.take_of_length_le (by omega)]

/-- The keys of a subtree as seen from above the node: `n.pref` followed by
the relative key. -/
def entriesP (n : Node V) : List (List Nat × V) :=
  (subEntries n).map (fun kv => (n.pref ++ kv.1, kv.2))

theorem entriesP_vals (n : Node V) :
    (entriesP n).map Prod.snd = subVals n := by
  unfold entriesP
  rw [List.map_map]
  have h : (Prod.snd ∘ fun kv : List Nat × V => (n.pref ++ kv.1, kv.2)) =
      Prod.snd := rfl
  rw [h, subEntries_vals]

theorem entriesP_key_pref {n : Node V} {kv : List Nat × V}
    (h : kv ∈ entriesP n) : ∃ x, kv.1 = n.pref ++ x := by
  unfold entriesP at h
  simp only [List.mem_map] at h
  obtain ⟨kv0, _, hk⟩ := h
  exact ⟨kv0.1, by rw [← hk]⟩

theorem entriesP_key_head {c : Node V} {l : Nat}
    (hh : c.pref.head? = some l) {kv : List Nat × V}
    (h : kv ∈ entriesP c) : kv.1.head? = some l := by
  obtain ⟨x, hx⟩ := entriesP_key_pref h
  rw [hx]
  exact head?_append_left hh x

theorem entriesP_eq (n : Node V) :
    entriesP n = (match n.value with
      | some v => [(n.pref, v)]
      | none => []) ++
      n.edges.flatMap (fun e => (entriesP e.2).map
        (fun kv => (n.pref ++ kv.1, kv.2))) := by
  unfold entriesP
  rw [subEntries_eq, List.map_append]
  congr 1
  · cases n.value <;> simp
  · rw [List.map_flatMap]

/-- Go `Iterator.findMin` combined with the `findMin` wrapper of
`SeekLowerBound`: descend along first edges, pushing the remaining
(`edges[1:]`) frames, and finally push a frame holding the min node.  The
empty-edges / no-value case cannot arise under the structural invariant
(Go would index out of range); it pushes nothing. -/
def findMinIt (st : List (List (Nat × Node V))) (n : Node V) :
    List (List (Nat × Node V)) :=
  match n.value with
  | some _ => [(0, n)] :: st
  | none =>
    match h : n.edges with
    | [] => st
    | e :: rest => findMinIt (pushFrame rest st) e.2
  termination_by sizeOf n
  decreasing_by
    exact Node.sizeOf_child_lt (l := e.1)
      (by rw [h]; exact List.mem_cons_self _ _)

theorem stVals_findMinIt (st : List (List (Nat × Node V))) (n : Node V) :
    stVals (findMinIt st n) = subVals n ++ stVals st := by
  cases hv : n.value with
  | some v =>
    have hs : findMinIt st n = [(0, n)] :: st := by
      conv_lhs => unfold findMinIt
      rw [hv]
    rw [hs, stVals_cons]
    simp
  | none =>
    cases he : n.edges with
    | nil =>
      have hs : findMinIt st n = st := by
        conv_lhs => unfold findMinIt
        rw [hv]
        dsimp only
        split
        · rfl
        · rename_i e rest heq
          rw [he] at heq
          cases heq
      rw [hs, subVals_eq, hv, he]
      simp
    | cons e rest =>
      have hs : findMinIt st n = findMinIt (pushFrame rest st) e.2 := by
        conv_lhs => unfold findMinIt
        rw [hv]
        dsimp only
        split
        · rename_i heq
          rw [he] at heq
          cases heq
        · rename_i e' rest' heq
          rw [he] at heq
          injection heq with h1 h2
          subst h1
          subst h2
          rfl
      rw [hs, stVals_findMinIt (pushFrame rest st) e.2, stVals_pushFrame,
        subVals_eq n, hv, he]
      simp
  termination_by sizeOf n
  decreasing_by
    exact Node.sizeOf_child_lt (l := e.1) (by rw [he]; exact List.mem_cons_self _ _)

theorem getLowerBoundEdge_none {n : Node V} {b : Nat}
    (h : n.getLowerBoundEdge b = none) :
    n.edges.length ≤ searchE n.edges b := by
  unfold Node.getLowerBoundEdge at h
  dsimp only at h
  split at h
  · cases h
  · omega

theorem getLowerBoundEdge_some {n : Node V} {b idx : Nat} {c : Node V}
    (h : n.getLowerBoundEdge b = some (idx, c)) :
    idx = searchE n.edges b ∧ ∃ hl : idx < n.edges.length,
      (n.edges.get ⟨idx, hl⟩).snd = c := by
  unfold Node.getLowerBoundEdge at h
  dsimp only at h
  split at h
  · rename_i hl
    injection h with h'
    injection h' with h1 h2
    subst h1
    exact ⟨rfl, hl, h2⟩
  · cases h

theorem getLowerBoundEdge_sizeOf {n : Node V} {b idx : Nat} {c : Node V}
    (h : n.getLowerBoundEdge b = some (idx, c)) : sizeOf c < sizeOf n := by
  obtain ⟨_, hl, hc⟩ := getLowerBoundEdge_some h
  have hm : n.edges.get ⟨idx, hl⟩ ∈ n.edges := List.get_mem _ _ _
  refine Node.sizeOf_child_lt (l := (n.edges.get ⟨idx, hl⟩).fst) ?_
  rw [show ((n.edges.get ⟨idx, hl⟩).fst, c) = n.edges.get ⟨idx, hl⟩ by
    rw [← hc]]
  exact hm

/-- Go `Iterator.SeekLowerBound`: build the stack of all strictly larger
edges while descending to the lower-bound leaf.  `st` is the stack built so
far (empty at the initial call — Go wipes it), `skip` the pending
`i.skip` (zero on a fresh iterator).  The result is the stack the iterator
is left with; `i.node` is `nil` on every exit path. -/
def seekLB (st : List (List (Nat × Node V))) (skip : Nat) (n : Node V)
    (search : List Nat) : List (List (Nat × Node V)) :=
  let pfx := if 0 < skip then n.pref.drop skip else n.pref
  let pc := if pfx.length < search.length
    then bcmp pfx (search.take pfx.length)
    else bcmp pfx search
  if pc = .gt then findMinIt st n
  else if pc = .lt then st
  else if pfx.length = search.length ∧ n.value.isSome = true then
    [(0, n)] :: st
  else
    match hs2 : search.drop pfx.length with
    | [] => findMinIt st n
    | b :: _ =>
      match hg : n.getLowerBoundEdge b with
      | none => st
      | some (idx, lb) =>
        seekLB (if idx + 1 < n.edges.length
          then n.edges.drop (idx + 1) :: st else st) 0 lb
          (search.drop pfx.length)
  termination_by sizeOf n
  decreasing_by exact getLowerBoundEdge_sizeOf hg

theorem keyLe_append_iff (p x y : List Nat) :
    keyLe (p ++ x) (p ++ y) ↔ keyLe x y := by
  unfold keyLe
  rw [bcmp_append_left]

theorem labAt_of_lt {es : List (Nat × Node V)} {m : Nat} (h : m < es.length) :
    labAt es m = (es.get ⟨m, h⟩).fst := by
  unfold labAt
  rw [List.getD_eq_getElem?_getD, List.getElem?_eq_getElem h]
  rfl

theorem seekLB_gt {n : Node V} (st : List (List (Nat × Node V)))
    (s : List Nat) (h : bcmp n.pref (s.take n.pref.length) = .gt) :
    seekLB st 0 n s = findMinIt st n := by
  conv_lhs => unfold seekLB
  dsimp only
  rw [if_neg (lt_irrefl 0), prefixCmp_eq_take, h, if_pos rfl]

theorem seekLB_lt {n : Node V} (st : List (List (Nat × Node V)))
    (s : List Nat) (h : bcmp n.pref (s.take n.pref.length) = .lt) :
    seekLB st 0 n s = st := by
  conv_lhs => unfold seekLB
  dsimp only
  rw [if_neg (lt_irrefl 0), prefixCmp_eq_take, h,
    if_neg (by decide : ¬ (Ordering.lt = Ordering.gt)), if_pos rfl]

theorem seekLB_eq_found {n : Node V} (st : List (List (Nat × Node V)))
    (s : List Nat) (h : bcmp n.pref (s.take n.pref.length) = .eq)
    (hcond : n.pref.length = s.length ∧ n.value.isSome = true) :
    seekLB st 0 n s = [(0, n)] :: st := by
  conv_lhs => unfold seekLB
  dsimp only
  rw [if_neg (lt_irrefl 0), prefixCmp_eq_take, h,
    if_neg (by decide : ¬ (Ordering.eq = Ordering.gt)),
    if_neg (by decide : ¬ (Ordering.eq = Ordering.lt)), if_pos hcond]

theorem seekLB_eq_nil {n : Node V} (st : List (List (Nat × Node V)))
    (s : List Nat) (h : bcmp n.pref (s.take n.pref.length) = .eq)
    (hcond : ¬ (n.pref.length = s.length ∧ n.value.isSome = true))
    (hdrop : s.drop n.pref.length = []) :
    seekLB st 0 n s = findMinIt st n := by
  conv_lhs => unfold seekLB
  dsimp only
  rw [if_neg (lt_irrefl 0), prefixCmp_eq_take, h,
    if_neg (by decide : ¬ (Ordering.eq = Ordering.gt)),
    if_neg (by decide : ¬ (Ordering.eq = Ordering.lt)), if_neg hcond]
  split
  · rfl
  · rename_i b t2 heq
    rw [hdrop] at heq
    cases heq

theorem seekLB_cons_none {n : Node V} (st : List (List (Nat × Node V)))
    (s : List Nat) {b : Nat} {t2 : List Nat}
    (h : bcmp n.pref (s.take n.pref.length) = .eq)
    (hcond : ¬ (n.pref.length = s.length ∧ n.value.isSome = true))
    (hdrop : s.drop n.pref.length = b :: t2)
    (hg : n.getLowerBoundEdge b = none) :
    seekLB st 0 n s = st := by
  conv_lhs => unfold seekLB
  dsimp only
  rw [if_neg (lt_irrefl 0), prefixCmp_eq_take, h,
    if_neg (by decide : ¬ (Ordering.eq = Ordering.gt)),
    if_neg (by decide : ¬ (Ordering.eq = Ordering.lt)), if_neg hcond]
  split
  · rename_i heq
    rw [hdrop] at heq
    cases heq
  · rename_i b' t2' heq
    rw [hdrop] at heq
    injection heq with h1 h2
    subst h1
    split
    · rfl
    · rename_i idx lb heq2
      rw [hg] at heq2
      cases heq2

theorem seekLB_cons_some {n : Node V} (st : List (List (Nat × Node V)))
    (s : List Nat) {b idx : Nat} {t2 : List Nat} {lb : Node V}
    (h : bcmp n.pref (s.take n.pref.length) = .eq)
    (hcond : ¬ (n.pref.length = s.length ∧ n.value.isSome = true))
    (hdrop : s.drop n.pref.length = b :: t2)
    (hg : n.getLowerBoundEdge b = some (idx, lb)) :
    seekLB st 0 n s =
      seekLB (if idx + 1 < n.edges.length
        then n.edges.drop (idx + 1) :: st else st) 0 lb
        (s.drop n.pref.length) := by
  conv_lhs => unfold seekLB
  dsimp only
  rw [if_neg (lt_irrefl 0), prefixCmp_eq_take, h,
    if_neg (by decide : ¬ (Ordering.eq = Ordering.gt)),
    if_neg (by decide : ¬ (Ordering.eq = Ordering.lt)), if_neg hcond]
  split
  · rename_i heq
    rw [hdrop] at heq
    cases heq
  · rename_i b' t2' heq
    rw [hdrop] at heq
    injection heq with h1 h2
    subst h1
    subst h2
    split
    · rename_i heq2
      rw [hg] at heq2
      cases heq2
    · rename_i idx' lb' heq2
      rw [hg] at heq2
      injection heq2 with heq3
      injection heq3 with h3 h4
      subst h3
      subst h4
      rfl

theorem filter_keyLe_all {n : Node V} {s : List Nat}
    (h : ∀ kv ∈ entriesP n, keyLe s kv.1) :
    (entriesP n).filter (fun kv => decide (keyLe s kv.1)) = entriesP n :=
  List.filter_eq_self.mpr (fun kv hkv => decide_eq_true (h kv hkv))

theorem filter_keyLe_nil {n : Node V} {s : List Nat}
    (h : ∀ kv ∈ entriesP n, ¬ keyLe s kv.1) :
    (entriesP n).filter (fun kv => decide (keyLe s kv.1)) = [] :=
  List.filter_eq_nil_iff.mpr (fun kv hkv => by simp [h kv hkv])

/-- The lower-bound seek leaves on the stack exactly the subtree values of
keys `≥ search`, in ascending key order, above whatever was already
pending. -/
theorem seekLB_spec {n : Node V} (hwf : WfN n)
    (st : List (List (Nat × Node V))) (s : List Nat) :
    stVals (seekLB st 0 n s) =
      ((entriesP n).filter (fun kv => decide (keyLe s kv.1))).map Prod.snd
        ++ stVals st := by
  cases hcmp : bcmp n.pref (s.take n.pref.length) with
  | gt =>
    rw [seekLB_gt st s hcmp, stVals_findMinIt]
    have hall : ∀ kv ∈ entriesP n, keyLe s kv.1 := by
      intro kv hkv
      obtain ⟨x, hx⟩ := entriesP_key_pref hkv
      rw [hx]
      exact keyLe_of_keyLt (keyLt_of_take_gt hcmp x)
    rw [filter_keyLe_all hall, entriesP_vals]
  | lt =>
    rw [seekLB_lt st s hcmp]
    have hnone : ∀ kv ∈ entriesP n, ¬ keyLe s kv.1 := by
      intro kv hkv
      obtain ⟨x, hx⟩ := entriesP_key_pref hkv
      rw [hx]
      exact not_keyLe_of_keyLt (keyLt_of_take_lt hcmp x)
    rw [filter_keyLe_nil hnone]
    rfl
  | eq =>
    have hpeq : n.pref = s.take n.pref.length := (bcmp_eq_iff _ _).mp hcmp
    by_cases hcond : n.pref.length = s.length ∧ n.value.isSome = true
    · have hps : n.pref = s := by
        rw [hpeq, List.take_of_length_le (by omega)]
      rw [seekLB_eq_found st s hcmp hcond]
      have hall : ∀ kv ∈ entriesP n, keyLe s kv.1 := by
        intro kv hkv
        obtain ⟨x, hx⟩ := entriesP_key_pref hkv
        rw [hx, hps]
        exact keyLe_self_append s x
      rw [filter_keyLe_all hall, entriesP_vals, stVals_cons]
      simp
    · cases hdrop : s.drop n.pref.length with
      | nil =>
        have hlen : s.length ≤ n.pref.length := by
          have h2 := congrArg List.length hdrop
          simp only [List.length_drop, List.length_nil] at h2
          omega
        have hps : n.pref = s := by
          rw [hpeq, List.take_of_length_le hlen]
        rw [seekLB_eq_nil st s hcmp hcond hdrop, stVals_findMinIt]
        have hall : ∀ kv ∈ entriesP n, keyLe s kv.1 := by
          intro kv hkv
          obtain ⟨x, hx⟩ := entriesP_key_pref hkv
          rw [hx, hps]
          exact keyLe_self_append s x
        rw [filter_keyLe_all hall, entriesP_vals]
      | cons b t2 =>
        have hs_decomp : s = n.pref ++ (b :: t2) := by
          conv_lhs => rw [← List.take_append_drop n.pref.length s]
          rw [← hpeq, hdrop]
        cases hg : n.getLowerBoundEdge b with
        | none =>
          rw [seekLB_cons_none st s hcmp hcond hdrop hg]
          have hidx := getLowerBoundEdge_none hg
          obtain ⟨hle, hlt, hge⟩ := searchE_spec n.edges b hwf.sorted
          have hlab : ∀ l c', (l, c') ∈ n.edges → l < b := by
            intro l c' hm
            obtain ⟨j, hj, hje⟩ := List.mem_iff_getElem.mp hm
            have hjlt := hlt j (by omega)
            rw [labAt_of_lt (by omega : j < n.edges.length)] at hjlt
            rw [List.get_eq_getElem, hje] at hjlt
            exact hjlt
          have hnone : ∀ kv ∈ entriesP n, ¬ keyLe s kv.1 := by
            intro kv hkv
            rw [entriesP_eq] at hkv
            rcases List.mem_append.mp hkv with hv | hv
            · have hkey : kv.1 = n.pref := by
                cases hval : n.value with
                | none => rw [hval] at hv; cases hv
                | some w =>
                  rw [hval] at hv
                  simp at hv
                  rw [hv]
              rw [hkey, hs_decomp]
              exact not_keyLe_of_keyLt (keyLt_of_proper_pref (by simp))
            · simp only [List.mem_flatMap, List.mem_map] at hv
              obtain ⟨e, he, kv0, hkv0, hkeq⟩ := hv
              have hl : e.1 < b := hlab e.1 e.2 (by simpa using he)
              have hhead : kv0.1.head? = some e.1 :=
                entriesP_key_head (hwf.head e.1 e.2 (by simpa using he)) hkv0
              rw [← hkeq]
              simp only
              rw [hs_decomp]
              intro hcon
              rw [keyLe_append_iff] at hcon
              exact absurd hcon (not_keyLe_of_keyLt
                (keyLt_of_head_lt hhead (by simp) hl))
          rw [filter_keyLe_nil hnone]
          rfl
        | some pr =>
          cases pr with
          | mk idx lb =>
            obtain ⟨hidx, hlen, hget⟩ := getLowerBoundEdge_some hg
            obtain ⟨hle, hlt, hge⟩ := searchE_spec n.edges b hwf.sorted
            have hmem_lb : ((n.edges.get ⟨idx, hlen⟩).fst, lb) ∈ n.edges := by
              rw [show ((n.edges.get ⟨idx, hlen⟩).fst, lb) =
                  n.edges.get ⟨idx, hlen⟩ by rw [← hget]]
              exact List.get_mem _ _ _
            have hwflb : WfN lb :=
              hwf.child (n.edges.get ⟨idx, hlen⟩).fst lb hmem_lb
            have hheadlb : lb.pref.head? =
                some (n.edges.get ⟨idx, hlen⟩).fst :=
              hwf.head (n.edges.get ⟨idx, hlen⟩).fst lb hmem_lb
            have hblbl : b ≤ (n.edges.get ⟨idx, hlen⟩).fst := by
              have h2 := hge idx (by omega) hlen
              rw [labAt_of_lt hlen] at h2
              exact h2
            have hstv : stVals (if idx + 1 < n.edges.length
                then n.edges.drop (idx + 1) :: st else st) =
                (n.edges.drop (idx + 1)).flatMap (fun e => subVals e.2)
                  ++ stVals st := by
              split
              · rw [stVals_cons]
              · rename_i hnl
                rw [List.drop_eq_nil_of_le (by omega)]
                simp
            rw [seekLB_cons_some st s hcmp hcond hdrop hg, hdrop,
              seekLB_spec hwflb _ (b :: t2), hstv]
            have hsplit : n.edges = n.edges.take idx ++
                n.edges.get ⟨idx, hlen⟩ :: n.edges.drop (idx + 1) := by
              conv_lhs => rw [← List.take_append_drop idx n.edges]
              congr 1
              rw [List.drop_eq_getElem_cons hlen]
              rfl
            have hvp : (match n.value with
                | some v => [(n.pref, v)]
                | none => ([] : List (List Nat × V))).filter
                  (fun kv : List Nat × V => decide (keyLe s kv.1)) = [] := by
              cases n.value with
              | none => rfl
              | some w =>
                have hns : ¬ keyLe s n.pref := by
                  rw [hs_decomp]
                  exact not_keyLe_of_keyLt (keyLt_of_proper_pref (by simp))
                simp [hns]
            have htake : (n.edges.take idx).flatMap
                (fun e => ((entriesP e.2).map
                  (fun kv => (n.pref ++ kv.1, kv.2))).filter
                    (fun kv => decide (keyLe s kv.1))) = [] := by
              rw [List.flatMap_eq_nil_iff]
              intro e he
              obtain ⟨j, hj, hje⟩ := List.mem_iff_getElem.mp he
              have hjidx : j < idx := by
                rw [List.length_take] at hj
                omega
              have hjlen : j < n.edges.length := by
                rw [List.length_take] at hj
                omega
              have hjlt := hlt j (by omega)
              rw [labAt_of_lt hjlen, List.get_eq_getElem] at hjlt
              rw [List.getElem_take] at hje
              rw [hje] at hjlt
              have hmem_e : (e.1, e.2) ∈ n.edges := by
                rw [show (e.1, e.2) = e by rfl]
                exact List.mem_of_mem_take he
              rw [List.filter_eq_nil_iff]
              intro kv hkv
              simp only [List.mem_map] at hkv
              obtain ⟨kv0, hkv0, hkeq⟩ := hkv
              have hhead : kv0.1.head? = some e.1 :=
                entriesP_key_head (hwf.head e.1 e.2 hmem_e) hkv0
              rw [← hkeq]
              simp only
              rw [hs_decomp]
              simp only [decide_eq_true_eq]
              intro hcon
              rw [keyLe_append_iff] at hcon
              exact absurd hcon (not_keyLe_of_keyLt
                (keyLt_of_head_lt hhead (by simp) hjlt))
            have hmid : ((entriesP lb).map
                (fun kv => (n.pref ++ kv.1, kv.2))).filter
                  (fun kv => decide (keyLe s kv.1)) =
                ((entriesP lb).filter
                  (fun kv => decide (keyLe (b :: t2) kv.1))).map
                    (fun kv => (n.pref ++ kv.1, kv.2)) := by
              rw [List.filter_map]
              congr 1
              refine List.filter_congr (fun kv _ => ?_)
              simp only [Function.comp]
              rw [hs_decomp]
              exact decide_eq_decide.mpr (keyLe_append_iff _ _ _)
            have hdrop2 : (n.edges.drop (idx + 1)).flatMap
                (fun e => ((entriesP e.2).map
                  (fun kv => (n.pref ++ kv.1, kv.2))).filter
                    (fun kv => decide (keyLe s kv.1))) =
                (n.edges.drop (idx + 1)).flatMap
                  (fun e => (entriesP e.2).map
                    (fun kv => (n.pref ++ kv.1, kv.2))) := by
              refine flatMap_congr_mem (fun e he => ?_)
              obtain ⟨j, hj, hje⟩ := List.mem_iff_getElem.mp he
              have hjlen : idx + 1 + j < n.edges.length := by
                rw [List.length_drop] at hj
                omega
              have hjge : b < (getElem n.edges (idx + 1 + j) hjlen).fst := by
                have hpair := List.pairwise_iff_getElem.mp hwf.sorted idx
                  (idx + 1 + j) (by simpa using hlen)
                  (by simpa using hjlen) (by omega)
                simp only [List.getElem_map] at hpair
                have hidxlab : (getElem n.edges idx hlen).fst =
                    (n.edges.get ⟨idx, hlen⟩).fst := rfl
                omega
              rw [List.getElem_drop] at hje
              have hmem_e : (e.1, e.2) ∈ n.edges := by
                rw [show (e.1, e.2) = e by rfl]
                exact List.mem_of_mem_drop he
              rw [List.filter_eq_self]
              intro kv hkv
              simp only [List.mem_map] at hkv
              obtain ⟨kv0, hkv0, hkeq⟩ := hkv
              have hhead : kv0.1.head? = some e.1 :=
                entriesP_key_head (hwf.head e.1 e.2 hmem_e) hkv0
              rw [← hkeq]
              simp only
              rw [hs_decomp]
              simp only [decide_eq_true_eq]
              rw [keyLe_append_iff]
              refine keyLe_of_keyLt (keyLt_of_head_lt (a := b) rfl hhead ?_)
              rw [hje] at hjge
              exact hjge
            have hfinal : (entriesP n).filter
                (fun kv => decide (keyLe s kv.1)) =
                ((entriesP lb).filter
                  (fun kv => decide (keyLe (b :: t2) kv.1))).map
                    (fun kv => (n.pref ++ kv.1, kv.2)) ++
                (n.edges.drop (idx + 1)).flatMap
                  (fun e => (entriesP e.2).map
                    (fun kv => (n.pref ++ kv.1, kv.2))) := by
              rw [entriesP_eq, List.filter_append, hvp, List.nil_append,
                filter_flatMap]
              conv_lhs => rw [hsplit]
              rw [List.flatMap_append, List.flatMap_cons, htake,
                List.nil_append]
              have hgetlb : (n.edges.get ⟨idx, hlen⟩).snd = lb := hget
              rw [hgetlb, hmid, hdrop2]
            rw [hfinal, List.map_append, List.map_map]
            have hsnd : (Prod.snd ∘ fun kv : List Nat × V =>
                (n.pref ++ kv.1, kv.2)) = Prod.snd := rfl
            rw [hsnd]
            have hmapsnd : ((n.edges.drop (idx + 1)).flatMap
                (fun e => (entriesP e.2).map
                  (fun kv => (n.pref ++ kv.1, kv.2)))).map Prod.snd =
                (n.edges.drop (idx + 1)).flatMap (fun e => subVals e.2) := by
              rw [List.map_flatMap]
              refine flatMap_congr_mem (fun e he => ?_)
              rw [List.map_map, hsnd, entriesP_vals]
            rw [hmapsnd, List.append_assoc]
  termination_by sizeOf n
  decreasing_by exact Node.sizeOf_child_lt hmem_lb

theorem keyLe_nil_left (x : List Nat) : keyLe [] x := by
  unfold keyLe
  cases x <;> simp [bcmp]

/-- C4: on any committed root reached from the empty tree,
`SeekLowerBound(k)` followed by exhaustive `Next()` yields exactly the
values of the stored keys `≥ k` in `bytes.Compare` order, ascending (their
keys are the ascending filtered key column); with the empty key it yields
every stored value. -/
theorem c4_seek_lower_bound (bs : List (List (Op V))) (k : List Nat) :
    collectIter (seekLB [] 0 (runFromEmpty bs) k) =
      ((subEntries (runFromEmpty bs)).filter
        (fun kv => decide (keyLe k kv.1))).map Prod.snd ∧
    collectIter (seekLB [] 0 (runFromEmpty bs) []) =
      (subEntries (runFromEmpty bs)).map Prod.snd ∧
    (((subEntries (runFromEmpty bs)).filter
        (fun kv => decide (keyLe k kv.1))).map Prod.fst).Pairwise keyLt := by
  have hwfr := (runTxns_spec bs (wfRoot_empty (V := V))).1
  have hwf : WfN (runFromEmpty bs) := hwfr.1
  have hpref : (runFromEmpty bs).pref = [] := hwfr.2
  have hent : entriesP (runFromEmpty bs) = subEntries (runFromEmpty bs) := by
    unfold entriesP
    rw [hpref]
    simp
  have h1 : ∀ q, collectIter (seekLB [] 0 (runFromEmpty bs) q) =
      ((subEntries (runFromEmpty bs)).filter
        (fun kv => decide (keyLe q kv.1))).map Prod.snd := by
    intro q
    rw [collectIter_stVals, seekLB_spec hwf [] q, hent]
    simp
  refine ⟨h1 k, ?_, ?_⟩
  · rw [h1 []]
    have hfull : (subEntries (runFromEmpty bs)).filter
        (fun kv => decide (keyLe [] kv.1)) =
        subEntries (runFromEmpty bs) :=
      List.filter_eq_self.mpr
        (fun kv _ => decide_eq_true (keyLe_nil_left kv.1))
    rw [hfull]
  · exact ((subEntries_sorted hwf).sublist
      ((List.filter_sublist _).map Prod.fst)).imp (fun h => h)

/-! ## The reverse iterator (`reverse_iter.go`)

The Go code marks nodes in a pointer-keyed `expandedParents` map.  A node
is marked exactly while it sits as the LAST entry of a stack frame with its
child frame(s) pushed above it, and within one committed tree every node
occurrence on the stack is a distinct Go pointer; so the map is equivalent
to one `Bool` per frame saying "this frame's last entry has already been
expanded", which is how the state is modelled here: a stack of
`(edge list, expanded)` frames, head = top. -/

def valList (n : Node V) : List V :=
  match n.value with
  | some v => [v]
  | none => []

def frameRW : List (Nat × Node V) × Bool → Nat
  | (fr, false) => 3 * frameW fr
  | (fr, true) => 3 * frameW fr.dropLast + 1

def stackRW (st : List (List (Nat × Node V) × Bool)) : Nat :=
  (st.map frameRW).sum + st.length

theorem frameW_of_getLast {fr : List (Nat × Node V)} {e : Nat × Node V}
    (h : fr.getLast? = some e) :
    frameW fr = frameW fr.dropLast + nodeW e.2 := by
  have hne : fr ≠ [] := by
    intro hc
    rw [hc] at h
    cases h
  have hdl := List.dropLast_append_getLast hne
  have hgl : fr.getLast hne = e := by
    have h2 := List.getLast?_eq_getLast fr hne
    rw [h2] at h
    injection h
  conv_lhs => rw [← hdl]
  rw [hgl]
  unfold frameW
  rw [List.map_append, List.sum_append]
  simp

/-- Go `ReverseIterator.Previous`, one call. -/
def prevIter : List (List (Nat × Node V) × Bool) →
    Option (V × List (List (Nat × Node V) × Bool))
  | [] => none
  | (last, flag) :: rest =>
    match hlast : last.getLast? with
    | none => prevIter rest
    | some (_, elem) =>
      if hcond : elem.edges.isEmpty = false ∧ flag = false then
        prevIter ((elem.edges, false) :: (last, true) :: rest)
      else
        match elem.value with
        | some v => some (v, if 1 < last.length
            then (last.dropLast, false) :: rest else rest)
        | none => prevIter (if 1 < last.length
            then (last.dropLast, false) :: rest else rest)
  termination_by st => stackRW st
  decreasing_by
    · simp only [stackRW, List.map_cons, List.sum_cons, List.length_cons]
      omega
    · have hW := frameW_of_getLast hlast
      dsimp only at hW
      have hN : nodeW elem = 1 + frameW elem.edges := nodeW_eq elem
      simp only [stackRW, List.map_cons, List.sum_cons, List.length_cons]
      rw [hcond.2]
      simp only [frameRW]
      rw [hW]
      omega
    · have hW := frameW_of_getLast hlast
      dsimp only at hW
      have hN : 1 ≤ nodeW elem := by
        rw [nodeW_eq]
        omega
      simp only [stackRW, List.length_cons]
      split
      · simp only [List.map_cons, List.sum_cons, frameRW, List.length_cons]
        rcases Bool.eq_false_or_eq_true flag with hf | hf <;> subst hf <;>
          simp only [frameRW] at * <;> omega
      · simp only [List.map_cons, List.sum_cons, List.length_cons]
        rcases Bool.eq_false_or_eq_true flag with hf | hf <;> subst hf <;>
          simp only [frameRW] at * <;> omega

theorem prevIter_nil : prevIter (V := V) [] = none := by
  conv_lhs => unfold prevIter

theorem prevIter_empty {last : List (Nat × Node V)} {flag : Bool}
    {rest : List (List (Nat × Node V) × Bool)}
    (h : last.getLast? = none) :
    prevIter ((last, flag) :: rest) = prevIter rest := by
  conv_lhs => unfold prevIter
  split
  · rfl
  · rename_i l elem heq
    rw [h] at heq
    cases heq

theorem prevIter_expand {last : List (Nat × Node V)}
    {rest : List (List (Nat × Node V) × Bool)} {l : Nat} {elem : Node V}
    (h : last.getLast? = some (l, elem))
    (hne : elem.edges.isEmpty = false) :
    prevIter ((last, false) :: rest) =
      prevIter ((elem.edges, false) :: (last, true) :: rest) := by
  conv_lhs => unfold prevIter
  split
  · rename_i heq
    rw [h] at heq
    cases heq
  · rename_i l' elem' heq
    rw [h] at heq
    injection heq with heq'
    injection heq' with h1 h2
    subst h1
    subst h2
    rw [dif_pos ⟨hne, rfl⟩]

theorem prevIter_pop_some {last : List (Nat × Node V)} {flag : Bool}
    {rest : List (List (Nat × Node V) × Bool)} {l : Nat} {elem : Node V}
    {v : V} (h : last.getLast? = some (l, elem))
    (hcond : ¬ (elem.edges.isEmpty = false ∧ flag = false))
    (hv : elem.value = some v) :
    prevIter ((last, flag) :: rest) =
      some (v, if 1 < last.length
        then (last.dropLast, false) :: rest else rest) := by
  conv_lhs => unfold prevIter
  split
  · rename_i heq
    rw [h] at heq
    cases heq
  · rename_i l' elem' heq
    rw [h] at heq
    injection heq with heq'
    injection heq' with h1 h2
    subst h1
    subst h2
    rw [dif_neg hcond, hv]

theorem prevIter_pop_none {last : List (Nat × Node V)} {flag : Bool}
    {rest : List (List (Nat × Node V) × Bool)} {l : Nat} {elem : Node V}
    (h : last.getLast? = some (l, elem))
    (hcond : ¬ (elem.edges.isEmpty = false ∧ flag = false))
    (hv : elem.value = none) :
    prevIter ((last, flag) :: rest) =
      prevIter (if 1 < last.length
        then (last.dropLast, false) :: rest else rest) := by
  conv_lhs => unfold prevIter
  split
  · rename_i heq
    rw [h] at heq
    cases heq
  · rename_i l' elem' heq
    rw [h] at heq
    injection heq with heq'
    injection heq' with h1 h2
    subst h1
    subst h2
    rw [dif_neg hcond, hv]

theorem stackRW_expand_lt {last : List (Nat × Node V)}
    {rest : List (List (Nat × Node V) × Bool)} {l : Nat} {elem : Node V}
    (h : last.getLast? = some (l, elem)) :
    stackRW ((elem.edges, false) :: (last, true) :: rest) <
      stackRW ((last, false) :: rest) := by
  have hW := frameW_of_getLast h
  dsimp only at hW
  have hN : nodeW elem = 1 + frameW elem.edges := nodeW_eq elem
  simp only [stackRW, List.map_cons, List.sum_cons, List.length_cons,
    frameRW]
  omega

theorem stackRW_pop_lt {last : List (Nat × Node V)} {flag : Bool}
    {rest : List (List (Nat × Node V) × Bool)} {l : Nat} {elem : Node V}
    (h : last.getLast? = some (l, elem)) :
    stackRW (if 1 < last.length
      then (last.dropLast, false) :: rest else rest) <
      stackRW ((last, flag) :: rest) := by
  have hW := frameW_of_getLast h
  dsimp only at hW
  have hN : 1 ≤ nodeW elem := by
    rw [nodeW_eq]
    omega
  rcases Bool.eq_false_or_eq_true flag with hf | hf <;> subst hf <;>
    split <;>
    simp only [stackRW, List.map_cons, List.sum_cons, frameRW,
      List.length_cons] <;>
    omega

theorem prevIter_measure {st st' : List (List (Nat × Node V) × Bool)}
    {v : V} (h : prevIter st = some (v, st')) : stackRW st' < stackRW st := by
  have H : ∀ m (st st' : List (List (Nat × Node V) × Bool)) (v : V),
      stackRW st ≤ m → prevIter st = some (v, st') →
      stackRW st' < stackRW st := by
    intro m
    induction m with
    | zero =>
      intro st st' v hm h
      cases st with
      | nil => rw [prevIter_nil] at h; cases h
      | cons fr rest =>
        simp only [stackRW, List.length_cons] at hm
        omega
    | succ m ih =>
      intro st st' v hm h
      cases st with
      | nil => rw [prevIter_nil] at h; cases h
      | cons fr rest =>
        cases fr with
        | mk last flag =>
          cases hlast : last.getLast? with
          | none =>
            rw [prevIter_empty hlast] at h
            have hlt : stackRW rest < stackRW ((last, flag) :: rest) := by
              simp only [stackRW, List.map_cons, List.sum_cons,
                List.length_cons]
              omega
            have hrec := ih rest st' v (by omega) h
            omega
          | some le =>
            cases le with
            | mk l elem =>
              by_cases hcond : elem.edges.isEmpty = false ∧ flag = false
              · have hf : flag = false := hcond.2
                subst hf
                rw [prevIter_expand hlast hcond.1] at h
                have hlt := @stackRW_expand_lt _ _ rest _ _ hlast
                have hrec := ih _ st' v (by omega) h
                omega
              · cases hv : elem.value with
                | some w =>
                  rw [prevIter_pop_some hlast hcond hv] at h
                  injection h with h'
                  injection h' with h1 h2
                  subst h2
                  exact stackRW_pop_lt hlast
                | none =>
                  rw [prevIter_pop_none hlast hcond hv] at h
                  have hlt := @stackRW_pop_lt _ _ flag rest _ _
                    hlast
                  have hrec := ih _ st' v (by omega) h
                  omega
  exact H (stackRW st) st st' v (le_refl _) h

/-- Exhaustive reverse iteration: call `Previous` until it returns `nil`. -/
def collectPrev (st : List (List (Nat × Node V) × Bool)) : List V :=
  match h : prevIter st with
  | none => []
  | some (v, st') => v :: collectPrev st'
  termination_by stackRW st
  decreasing_by exact prevIter_measure h

theorem collectPrev_none {st : List (List (Nat × Node V) × Bool)}
    (h : prevIter st = none) : collectPrev st = [] := by
  conv_lhs => unfold collectPrev
  split
  · rfl
  · rename_i v st' heq
    rw [h] at heq
    cases heq

theorem collectPrev_some {st st' : List (List (Nat × Node V) × Bool)}
    {v : V} (h : prevIter st = some (v, st')) :
    collectPrev st = v :: collectPrev st' := by
  conv_lhs => unfold collectPrev
  split
  · rename_i heq
    rw [h] at heq
    cases heq
  · rename_i w st2 heq
    rw [h] at heq
    injection heq with heq'
    injection heq' with h1 h2
    subst h1
    subst h2
    rfl

/-- The values a reverse-iterator frame still owes: its entries from last
to first, each a whole subtree in descending order; on an expanded frame
the last entry owes only its own value (its children are in the frames
above). -/
def frameOut : List (Nat × Node V) × Bool → List V
  | (fr, false) => (fr.flatMap (fun e => subVals e.2)).reverse
  | (fr, true) =>
    (match fr.getLast? with
     | some e => valList e.2
     | none => []) ++ (fr.dropLast.flatMap (fun e => subVals e.2)).reverse

def stRVals (st : List (List (Nat × Node V) × Bool)) : List V :=
  st.flatMap frameOut

theorem collectPrev_congr {st st' : List (List (Nat × Node V) × Bool)}
    (h : prevIter st = prevIter st') : collectPrev st = collectPrev st' := by
  cases hn : prevIter st' with
  | none => rw [collectPrev_none (h.trans hn), collectPrev_none hn]
  | some p =>
    cases p with
    | mk v st2 => rw [collectPrev_some (h.trans hn), collectPrev_some hn]

theorem valList_reverse (n : Node V) : (valList n).reverse = valList n := by
  unfold valList
  cases n.value <;> rfl

@[simp] theorem stRVals_nil :
    stRVals ([] : List (List (Nat × Node V) × Bool)) = [] := rfl

@[simp] theorem stRVals_cons (fr : List (Nat × Node V) × Bool)
    (st : List (List (Nat × Node V) × Bool)) :
    stRVals (fr :: st) = frameOut fr ++ stRVals st := by
  simp [stRVals]

theorem subVals_valList (n : Node V) :
    subVals n = valList n ++ n.edges.flatMap (fun e => subVals e.2) :=
  subVals_eq n

theorem dropLast_of_short {α : Type} {l : List α} (h : ¬ 1 < l.length) :
    l.dropLast = [] := by
  cases l with
  | nil => rfl
  | cons a t =>
    cases t with
    | nil => rfl
    | cons b u => simp at h

/-- Exhaustive `Previous` iteration returns exactly the pending values of
the reverse stack, in order. -/
theorem collectPrev_stRVals (st : List (List (Nat × Node V) × Bool)) :
    collectPrev st = stRVals st := by
  have H : ∀ m (st : List (List (Nat × Node V) × Bool)),
      stackRW st ≤ m → collectPrev st = stRVals st := by
    intro m
    induction m with
    | zero =>
      intro st hm
      cases st with
      | nil => rw [collectPrev_none prevIter_nil]; rfl
      | cons fr rest =>
        simp only [stackRW, List.length_cons] at hm
        omega
    | succ m ih =>
      intro st hm
      cases st with
      | nil => rw [collectPrev_none prevIter_nil]; rfl
      | cons fr rest =>
        cases fr with
        | mk last flag =>
          cases hlast : last.getLast? with
          | none =>
            have hnil : last = [] := by
              cases last with
              | nil => rfl
              | cons a t =>
                rw [List.getLast?_eq_getLast _ (by simp)] at hlast
                cases hlast
            subst hnil
            have hlt : stackRW rest < stackRW (([], flag) :: rest) := by
              simp only [stackRW, List.map_cons, List.sum_cons,
                List.length_cons]
              omega
            rw [collectPrev_congr (prevIter_empty hlast),
              ih rest (by omega), stRVals_cons]
            have hfo : frameOut (([] : List (Nat × Node V)), flag) = [] := by
              rcases Bool.eq_false_or_eq_true flag with hf | hf <;>
                subst hf <;> simp [frameOut]
            rw [hfo, List.nil_append]
          | some le =>
            cases le with
            | mk l elem =>
              have hne : last ≠ [] := by
                intro hc
                rw [hc] at hlast
                cases hlast
              have hsplit : last = last.dropLast ++ [(l, elem)] := by
                have h2 := List.dropLast_append_getLast hne
                have h3 : last.getLast hne = (l, elem) := by
                  have h4 := List.getLast?_eq_getLast last hne
                  rw [h4] at hlast
                  injection hlast
                rw [h3] at h2
                exact h2.symm
              have hfl : (last.flatMap (fun e => subVals e.2)).reverse =
                  (subVals elem).reverse ++
                  (last.dropLast.flatMap (fun e => subVals e.2)).reverse := by
                conv_lhs => rw [hsplit]
                rw [List.flatMap_append, List.reverse_append]
                simp
              by_cases hcond : elem.edges.isEmpty = false ∧ flag = false
              · have hf : flag = false := hcond.2
                subst hf
                have hlt := @stackRW_expand_lt _ _ rest _ _ hlast
                rw [collectPrev_congr (prevIter_expand hlast hcond.1),
                  ih _ (by omega)]
                rw [stRVals_cons, stRVals_cons, stRVals_cons]
                have hfo1 : frameOut (elem.edges, false) =
                    (elem.edges.flatMap (fun e => subVals e.2)).reverse := rfl
                have hfo2 : frameOut (last, true) =
                    valList elem ++
                    (last.dropLast.flatMap (fun e => subVals e.2)).reverse := by
                  unfold frameOut
                  dsimp only
                  rw [hlast]
                have hfo3 : frameOut (last, false) =
                    (last.flatMap (fun e => subVals e.2)).reverse := rfl
                rw [hfo1, hfo2, hfo3, hfl, subVals_valList elem,
                  List.reverse_append, valList_reverse]
                simp [List.append_assoc]
              · have hst1 : stRVals (if 1 < last.length
                    then (last.dropLast, false) :: rest else rest) =
                    (last.dropLast.flatMap (fun e => subVals e.2)).reverse
                      ++ stRVals rest := by
                  split
                  · rw [stRVals_cons]
                    rfl
                  · rename_i hlen
                    rw [dropLast_of_short hlen]
                    simp
                have hout : frameOut (last, flag) =
                    valList elem ++
                    (last.dropLast.flatMap (fun e => subVals e.2)).reverse := by
                  rcases Bool.eq_false_or_eq_true flag with hf | hf <;>
                    subst hf
                  · unfold frameOut
                    dsimp only
                    rw [hlast]
                  · have hemp : elem.edges.isEmpty = true := by
                      rcases Bool.eq_false_or_eq_true elem.edges.isEmpty
                        with he | he
                      · exact he
                      · exact absurd ⟨he, rfl⟩ hcond
                    have hedges : elem.edges = [] :=
                      List.isEmpty_iff.mp hemp
                    have hfo3 : frameOut (last, false) =
                        (last.flatMap (fun e => subVals e.2)).reverse := rfl
                    rw [hfo3, hfl, subVals_valList elem, hedges]
                    simp [valList_reverse]
                have hlt := @stackRW_pop_lt _ _ flag rest _ _ hlast
                cases hv : elem.value with
                | some v =>
                  rw [collectPrev_some (prevIter_pop_some hlast hcond hv),
                    ih _ (by omega), hst1, stRVals_cons, hout]
                  unfold valList
                  rw [hv]
                  simp
                | none =>
                  rw [collectPrev_congr (prevIter_pop_none hlast hcond hv),
                    ih _ (by omega), hst1, stRVals_cons, hout]
                  unfold valList
                  rw [hv]
                  simp
  exact H (stackRW st) st (le_refl _)

/-- The state `Previous` builds on its first call on a fresh
`ReverseIterator` over `n`. -/
def revInit (n : Node V) : List (List (Nat × Node V) × Bool) :=
  [([(0, n)], false)]

/-- C6: on any committed root reached from the empty tree, exhausting
`Previous()` on a fresh `ReverseIterator` yields exactly the forward
iteration in reverse: the stored values by strictly descending keys, each
exactly once. -/
theorem c6_reverse_iteration (bs : List (List (Op V))) :
    collectPrev (revInit (runFromEmpty bs)) =
      (collectIter (iterInit (runFromEmpty bs))).reverse ∧
    collectPrev (revInit (runFromEmpty bs)) =
      ((subEntries (runFromEmpty bs)).map Prod.snd).reverse ∧
    (((subEntries (runFromEmpty bs)).map Prod.fst).reverse).Pairwise
      (fun a b => keyLt b a) := by
  have hwf : WfN (runFromEmpty bs) := (runTxns_spec bs wfRoot_empty).1.1
  have h1 : collectPrev (revInit (runFromEmpty bs)) =
      (subVals (runFromEmpty bs)).reverse := by
    rw [collectPrev_stRVals]
    unfold revInit
    rw [stRVals_cons]
    have hfo : frameOut ([((0 : Nat), runFromEmpty bs)], false) =
        (subVals (runFromEmpty bs)).reverse := by
      unfold frameOut
      simp
    rw [hfo]
    simp
  refine ⟨?_, ?_, ?_⟩
  · rw [h1, collectIter_iterInit]
  · rw [h1, subEntries_vals]
  · rw [List.pairwise_reverse]
    exact subEntries_sorted hwf

/-! ## The heap model (`iradix.go` with real pointers)

Go nodes are cells at addresses in an explicit store; `*Node` is an
address.  `writeNode`'s in-place reuse of same-revision nodes, the
edge-slot writes `nc.edges[idx].node = …` and `mergeChild`'s field writes
are real store writes here.  The iterative `Insert` updates the parent's
edge slot (`*n = nc`) before descending; the recursive rendering below
performs that write after the recursive call returns — the written child
keeps its address, so the resulting store is the same. -/

structure Cell (V : Type) : Type where
  revision : Nat
  value : Option V
  pref : List Nat
  edges : List (Nat × Nat)

structure Store (V : Type) : Type where
  next : Nat
  mem : Nat → Cell V

def setCell (σ : Store V) (a : Nat) (c : Cell V) : Store V :=
  ⟨σ.next, fun x => if x = a then c else σ.mem x⟩

def alloc (σ : Store V) (c : Cell V) : Store V × Nat :=
  (⟨σ.next + 1, fun x => if x = σ.next then c else σ.mem x⟩, σ.next)

@[simp] theorem setCell_next (σ : Store V) (a : Nat) (c : Cell V) :
    (setCell σ a c).next = σ.next := rfl

@[simp] theorem setCell_mem_self (σ : Store V) (a : Nat) (c : Cell V) :
    (setCell σ a c).mem a = c := by
  simp [setCell]

theorem setCell_mem_ne (σ : Store V) {a x : Nat} (c : Cell V)
    (h : x ≠ a) : (setCell σ a c).mem x = σ.mem x := by
  simp [setCell, h]

@[simp] theorem alloc_next (σ : Store V) (c : Cell V) :
    (alloc σ c).1.next = σ.next + 1 := rfl

@[simp] theorem alloc_addr (σ : Store V) (c : Cell V) :
    (alloc σ c).2 = σ.next := rfl

@[simp] theorem alloc_mem_self (σ : Store V) (c : Cell V) :
    (alloc σ c).1.mem σ.next = c := by
  simp [alloc]

theorem alloc_mem_ne (σ : Store V) {x : Nat} (c : Cell V)
    (h : x ≠ σ.next) : (alloc σ c).1.mem x = σ.mem x := by
  simp [alloc, h]

/-- Go `Txn.writeNode` on the heap: reuse an owned (same-revision) cell,
else allocate a copy stamped `rv`. -/
def writeNodeH (rv : Nat) (σ : Store V) (a : Nat) : Store V × Nat :=
  let c := σ.mem a
  if c.revision = rv then (σ, a)
  else alloc σ ⟨rv, c.value, c.pref, c.edges⟩

/-- `search` on heap edges (labels only). -/
def labAtH (es : List (Nat × Nat)) (m : Nat) : Nat :=
  (es.getD m (0, 0)).fst

theorem labAtH_eq (es : List (Nat × Nat)) (m : Nat) :
    labAtH es m = (es.map Prod.fst).getD m 0 := by
  unfold labAtH
  rw [List.getD_eq_getElem?_getD, List.getD_eq_getElem?_getD,
    List.getElem?_map]
  cases h : es[m]? with
  | none => simp
  | some e => simp

def searchAuxH (es : List (Nat × Nat)) (label : Nat) (i j : Nat) : Nat :=
  if h : i < j then
    let m := (i + j) / 2
    if labAtH es m < label then searchAuxH es label (m + 1) j
    else searchAuxH es label i m
  else i
  termination_by j - i
  decreasing_by
    · omega
    · omega

def searchH (es : List (Nat × Nat)) (label : Nat) : Nat :=
  searchAuxH es label 0 es.length

/-- The heap binary search agrees with the value-model binary search on
edge lists carrying the same labels. -/
theorem searchAuxH_eq {es : List (Nat × Nat)} {fs : List (Nat × Node V)}
    (h : es.map Prod.fst = fs.map Prod.fst) (b : Nat) (i j : Nat) :
    searchAuxH es b i j = searchAux fs b i j := by
  by_cases hij : i < j
  · rw [searchAuxH, searchAux]
    simp only [hij, dite_true]
    have hlab : labAtH es ((i + j) / 2) = labAt fs ((i + j) / 2) := by
      rw [labAtH_eq, labAt_eq, h]
    rw [hlab]
    by_cases h2 : labAt fs ((i + j) / 2) < b
    · simp only [h2, if_true]
      exact searchAuxH_eq h b ((i + j) / 2 + 1) j
    · simp only [h2, if_false]
      exact searchAuxH_eq h b i ((i + j) / 2)
  · rw [searchAuxH, searchAux]
    simp [hij]
  termination_by j - i
  decreasing_by
    · omega
    · omega

theorem searchH_eq {es : List (Nat × Nat)} {fs : List (Nat × Node V)}
    (h : es.map Prod.fst = fs.map Prod.fst) (b : Nat) :
    searchH es b = searchE fs b := by
  unfold searchH searchE
  have hlen : es.length = fs.length := by
    have h2 := congrArg List.length h
    simpa using h2
  rw [hlen]
  exact searchAuxH_eq h b 0 fs.length

def getEdgeH (es : List (Nat × Nat)) (label : Nat) : Option (Nat × Nat) :=
  let idx := searchH es label
  if h : idx < es.length then
    if (es.get ⟨idx, h⟩).fst = label then some (idx, (es.get ⟨idx, h⟩).snd)
    else none
  else none

def addEdgeH (es : List (Nat × Nat)) (e : Nat × Nat) : List (Nat × Nat) :=
  let idx := searchH es e.fst
  es.take idx ++ e :: es.drop idx

/-- Heap `replaceEdge` as used inside `Insert` (the panic branch is
unreachable there). -/
def replaceEdgeHT (es : List (Nat × Nat)) (e : Nat × Nat) :
    List (Nat × Nat) :=
  let idx := searchH es e.fst
  if h : idx < es.length then
    if (es.get ⟨idx, h⟩).fst = e.fst then es.set idx e else es
  else es

def delEdgeH (es : List (Nat × Nat)) (label : Nat) : List (Nat × Nat) :=
  let idx := searchH es label
  if h : idx < es.length then
    if (es.get ⟨idx, h⟩).fst = label then es.eraseIdx idx else es
  else es

def mergeChildH (σ : Store V) (a : Nat) : Store V :=
  let c := σ.mem a
  match c.edges with
  | (_, childa) :: _ =>
    let child := σ.mem childa
    setCell σ a ⟨c.revision, child.value, concatB c.pref child.pref,
      child.edges⟩
  | [] => σ

/-- Go `Txn.Insert` on the heap.  `fuel` only makes the recursion total:
under the structural invariant each descent consumes at least one byte of
`s`, so `s.length + 1` always suffices. -/
def insertH (rv : Nat) : Nat → Store V → Nat → List Nat → V →
    Option (Store V × Nat × Option V)
  | 0, _, _, _, _ => none
  | fuel + 1, σ, a, s, v =>
    let w := writeNodeH rv σ a
    let σ1 := w.1
    let ac := w.2
    let c := σ1.mem ac
    match s with
    | [] =>
      some (setCell σ1 ac ⟨c.revision, some v, c.pref, c.edges⟩, ac, c.value)
    | b :: _ =>
      match getEdgeH c.edges b with
      | none =>
        let al := alloc σ1 ⟨rv, some v, s, []⟩
        some (setCell al.1 ac
          ⟨c.revision, c.value, c.pref, addEdgeH c.edges (b, al.2)⟩,
          ac, none)
      | some (idx, child) =>
        let cp := (σ1.mem child).pref
        let cl := longestPref s cp
        if cl = cp.length then
          match insertH rv fuel σ1 child (s.drop cl) v with
          | none => none
          | some (σ2, child2, old) =>
            let c2 := σ2.mem ac
            some (setCell σ2 ac
              ⟨c2.revision, c2.value, c2.pref, c2.edges.set idx (b, child2)⟩,
              ac, old)
        else
          let al1 := alloc σ1 ⟨rv, none, s.take cl, []⟩
          let σa := setCell al1.1 ac
            ⟨c.revision, c.value, c.pref, replaceEdgeHT c.edges (b, al1.2)⟩
          let w2 := writeNodeH rv σa child
          let σb := w2.1
          let mc := σb.mem w2.2
          let σc := setCell σb al1.2
            ⟨rv, none, s.take cl, addEdgeH [] (mc.pref.getD cl 0, w2.2)⟩
          let σd := setCell σc w2.2
            ⟨mc.revision, mc.value, mc.pref.drop cl, mc.edges⟩
          match s.drop cl with
          | [] =>
            let cs := σd.mem al1.2
            some (setCell σd al1.2 ⟨cs.revision, some v, cs.pref, cs.edges⟩,
              ac, none)
          | b2 :: _ =>
            let al2 := alloc σd ⟨rv, some v, s.drop cl, []⟩
            let σe := al2.1
            let cs := σe.mem al1.2
            some (setCell σe al1.2
              ⟨cs.revision, cs.value, cs.pref, addEdgeH cs.edges (b2, al2.2)⟩,
              ac, none)

/-- Go `Txn.delete` on the heap.  Result `some (σ, none)` is Go's
`(nil, nil)` — nothing removed, no write happened. -/
def deleteH (rv : Nat) : Nat → Store V → Bool → Nat → List Nat →
    Option (Store V × Option (Nat × V))
  | 0, _, _, _, _ => none
  | fuel + 1, σ, isRoot, a, s =>
    let c := σ.mem a
    match s with
    | [] =>
      match c.value with
      | none => some (σ, none)
      | some old =>
        let w := writeNodeH rv σ a
        let σ1 := w.1
        let ac := w.2
        let c1 := σ1.mem ac
        let σ2 := setCell σ1 ac ⟨c1.revision, none, c1.pref, c1.edges⟩
        if !isRoot && (σ2.mem ac).edges.length == 1 then
          some (mergeChildH σ2 ac, some (ac, old))
        else
          some (σ2, some (ac, old))
    | b :: _ =>
      match getEdgeH c.edges b with
      | none => some (σ, none)
      | some (idx, child) =>
        let cp := (σ.mem child).pref
        if hasPref s cp then
          match deleteH rv fuel σ false child (s.drop cp.length) with
          | none => none
          | some (σ2, none) => some (σ2, none)
          | some (σ2, some (child2, old)) =>
            let w := writeNodeH rv σ2 a
            let σ3 := w.1
            let ac := w.2
            let cc := σ3.mem child2
            if cc.value.isNone && cc.edges.isEmpty then
              let c3 := σ3.mem ac
              let σ4 := setCell σ3 ac
                ⟨c3.revision, c3.value, c3.pref, delEdgeH c3.edges b⟩
              if !isRoot && (σ4.mem ac).edges.length == 1 &&
                  (σ4.mem ac).value.isNone then
                some (mergeChildH σ4 ac, some (ac, old))
              else
                some (σ4, some (ac, old))
            else
              let c3 := σ3.mem ac
              some (setCell σ3 ac
                ⟨c3.revision, c3.value, c3.pref,
                  c3.edges.set idx (b, child2)⟩, some (ac, old))
        else some (σ, none)

/-- One transaction operation on the heap; the root address after it. -/
def applyOpH (rv : Nat) (σ : Store V) (a : Nat) :
    Op V → Option (Store V × Nat)
  | .ins k v =>
    match insertH rv (k.length + 1) σ a k v with
    | none => none
    | some (σ', a', _) => some (σ', a')
  | .del k =>
    match deleteH rv (k.length + 1) σ true a k with
    | none => none
    | some (σ', none) => some (σ', a)
    | some (σ', some (a', _)) => some (σ', a')

def runOpsH (rv : Nat) : List (Op V) → Store V → Nat →
    Option (Store V × Nat)
  | [], σ, a => some (σ, a)
  | op :: ops, σ, a =>
    match applyOpH rv σ a op with
    | none => none
    | some (σ', a') => runOpsH rv ops σ' a'

/-- `NewTxn` + the operations + `Commit`, on the heap. -/
def runTxnH (σ : Store V) (a : Nat) (ops : List (Op V)) :
    Option (Store V × Nat) :=
  runOpsH ((σ.mem a).revision + 1) ops σ a

/-- Address `a` represents the pure tree `n` in store `σ`: same fields, and
the edge targets represent the children, in order. -/
inductive Repr (σ : Store V) : Nat → Node V → Prop where
  | mk {a : Nat} {n : Node V}
      (hval : (σ.mem a).value = n.value)
      (hpref : (σ.mem a).pref = n.pref)
      (hrev : (σ.mem a).revision = n.revision)
      (hlab : (σ.mem a).edges.map Prod.fst = n.edges.map Prod.fst)
      (hch : ∀ i (h1 : i < (σ.mem a).edges.length)
        (h2 : i < n.edges.length),
        Repr σ ((σ.mem a).edges.get ⟨i, h1⟩).snd
          ((n.edges.get ⟨i, h2⟩).snd)) :
      Repr σ a n

/-- Every cell reachable from `a` sits below the allocation frontier and
is NOT owned by revision `rv` — the write-through cache of a transaction
stamped `rv` never touches it. -/
inductive Protected (σ : Store V) (rv : Nat) : Nat → Prop where
  | mk {a : Nat}
      (hlt : a < σ.next)
      (hrev : (σ.mem a).revision ≠ rv)
      (hch : ∀ i (h1 : i < (σ.mem a).edges.length),
        Protected σ rv ((σ.mem a).edges.get ⟨i, h1⟩).snd) :
      Protected σ rv a

/-- Every cell reachable from `a` sits below address `m`. -/
inductive Below (σ : Store V) (m : Nat) : Nat → Prop where
  | mk {a : Nat} (hlt : a < m)
      (hch : ∀ i (h1 : i < (σ.mem a).edges.length),
        Below σ m ((σ.mem a).edges.get ⟨i, h1⟩).snd) :
      Below σ m a

theorem Protected.toBelow {σ : Store V} {rv a : Nat}
    (h : Protected σ rv a) : Below σ σ.next a := by
  induction h with
  | mk hlt hrev hch ih => exact Below.mk hlt ih

/-- Cells below `m` are untouched by a store change that preserves
`mem` below `m`: representation transports. -/
theorem Repr_transport {σ σ' : Store V} {m a : Nat} {n : Node V}
    (hag : ∀ x, x < m → σ'.mem x = σ.mem x)
    (hb : Below σ m a) (hr : Repr σ a n) : Repr σ' a n := by
  induction hb generalizing n with
  | mk hlt hch ih =>
    cases hr with
    | mk hval hpref hrev hlab hchr =>
      have hmem : σ'.mem _ = σ.mem _ := hag _ hlt
      refine Repr.mk ?_ ?_ ?_ ?_ ?_ <;> rw [hmem]
      · exact hval
      · exact hpref
      · exact hrev
      · exact hlab
      · intro i h1 h2
        exact ih i h1 (hchr i h1 h2)

theorem Below_transport {σ σ' : Store V} {m m' a : Nat}
    (hag : ∀ x, x < m → σ'.mem x = σ.mem x) (hmm : m ≤ m')
    (hb : Below σ m a) : Below σ' m' a := by
  induction hb with
  | mk hlt hch ih =>
    refine Below.mk (by omega) ?_
    rw [hag _ hlt]
    exact ih

theorem Protected_transport {σ σ' : Store V} {rv a : Nat}
    (hag : ∀ x, x < σ.next → (σ.mem x).revision ≠ rv → σ'.mem x = σ.mem x)
    (hnext : σ.next ≤ σ'.next)
    (hp : Protected σ rv a) : Protected σ' rv a := by
  induction hp with
  | mk hlt hrev hch ih =>
    have hmem : σ'.mem _ = σ.mem _ := hag _ hlt hrev
    refine Protected.mk (by omega) ?_ ?_ <;> rw [hmem]
    · exact hrev
    · exact ih

theorem Protected_transport_below {σ σ' : Store V} {rv a : Nat}
    (hag : ∀ x, x < σ.next → σ'.mem x = σ.mem x)
    (hnext : σ.next ≤ σ'.next)
    (hp : Protected σ rv a) : Protected σ' rv a :=
  Protected_transport (fun x hx _ => hag x hx) hnext hp

/-- Store evolution of a transaction stamped `rv`: the allocation frontier
only advances, cells not owned by `rv` are never written, and ownership is
never relinquished. -/
def Untouched (rv : Nat) (σ σ' : Store V) : Prop :=
  σ.next ≤ σ'.next ∧
  (∀ x, x < σ.next → (σ.mem x).revision ≠ rv → σ'.mem x = σ.mem x) ∧
  (∀ x, (σ.mem x).revision = rv → (σ'.mem x).revision = rv)

theorem untouched_refl (rv : Nat) (σ : Store V) : Untouched rv σ σ :=
  ⟨le_refl _, fun _ _ _ => rfl, fun _ h => h⟩

theorem untouched_trans {rv : Nat} {σ σ' σ'' : Store V}
    (h1 : Untouched rv σ σ') (h2 : Untouched rv σ' σ'') :
    Untouched rv σ σ'' := by
  obtain ⟨hn1, hm1, hr1⟩ := h1
  obtain ⟨hn2, hm2, hr2⟩ := h2
  refine ⟨le_trans hn1 hn2, fun x hx hrev => ?_, fun x hrev => ?_⟩
  · have e1 := hm1 x hx hrev
    have e2 := hm2 x (by omega) (by rw [e1]; exact hrev)
    rw [e2, e1]
  · exact hr2 x (hr1 x hrev)

theorem untouched_setCell {rv : Nat} {σ : Store V} {a : Nat} {c : Cell V}
    (ha : (σ.mem a).revision = rv) (hc : c.revision = rv) :
    Untouched rv σ (setCell σ a c) := by
  refine ⟨le_refl _, fun x hx hrev => ?_, fun x hrev => ?_⟩
  · refine setCell_mem_ne σ c (fun hax => ?_)
    rw [hax] at hrev
    exact hrev ha
  · by_cases hax : x = a
    · subst hax
      rw [setCell_mem_self]
      exact hc
    · rw [setCell_mem_ne σ c hax]
      exact hrev

theorem untouched_alloc {rv : Nat} {σ : Store V} {c : Cell V}
    (hc : c.revision = rv) : Untouched rv σ (alloc σ c).1 := by
  refine ⟨by simp, fun x hx hrev => ?_, fun x hrev => ?_⟩
  · exact alloc_mem_ne σ c (by omega)
  · by_cases hax : x = σ.next
    · subst hax
      rw [alloc_mem_self]
      exact hc
    · rw [alloc_mem_ne σ c hax]
      exact hrev

theorem untouched_writeNodeH (rv : Nat) (σ : Store V) (a : Nat) :
    Untouched rv σ (writeNodeH rv σ a).1 := by
  unfold writeNodeH
  dsimp only
  split
  · exact untouched_refl rv σ
  · exact untouched_alloc rfl

theorem writeNodeH_rev (rv : Nat) (σ : Store V) (a : Nat) :
    ((writeNodeH rv σ a).1.mem (writeNodeH rv σ a).2).revision = rv := by
  unfold writeNodeH
  dsimp only
  split
  · assumption
  · simp

theorem untouched_mergeChildH {rv : Nat} {σ : Store V} {a : Nat}
    (ha : (σ.mem a).revision = rv) : Untouched rv σ (mergeChildH σ a) := by
  unfold mergeChildH
  dsimp only
  split
  · exact untouched_setCell ha ha
  · exact untouched_refl rv σ

theorem mergeChildH_rev {σ : Store V} {a : Nat} :
    ((mergeChildH σ a).mem a).revision = (σ.mem a).revision := by
  unfold mergeChildH
  dsimp only
  split
  · rw [setCell_mem_self]
  · rfl

theorem Repr_transport_protected {σ σ' : Store V} {rv a : Nat} {n : Node V}
    (hag : ∀ x, x < σ.next → (σ.mem x).revision ≠ rv → σ'.mem x = σ.mem x)
    (hp : Protected σ rv a) (hr : Repr σ a n) : Repr σ' a n := by
  induction hp generalizing n with
  | mk hlt hrev hch ih =>
    cases hr with
    | mk hval hpref hrevr hlab hchr =>
      have hmem : σ'.mem _ = σ.mem _ := hag _ hlt hrev
      refine Repr.mk ?_ ?_ ?_ ?_ ?_ <;> rw [hmem]
      · exact hval
      · exact hpref
      · exact hrevr
      · exact hlab
      · intro i h1 h2
        exact ih i h1 (hchr i h1 h2)

theorem Untouched.rev {rv : Nat} {σ σ' : Store V} {x : Nat}
    (h : Untouched rv σ σ') (hx : (σ.mem x).revision = rv) :
    (σ'.mem x).revision = rv := h.2.2 x hx

/-- `Insert` on the heap never writes a cell it does not own. -/
theorem insertH_untouched {rv : Nat} :
    ∀ (fuel : Nat) (σ : Store V) (a : Nat) (s : List Nat) (v : V)
      {σ' : Store V} {a' : Nat} {old : Option V},
      insertH rv fuel σ a s v = some (σ', a', old) → Untouched rv σ σ' := by
  intro fuel
  induction fuel with
  | zero =>
    intro σ a s v σ' a' old h
    rw [insertH.eq_def] at h
    cases h
  | succ fuel ih =>
    intro σ a s v σ' a' old h
    rw [insertH.eq_def] at h
    dsimp only at h
    have hu1 : Untouched rv σ (writeNodeH rv σ a).1 :=
      untouched_writeNodeH rv σ a
    have hac1 : ((writeNodeH rv σ a).1.mem (writeNodeH rv σ a).2).revision
        = rv := writeNodeH_rev rv σ a
    cases s with
    | nil =>
      injection h with h1
      injection h1 with h2 h3
      rw [← h2]
      exact untouched_trans hu1 (untouched_setCell hac1 hac1)
    | cons b t =>
      dsimp only at h
      cases hg : getEdgeH ((writeNodeH rv σ a).1.mem
          (writeNodeH rv σ a).2).edges b with
      | none =>
        rw [hg] at h
        injection h with h1
        injection h1 with h2 h3
        rw [← h2]
        have hu2 : Untouched rv (writeNodeH rv σ a).1
            (alloc (writeNodeH rv σ a).1
              ⟨rv, some v, b :: t, []⟩).1 := untouched_alloc rfl
        refine untouched_trans hu1 (untouched_trans hu2
          (untouched_setCell (hu2.rev hac1) hac1))
      | some ic =>
        cases ic with
        | mk idx child =>
          rw [hg] at h
          dsimp only at h
          by_cases hcl : longestPref (b :: t)
              ((writeNodeH rv σ a).1.mem child).pref =
              ((writeNodeH rv σ a).1.mem child).pref.length
          · rw [if_pos hcl] at h
            cases hrec : insertH rv fuel (writeNodeH rv σ a).1 child
                ((b :: t).drop (longestPref (b :: t)
                  ((writeNodeH rv σ a).1.mem child).pref)) v with
            | none =>
              rw [hrec] at h
              cases h
            | some res =>
              cases res with
              | mk σ2 p2 =>
                cases p2 with
                | mk child2 old2 =>
                  rw [hrec] at h
                  dsimp only at h
                  injection h with h1
                  injection h1 with h2 h3
                  rw [← h2]
                  have hu2 : Untouched rv (writeNodeH rv σ a).1 σ2 :=
                    ih _ _ _ _ hrec
                  exact untouched_trans hu1 (untouched_trans hu2
                    (untouched_setCell (hu2.rev hac1) (hu2.rev hac1)))
          · rw [if_neg hcl] at h
            generalize hσ1 : (writeNodeH rv σ a).1 = σ1 at h hu1 hac1 hg
            generalize hacv : (writeNodeH rv σ a).2 = ac at h hu1 hac1 hg
            have hu2 : Untouched rv σ1
                (alloc σ1 ⟨rv, none,
                  (b :: t).take (longestPref (b :: t) (σ1.mem child).pref),
                  []⟩).1 := untouched_alloc rfl
            generalize hal1 : alloc σ1 ⟨rv, none,
              (b :: t).take (longestPref (b :: t) (σ1.mem child).pref),
              []⟩ = al1 at h hu2
            have hal1rev : (al1.1.mem al1.2).revision = rv := by
              rw [← hal1]
              simp
            have hu3 : Untouched rv al1.1 (setCell al1.1 ac
                ⟨(σ1.mem ac).revision, (σ1.mem ac).value, (σ1.mem ac).pref,
                  replaceEdgeHT (σ1.mem ac).edges (b, al1.2)⟩) :=
              untouched_setCell (hu2.rev hac1) hac1
            generalize hσa : setCell al1.1 ac
              ⟨(σ1.mem ac).revision, (σ1.mem ac).value, (σ1.mem ac).pref,
                replaceEdgeHT (σ1.mem ac).edges (b, al1.2)⟩ = σa
              at h hu3
            have hu4 : Untouched rv σa (writeNodeH rv σa child).1 :=
              untouched_writeNodeH rv σa child
            have hw2rev : ((writeNodeH rv σa child).1.mem
                (writeNodeH rv σa child).2).revision = rv :=
              writeNodeH_rev rv σa child
            generalize hσb : (writeNodeH rv σa child).1 = σb at h hu4 hw2rev
            generalize hbw : (writeNodeH rv σa child).2 = w2 at h hw2rev
            have hu5 : Untouched rv σb (setCell σb al1.2
                ⟨rv, none,
                  (b :: t).take (longestPref (b :: t) (σ1.mem child).pref),
                  addEdgeH [] (((σb.mem w2).pref.getD
                    (longestPref (b :: t) (σ1.mem child).pref) 0), w2)⟩) :=
              untouched_setCell
                ((hu4.rev (hu3.rev hal1rev))) rfl
            generalize hσc : setCell σb al1.2
              ⟨rv, none,
                (b :: t).take (longestPref (b :: t) (σ1.mem child).pref),
                addEdgeH [] (((σb.mem w2).pref.getD
                  (longestPref (b :: t) (σ1.mem child).pref) 0), w2)⟩ = σc
              at h hu5
            have hu6 : Untouched rv σc (setCell σc w2
                ⟨(σb.mem w2).revision, (σb.mem w2).value,
                  (σb.mem w2).pref.drop
                    (longestPref (b :: t) (σ1.mem child).pref),
                  (σb.mem w2).edges⟩) :=
              untouched_setCell (hu5.rev hw2rev) (by dsimp only; exact hw2rev)
            generalize hσd : setCell σc w2
              ⟨(σb.mem w2).revision, (σb.mem w2).value,
                (σb.mem w2).pref.drop
                  (longestPref (b :: t) (σ1.mem child).pref),
                (σb.mem w2).edges⟩ = σd at h hu6
            have hual : Untouched rv σ σd :=
              untouched_trans hu1 (untouched_trans hu2 (untouched_trans hu3
                (untouched_trans hu4 (untouched_trans hu5 hu6))))
            have hdrev : (σd.mem al1.2).revision = rv :=
              hu6.rev (hu5.rev (hu4.rev (hu3.rev hal1rev)))
            cases hdrop : (b :: t).drop (longestPref (b :: t)
                (σ1.mem child).pref) with
            | nil =>
              rw [hdrop] at h
              dsimp only at h
              injection h with h1
              injection h1 with h2 h3
              rw [← h2]
              exact untouched_trans hual
                (untouched_setCell hdrev (by dsimp only; exact hdrev))
            | cons b2 t2 =>
              rw [hdrop] at h
              dsimp only at h
              injection h with h1
              injection h1 with h2 h3
              rw [← h2]
              have hu7 : Untouched rv σd
                  (alloc σd ⟨rv, some v, b2 :: t2, []⟩).1 :=
                untouched_alloc rfl
              exact untouched_trans hual (untouched_trans hu7
                (untouched_setCell (hu7.rev hdrev)
                  (by dsimp only; exact hu7.rev hdrev)))

/-- `delete` on the heap never writes a cell it does not own. -/
theorem deleteH_untouched {rv : Nat} :
    ∀ (fuel : Nat) (σ : Store V) (isRoot : Bool) (a : Nat) (s : List Nat)
      {σ' : Store V} {r : Option (Nat × V)},
      deleteH rv fuel σ isRoot a s = some (σ', r) → Untouched rv σ σ' := by
  intro fuel
  induction fuel with
  | zero =>
    intro σ isRoot a s σ' r h
    rw [deleteH.eq_def] at h
    cases h
  | succ fuel ih =>
    intro σ isRoot a s σ' r h
    rw [deleteH.eq_def] at h
    dsimp only at h
    cases s with
    | nil =>
      cases hv : (σ.mem a).value with
      | none =>
        rw [hv] at h
        injection h with h1
        injection h1 with h2 h3
        rw [← h2]
        exact untouched_refl rv σ
      | some old0 =>
        rw [hv] at h
        dsimp only at h
        have hu1 : Untouched rv σ (writeNodeH rv σ a).1 :=
          untouched_writeNodeH rv σ a
        have hac1 : ((writeNodeH rv σ a).1.mem
            (writeNodeH rv σ a).2).revision = rv := writeNodeH_rev rv σ a
        have hu2 : Untouched rv (writeNodeH rv σ a).1
            (setCell (writeNodeH rv σ a).1 (writeNodeH rv σ a).2
              ⟨((writeNodeH rv σ a).1.mem (writeNodeH rv σ a).2).revision,
                none,
                ((writeNodeH rv σ a).1.mem (writeNodeH rv σ a).2).pref,
                ((writeNodeH rv σ a).1.mem (writeNodeH rv σ a).2).edges⟩) :=
          untouched_setCell hac1 hac1
        have hrev2 : ((setCell (writeNodeH rv σ a).1 (writeNodeH rv σ a).2
            ⟨((writeNodeH rv σ a).1.mem (writeNodeH rv σ a).2).revision,
              none,
              ((writeNodeH rv σ a).1.mem (writeNodeH rv σ a).2).pref,
              ((writeNodeH rv σ a).1.mem (writeNodeH rv σ a).2).edges⟩).mem
            (writeNodeH rv σ a).2).revision = rv := by
          rw [setCell_mem_self]
          exact hac1
        split at h
        · injection h with h1
          injection h1 with h2 h3
          rw [← h2]
          exact untouched_trans hu1 (untouched_trans hu2
            (untouched_mergeChildH hrev2))
        · injection h with h1
          injection h1 with h2 h3
          rw [← h2]
          exact untouched_trans hu1 hu2
    | cons b t =>
      dsimp only at h
      cases hg : getEdgeH (σ.mem a).edges b with
      | none =>
        rw [hg] at h
        injection h with h1
        injection h1 with h2 h3
        rw [← h2]
        exact untouched_refl rv σ
      | some ic =>
        cases ic with
        | mk idx child =>
          rw [hg] at h
          dsimp only at h
          by_cases hp : hasPref (b :: t) (σ.mem child).pref = true
          · rw [if_pos hp] at h
            cases hrec : deleteH rv fuel σ false child
                ((b :: t).drop (σ.mem child).pref.length) with
            | none =>
              rw [hrec] at h
              cases h
            | some res =>
              cases res with
              | mk σ2 r2 =>
                rw [hrec] at h
                have hu2 : Untouched rv σ σ2 := ih _ _ _ _ hrec
                cases r2 with
                | none =>
                  dsimp only at h
                  injection h with h1
                  injection h1 with h2 h3
                  rw [← h2]
                  exact hu2
                | some p2 =>
                  cases p2 with
                  | mk child2 old2 =>
                    dsimp only at h
                    have hu3 : Untouched rv σ2 (writeNodeH rv σ2 a).1 :=
                      untouched_writeNodeH rv σ2 a
                    have hac3 : ((writeNodeH rv σ2 a).1.mem
                        (writeNodeH rv σ2 a).2).revision = rv :=
                      writeNodeH_rev rv σ2 a
                    split at h
                    · have hu4 : Untouched rv (writeNodeH rv σ2 a).1
                          (setCell (writeNodeH rv σ2 a).1
                            (writeNodeH rv σ2 a).2
                            ⟨((writeNodeH rv σ2 a).1.mem
                                (writeNodeH rv σ2 a).2).revision,
                              ((writeNodeH rv σ2 a).1.mem
                                (writeNodeH rv σ2 a).2).value,
                              ((writeNodeH rv σ2 a).1.mem
                                (writeNodeH rv σ2 a).2).pref,
                              delEdgeH ((writeNodeH rv σ2 a).1.mem
                                (writeNodeH rv σ2 a).2).edges b⟩) :=
                        untouched_setCell hac3 hac3
                      have hrev4 : ((setCell (writeNodeH rv σ2 a).1
                          (writeNodeH rv σ2 a).2
                          ⟨((writeNodeH rv σ2 a).1.mem
                              (writeNodeH rv σ2 a).2).revision,
                            ((writeNodeH rv σ2 a).1.mem
                              (writeNodeH rv σ2 a).2).value,
                            ((writeNodeH rv σ2 a).1.mem
                              (writeNodeH rv σ2 a).2).pref,
                            delEdgeH ((writeNodeH rv σ2 a).1.mem
                              (writeNodeH rv σ2 a).2).edges b⟩).mem
                          (writeNodeH rv σ2 a).2).revision = rv := by
                        rw [setCell_mem_self]
                        exact hac3
                      split at h
                      · injection h with h1
                        injection h1 with h2 h3
                        rw [← h2]
                        exact untouched_trans hu2 (untouched_trans hu3
                          (untouched_trans hu4
                            (untouched_mergeChildH hrev4)))
                      · injection h with h1
                        injection h1 with h2 h3
                        rw [← h2]
                        exact untouched_trans hu2 (untouched_trans hu3 hu4)
                    · injection h with h1
                      injection h1 with h2 h3
                      rw [← h2]
                      exact untouched_trans hu2 (untouched_trans hu3
                        (untouched_setCell hac3 hac3))
          · rw [if_neg hp] at h
            injection h with h1
            injection h1 with h2 h3
            rw [← h2]
            exact untouched_refl rv σ

theorem applyOpH_untouched {rv : Nat} {σ σ' : Store V} {a a' : Nat}
    {op : Op V} (h : applyOpH rv σ a op = some (σ', a')) :
    Untouched rv σ σ' := by
  cases op with
  | ins k v =>
    rw [applyOpH] at h
    cases hr : insertH rv (k.length + 1) σ a k v with
    | none =>
      rw [hr] at h
      cases h
    | some res =>
      cases res with
      | mk σ2 p2 =>
        cases p2 with
        | mk a2 old2 =>
          rw [hr] at h
          injection h with h1
          injection h1 with h2 h3
          rw [← h2]
          exact insertH_untouched _ _ _ _ _ hr
  | del k =>
    rw [applyOpH] at h
    cases hr : deleteH rv (k.length + 1) σ true a k with
    | none =>
      rw [hr] at h
      cases h
    | some res =>
      cases res with
      | mk σ2 r2 =>
        cases r2 with
        | none =>
          rw [hr] at h
          injection h with h1
          injection h1 with h2 h3
          rw [← h2]
          exact deleteH_untouched _ _ _ _ _ hr
        | some p2 =>
          cases p2 with
          | mk a2 old2 =>
            rw [hr] at h
            injection h with h1
            injection h1 with h2 h3
            rw [← h2]
            exact deleteH_untouched _ _ _ _ _ hr

theorem runOpsH_untouched {rv : Nat} {ops : List (Op V)} :
    ∀ {σ : Store V} {a : Nat} {σ' : Store V} {a' : Nat},
      runOpsH rv ops σ a = some (σ', a') → Untouched rv σ σ' := by
  induction ops with
  | nil =>
    intro σ a σ' a' h
    rw [runOpsH] at h
    injection h with h1
    injection h1 with h2 h3
    rw [← h2]
    exact untouched_refl rv σ
  | cons op ops ih =>
    intro σ a σ' a' h
    rw [runOpsH] at h
    cases hop : applyOpH rv σ a op with
    | none =>
      rw [hop] at h
      cases h
    | some p =>
      cases p with
      | mk σ2 a2 =>
        rw [hop] at h
        exact untouched_trans (applyOpH_untouched hop) (ih h)

/-- A cell represents at most one pure tree. -/
theorem Repr_unique {σ : Store V} {a : Nat} {n n' : Node V}
    (h1 : Repr σ a n) (h2 : Repr σ a n') : n = n' := by
  induction h1 generalizing n' with
  | mk hval hpref hrev hlab hch ih =>
    rename_i u m
    cases h2 with
    | mk hval' hpref' hrev' hlab' hch' =>
      have hedges : m.edges = n'.edges := by
        have l1 := congrArg List.length hlab
        have l2 := congrArg List.length hlab'
        simp only [List.length_map] at l1 l2
        have hlen : m.edges.length = n'.edges.length := by omega
        refine List.ext_getElem hlen (fun i hi hi' => ?_)
        have hcl : i < (σ.mem u).edges.length := by omega
        have hfst : (getElem m.edges i hi).fst = (getElem n'.edges i hi').fst := by
          have e1 := congrArg (fun l => l[i]?) hlab
          have e2 := congrArg (fun l => l[i]?) hlab'
          simp only [List.getElem?_map] at e1 e2
          rw [List.getElem?_eq_getElem hcl, List.getElem?_eq_getElem hi]
            at e1
          rw [List.getElem?_eq_getElem hcl, List.getElem?_eq_getElem hi']
            at e2
          simp only [Option.map_some', Option.some_inj] at e1 e2
          rw [← e1, ← e2]
        have hsnd : (getElem m.edges i hi).snd = (getElem n'.edges i hi').snd := by
          have hr' := hch' i hcl hi'
          have := ih i hcl hi hr'
          simpa [List.get_eq_getElem] using this
        exact Prod.ext hfst hsnd
      cases m with
      | mk r0 v0 p0 e0 =>
        cases n' with
        | mk r1 v1 p1 e1 =>
          simp only [Node.value_mk, Node.pref_mk, Node.revision_mk,
            Node.edges_mk] at hval hpref hrev hval' hpref' hrev' hedges
          rw [hval.symm.trans hval', hpref.symm.trans hpref',
            hrev.symm.trans hrev', hedges]

/-- What snapshot isolation asserts of a finished run: if it succeeded, the
old root address still represents exactly the old pure tree. -/
def snapshotHolds (r : Nat) (n : Node V) :
    Option (Store V × Nat) → Prop
  | none => True
  | some p => Repr p.1 r n ∧ ∀ n', Repr p.1 r n' → n' = n

/-- C2 (snapshot isolation / no mutation of ancestors): a transaction
`NewTxn` over the cell at `r` stamps its writes `(σ.mem r).revision + 1`;
if every cell reachable from `r` is older than that stamp (true of every
committed root), then after ANY sequence of `Insert`/`Delete` operations
and `Commit`, the cell graph reachable from `r` is bit-for-bit unchanged:
`r` still represents the same pure tree `n`, so every `Get(r, k)` and
every iteration rooted at `r` returns its pre-transaction result, and `r`
is structurally equal to its pre-transaction deep copy. -/
theorem c2_snapshot_isolation {σ : Store V} {r : Nat} {n : Node V}
    (ops : List (Op V))
    (hprot : Protected σ ((σ.mem r).revision + 1) r)
    (hrepr : Repr σ r n) :
    snapshotHolds r n (runTxnH σ r ops) := by
  cases hrun : runTxnH σ r ops with
  | none => trivial
  | some p =>
    cases p with
    | mk σ' root' =>
      rw [runTxnH] at hrun
      have hu : Untouched ((σ.mem r).revision + 1) σ σ' :=
        runOpsH_untouched hrun
      have hr' : Repr σ' r n :=
        Repr_transport_protected hu.2.1 hprot hrepr
      exact ⟨hr', fun n' h' => Repr_unique h' hr'⟩

def c2cell : Cell Nat := ⟨0, none, [], []⟩

def c2store : Store Nat := ⟨1, fun _ => c2cell⟩

theorem c2_protected_witness :
    Protected c2store ((c2store.mem 0).revision + 1) 0 :=
  Protected.mk (by decide) (by decide)
    (fun i h1 => absurd h1 (by simp [c2store, c2cell]))

theorem c2_repr_witness : Repr c2store 0 (emptyNode : Node Nat) :=
  Repr.mk rfl rfl rfl rfl
    (fun i h1 h2 => absurd h1 (by simp [c2store, c2cell]))

theorem c2_snapshot_isolation_witness :
    Protected c2store ((c2store.mem 0).revision + 1) 0 ∧
    Repr c2store 0 (emptyNode : Node Nat) ∧
    snapshotHolds 0 (emptyNode : Node Nat)
      (runTxnH c2store 0 [Op.ins [1] 5, Op.del [1]]) :=
  ⟨c2_protected_witness, c2_repr_witness,
    c2_snapshot_isolation [Op.ins [1] 5, Op.del [1]]
      c2_protected_witness c2_repr_witness⟩

/-- Heap edge lists related pointwise to pure edge lists: same labels, each
target representing the corresponding child. -/
inductive ERel (σ : Store V) : List (Nat × Nat) → List (Nat × Node V) → Prop
  | nil : ERel σ [] []
  | cons {e : Nat × Nat} {f : Nat × Node V} {es : List (Nat × Nat)}
      {fs : List (Nat × Node V)} :
      e.1 = f.1 → Repr σ e.2 f.2 → ERel σ es fs → ERel σ (e :: es) (f :: fs)

theorem erel_map_fst {σ : Store V} {es : List (Nat × Nat)}
    {fs : List (Nat × Node V)} (h : ERel σ es fs) :
    es.map Prod.fst = fs.map Prod.fst := by
  induction h with
  | nil => rfl
  | cons he hr _ ih => simp [ih, he]

theorem erel_length {σ : Store V} {es : List (Nat × Nat)}
    {fs : List (Nat × Node V)} (h : ERel σ es fs) :
    es.length = fs.length := by
  have := congrArg List.length (erel_map_fst h)
  simpa using this

theorem erel_append {σ : Store V} {es1 es2 : List (Nat × Nat)}
    {fs1 fs2 : List (Nat × Node V)} (h1 : ERel σ es1 fs1)
    (h2 : ERel σ es2 fs2) : ERel σ (es1 ++ es2) (fs1 ++ fs2) := by
  induction h1 with
  | nil => exact h2
  | cons he hr _ ih => exact ERel.cons he hr ih

theorem erel_take {σ : Store V} {es : List (Nat × Nat)}
    {fs : List (Nat × Node V)} (h : ERel σ es fs) (k : Nat) :
    ERel σ (es.take k) (fs.take k) := by
  induction h generalizing k with
  | nil => simpa using ERel.nil
  | cons he hr ht ih =>
    cases k with
    | zero => exact ERel.nil
    | succ k => exact ERel.cons he hr (ih k)

theorem erel_drop {σ : Store V} {es : List (Nat × Nat)}
    {fs : List (Nat × Node V)} (h : ERel σ es fs) (k : Nat) :
    ERel σ (es.drop k) (fs.drop k) := by
  induction h generalizing k with
  | nil => simpa using ERel.nil
  | cons he hr ht ih =>
    cases k with
    | zero => exact ERel.cons he hr ht
    | succ k => exact ih k

theorem erel_set {σ : Store V} {es : List (Nat × Nat)}
    {fs : List (Nat × Node V)} (h : ERel σ es fs) (k : Nat)
    {e : Nat × Nat} {f : Nat × Node V} (he : e.1 = f.1)
    (hr : Repr σ e.2 f.2) : ERel σ (es.set k e) (fs.set k f) := by
  induction h generalizing k with
  | nil => exact ERel.nil
  | cons he2 hr2 ht ih =>
    cases k with
    | zero => exact ERel.cons he hr ht
    | succ k => exact ERel.cons he2 hr2 (ih k)

theorem erel_eraseIdx {σ : Store V} {es : List (Nat × Nat)}
    {fs : List (Nat × Node V)} (h : ERel σ es fs) (k : Nat) :
    ERel σ (es.eraseIdx k) (fs.eraseIdx k) := by
  induction h generalizing k with
  | nil => exact ERel.nil
  | cons he hr ht ih =>
    cases k with
    | zero => exact ht
    | succ k => exact ERel.cons he hr (ih k)

theorem erel_get {σ : Store V} {es : List (Nat × Nat)}
    {fs : List (Nat × Node V)} (h : ERel σ es fs) (i : Nat)
    (h1 : i < es.length) (h2 : i < fs.length) :
    (es.get ⟨i, h1⟩).1 = (fs.get ⟨i, h2⟩).1 ∧
    Repr σ (es.get ⟨i, h1⟩).2 (fs.get ⟨i, h2⟩).2 := by
  induction h generalizing i with
  | nil => cases h1
  | cons he hr ht ih =>
    cases i with
    | zero => exact ⟨he, hr⟩
    | succ i => exact ih i (by simpa using h1) (by simpa using h2)

theorem erel_of_index {σ : Store V} :
    ∀ {es : List (Nat × Nat)} {fs : List (Nat × Node V)},
      es.map Prod.fst = fs.map Prod.fst →
      (∀ i (h1 : i < es.length) (h2 : i < fs.length),
        Repr σ (es.get ⟨i, h1⟩).snd (fs.get ⟨i, h2⟩).snd) →
      ERel σ es fs := by
  intro es
  induction es with
  | nil =>
    intro fs hlab hch
    cases fs with
    | nil => exact ERel.nil
    | cons f fs => cases hlab
  | cons e es ih =>
    intro fs hlab hch
    cases fs with
    | nil => cases hlab
    | cons f fs =>
      simp only [List.map_cons, List.cons.injEq] at hlab
      refine ERel.cons hlab.1 ?_ (ih hlab.2 (fun i h1 h2 => ?_))
      · exact hch 0 (by simp) (by simp)
      · exact hch (i + 1) (by simpa using h1) (by simpa using h2)

theorem Repr.erel {σ : Store V} {a : Nat} {n : Node V} (h : Repr σ a n) :
    ERel σ (σ.mem a).edges n.edges := by
  cases h with
  | mk hval hpref hrev hlab hch => exact erel_of_index hlab hch

theorem Repr_of_erel {σ : Store V} {a : Nat} {n : Node V}
    (hval : (σ.mem a).value = n.value) (hpref : (σ.mem a).pref = n.pref)
    (hrev : (σ.mem a).revision = n.revision)
    (her : ERel σ (σ.mem a).edges n.edges) : Repr σ a n :=
  Repr.mk hval hpref hrev (erel_map_fst her)
    (fun i h1 h2 => (erel_get her i h1 h2).2)

theorem erel_transport {σ σ' : Store V} {m : Nat} {es : List (Nat × Nat)}
    {fs : List (Nat × Node V)}
    (hag : ∀ x, x < m → σ'.mem x = σ.mem x)
    (hb : ∀ e ∈ es, Below σ m e.2) (h : ERel σ es fs) : ERel σ' es fs := by
  induction h with
  | nil => exact ERel.nil
  | cons he hr ht ih =>
    refine ERel.cons he ?_ (ih (fun e he2 => hb e (by simp [he2])))
    exact Repr_transport hag (hb _ (by simp)) hr

theorem Protected.childAt {σ : Store V} {rv a : Nat} (h : Protected σ rv a)
    (i : Nat) (h1 : i < (σ.mem a).edges.length) :
    Protected σ rv ((σ.mem a).edges.get ⟨i, h1⟩).snd := by
  cases h with
  | mk hlt hrev hch => exact hch i h1

theorem Below.childIdx {σ : Store V} {m a : Nat} (h : Below σ m a)
    (i : Nat) (h1 : i < (σ.mem a).edges.length) :
    Below σ m ((σ.mem a).edges.get ⟨i, h1⟩).snd := by
  cases h with
  | mk hlt hch => exact hch i h1

theorem Protected.mem_below {σ : Store V} {rv a : Nat}
    (h : Protected σ rv a) : ∀ e ∈ (σ.mem a).edges, Below σ σ.next e.2 := by
  intro e he
  obtain ⟨i, hi, hie⟩ := List.mem_iff_getElem.mp he
  have := (h.childAt i (by omega)).toBelow
  rw [List.get_eq_getElem, hie] at this
  exact this

/-- Heap `writeNode` on a cell the transaction does not own always takes the
copy branch. -/
theorem writeNodeH_not_owned {rv : Nat} {σ : Store V} {a : Nat}
    (h : (σ.mem a).revision ≠ rv) :
    writeNodeH rv σ a =
      alloc σ ⟨rv, (σ.mem a).value, (σ.mem a).pref, (σ.mem a).edges⟩ := by
  unfold writeNodeH
  dsimp only
  rw [if_neg h]

theorem writeNode_not_owned {rv : Nat} {n : Node V} (h : n.revision ≠ rv) :
    writeNode rv n = Node.mk rv n.value n.pref n.edges := by
  unfold writeNode
  rw [if_neg h]

/-- Reachability bound threaded through `insertH`: every address reachable
from the result is either in the caller's protected region (`< m`) or was
freshly allocated at or after `k`. -/
inductive BelowSplit (σ : Store V) (m k : Nat) : Nat → Prop where
  | mk {a : Nat} (ha : a < m ∨ (k ≤ a ∧ a < σ.next))
      (hch : ∀ i (h1 : i < (σ.mem a).edges.length),
        BelowSplit σ m k ((σ.mem a).edges.get ⟨i, h1⟩).snd) :
      BelowSplit σ m k a

theorem belowSplit_of_below {σ : Store V} {m a : Nat} (k : Nat)
    (h : Below σ m a) : BelowSplit σ m k a := by
  induction h with
  | mk hlt hch ih => exact BelowSplit.mk (Or.inl hlt) ih

theorem BelowSplit.intoBelow {σ : Store V} {m k a : Nat} (hm : m ≤ σ.next)
    (h : BelowSplit σ m k a) : Below σ σ.next a := by
  induction h with
  | mk ha hch ih => exact Below.mk (by omega) ih

theorem belowSplit_transport {σ σ' : Store V} {m k k' a : Nat}
    (hag : ∀ x, (x < m ∨ (k ≤ x ∧ x < σ.next)) → σ'.mem x = σ.mem x)
    (hk : k' ≤ k) (hnext : σ.next ≤ σ'.next)
    (h : BelowSplit σ m k a) : BelowSplit σ' m k' a := by
  induction h with
  | mk ha hch ih =>
    refine BelowSplit.mk (by omega) ?_
    rw [hag _ ha]
    exact ih

theorem repr_transport_split {σ σ' : Store V} {m k a : Nat} {n : Node V}
    (hag : ∀ x, (x < m ∨ (k ≤ x ∧ x < σ.next)) → σ'.mem x = σ.mem x)
    (hb : BelowSplit σ m k a) (hr : Repr σ a n) : Repr σ' a n := by
  induction hb generalizing n with
  | mk ha hch ih =>
    cases hr with
    | mk hval hpref hrev hlab hchr =>
      have hmem : σ'.mem _ = σ.mem _ := hag _ ha
      refine Repr.mk ?_ ?_ ?_ ?_ ?_ <;> rw [hmem]
      · exact hval
      · exact hpref
      · exact hrev
      · exact hlab
      · intro i h1 h2
        exact ih i h1 (hchr i h1 h2)

theorem Below.memChild {σ : Store V} {m a : Nat} (h : Below σ m a)
    {e : Nat × Nat} (he : e ∈ (σ.mem a).edges) : Below σ m e.2 := by
  obtain ⟨i, hi, hie⟩ := List.mem_iff_getElem.mp he
  have := h.childIdx i (by omega)
  rw [List.get_eq_getElem, hie] at this
  exact this

/-- `getEdgeH` agrees with the value-model `getEdge` across `ERel`:
a miss is a miss, a hit lands on the same index and a related child. -/
theorem getEdgeH_bridge {σ : Store V} {es : List (Nat × Nat)}
    {n : Node V} (her : ERel σ es n.edges) (b : Nat) :
    (getEdgeH es b = none → n.getEdge b = none) ∧
    (∀ idx ca, getEdgeH es b = some (idx, ca) →
      ∃ c : Node V, n.getEdge b = some (idx, c) ∧ Repr σ ca c) := by
  have hlen : es.length = n.edges.length := erel_length her
  have hs : searchH es b = searchE n.edges b :=
    searchH_eq (erel_map_fst her) b
  unfold getEdgeH Node.getEdge
  dsimp only
  rw [hs]
  by_cases h1 : searchE n.edges b < n.edges.length
  · rw [dif_pos (show searchE n.edges b < es.length by omega), dif_pos h1]
    have hget := erel_get her (searchE n.edges b) (by omega) h1
    by_cases h2 : (n.edges.get ⟨searchE n.edges b, h1⟩).fst = b
    · rw [if_pos (by rw [hget.1]; exact h2), if_pos h2]
      constructor
      · intro h
        cases h
      · intro idx ca h
        injection h with h'
        injection h' with hidx hca
        subst hidx
        subst hca
        exact ⟨_, rfl, hget.2⟩
    · rw [if_neg (by rw [hget.1]; exact h2), if_neg h2]
      exact ⟨fun _ => rfl, fun idx ca h => by cases h⟩
  · rw [dif_neg (show ¬ searchE n.edges b < es.length by omega), dif_neg h1]
    exact ⟨fun _ => rfl, fun idx ca h => by cases h⟩

theorem getEdgeH_inv {es : List (Nat × Nat)} {b idx ca : Nat}
    (h : getEdgeH es b = some (idx, ca)) :
    searchH es b = idx ∧ ∃ hlen : idx < es.length,
      es.get ⟨idx, hlen⟩ = (b, ca) := by
  unfold getEdgeH at h
  dsimp only at h
  split at h
  · rename_i hlen
    split at h
    · rename_i heq
      injection h with h'
      injection h' with h1 h2
      subst h1
      refine ⟨rfl, hlen, ?_⟩
      cases hx : es.get ⟨searchH es b, hlen⟩ with
      | mk lf nd =>
        simp only [hx] at heq h2
        simp [heq, h2]
    · cases h
  · cases h

theorem addEdgeH_erel {σ : Store V} {es : List (Nat × Nat)} {n : Node V}
    (her : ERel σ es n.edges) {bb ca : Nat} {f : Node V}
    (hr : Repr σ ca f) :
    ERel σ (addEdgeH es (bb, ca)) (n.addEdge (bb, f)).edges := by
  rw [Node.addEdge_edges]
  unfold addEdgeH
  dsimp only
  rw [searchH_eq (erel_map_fst her) bb]
  exact erel_append (erel_take her _) (ERel.cons rfl hr (erel_drop her _))

theorem searchH_nil (l : Nat) : searchH ([] : List (Nat × Nat)) l = 0 := by
  unfold searchH searchAuxH
  simp

theorem addEdgeH_nil (e : Nat × Nat) :
    addEdgeH ([] : List (Nat × Nat)) e = [e] := by
  unfold addEdgeH
  dsimp only
  rw [searchH_nil]
  rfl

theorem mem_addEdgeH {es : List (Nat × Nat)} {e x : Nat × Nat} :
    x ∈ addEdgeH es e ↔ x = e ∨ x ∈ es := by
  unfold addEdgeH
  dsimp only
  constructor
  · intro h
    rcases List.mem_append.mp h with h | h
    · exact Or.inr (List.mem_of_mem_take h)
    · rcases List.mem_cons.mp h with h | h
      · exact Or.inl h
      · exact Or.inr (List.mem_of_mem_drop h)
  · intro h
    rcases h with rfl | h
    · exact List.mem_append.mpr (Or.inr (List.mem_cons_self _ _))
    · have h2 : x ∈ es.take (searchH es e.fst) ++ es.drop (searchH es e.fst) := by
        rw [List.take_append_drop]
        exact h
      rcases List.mem_append.mp h2 with h3 | h3
      · exact List.mem_append.mpr (Or.inl h3)
      · exact List.mem_append.mpr (Or.inr (List.mem_cons_of_mem _ h3))

theorem delEdge_fields (n : Node V) (b : Nat) :
    (n.delEdge b).value = n.value ∧ (n.delEdge b).pref = n.pref ∧
    (n.delEdge b).revision = n.revision := by
  unfold Node.delEdge
  dsimp only
  split
  · split <;> simp
  · simp

theorem delEdgeH_erel {σ : Store V} {es : List (Nat × Nat)} {n : Node V}
    (her : ERel σ es n.edges) (b : Nat) :
    ERel σ (delEdgeH es b) (n.delEdge b).edges := by
  have hlen : es.length = n.edges.length := erel_length her
  have hs : searchH es b = searchE n.edges b :=
    searchH_eq (erel_map_fst her) b
  unfold delEdgeH Node.delEdge
  dsimp only
  rw [hs]
  by_cases h1 : searchE n.edges b < n.edges.length
  · rw [dif_pos (show searchE n.edges b < es.length by omega), dif_pos h1]
    have hget := erel_get her (searchE n.edges b) (by omega) h1
    by_cases h2 : (n.edges.get ⟨searchE n.edges b, h1⟩).fst = b
    · rw [if_pos (by rw [hget.1]; exact h2), if_pos h2]
      exact erel_eraseIdx her _
    · rw [if_neg (by rw [hget.1]; exact h2), if_neg h2]
      exact her
  · rw [dif_neg (show ¬ searchE n.edges b < es.length by omega), dif_neg h1]
    exact her

theorem replaceEdgeHT_found {es : List (Nat × Nat)} {b idx ca : Nat}
    (hg : getEdgeH es b = some (idx, ca)) (p : Nat) :
    replaceEdgeHT es (b, p) = es.set idx (b, p) := by
  obtain ⟨hs, hlen, hget⟩ := getEdgeH_inv hg
  unfold replaceEdgeHT
  dsimp only
  rw [hs, dif_pos hlen, if_pos (by rw [hget])]

theorem setEdgeNode_of_getEdge {n : Node V} {b idx : Nat} {child : Node V}
    (hg : n.getEdge b = some (idx, child)) (c' : Node V) :
    n.setEdgeNode idx c' =
      Node.mk n.revision n.value n.pref (n.edges.set idx (b, c')) := by
  obtain ⟨hs, hlen, hget⟩ := Node.getEdge_inv hg
  unfold Node.setEdgeNode
  have hget? : n.edges.get? idx = some (b, child) := by
    rw [List.get?_eq_getElem?, List.getElem?_eq_getElem hlen]
    simpa [List.get_eq_getElem] using hget
  rw [hget?]

theorem pref_pos_of_head {p : List Nat} {l : Nat}
    (h : p.head? = some l) : 0 < p.length := by
  cases p with
  | nil => cases h
  | cons x xs => simp

/-- Postcondition of the heap `Insert` starting from an unowned, protected
tree: it succeeds, returns the pure result's previous value, the fresh root
`σ.next` represents the pure result tree, old cells are untouched, and
everything reachable from the new root is old-reachable (`< m`) or fresh. -/
def InsPost (rv fuel : Nat) (σ : Store V) (a m : Nat) (n : Node V)
    (s : List Nat) (v : V) : Prop :=
  ∃ σ', insertH rv fuel σ a s v = some (σ', σ.next, (txInsert rv n s v).2) ∧
    Repr σ' σ.next (txInsert rv n s v).1 ∧ σ.next < σ'.next ∧
    (∀ x, x < σ.next → σ'.mem x = σ.mem x) ∧ BelowSplit σ' m σ.next σ.next

theorem insertH_succ_nil (rv fuel : Nat) (σ : Store V) (a : Nat) (v : V)
    {σ1 : Store V} {ac : Nat} (hw : writeNodeH rv σ a = (σ1, ac)) :
    insertH rv (fuel + 1) σ a [] v =
      some (setCell σ1 ac ⟨(σ1.mem ac).revision, some v, (σ1.mem ac).pref,
        (σ1.mem ac).edges⟩, ac, (σ1.mem ac).value) := by
  rw [insertH.eq_def]
  dsimp only
  rw [hw]

theorem insertH_succ_noedge {rv fuel : Nat} {σ : Store V} {a b : Nat}
    {t : List Nat} {v : V} {σ1 : Store V} {ac : Nat}
    (hw : writeNodeH rv σ a = (σ1, ac))
    (hg : getEdgeH (σ1.mem ac).edges b = none) :
    insertH rv (fuel + 1) σ a (b :: t) v =
      some (setCell (alloc σ1 ⟨rv, some v, b :: t, []⟩).1 ac
        ⟨(σ1.mem ac).revision, (σ1.mem ac).value, (σ1.mem ac).pref,
          addEdgeH (σ1.mem ac).edges (b, σ1.next)⟩, ac, none) := by
  rw [insertH.eq_def]
  dsimp only
  rw [hw]
  dsimp only
  rw [hg]
  rfl

theorem insertH_succ_descend {rv fuel : Nat} {σ : Store V} {a b : Nat}
    {t : List Nat} {v : V} {σ1 : Store V} {ac idx child : Nat}
    (hw : writeNodeH rv σ a = (σ1, ac))
    (hg : getEdgeH (σ1.mem ac).edges b = some (idx, child))
    (hcl : longestPref (b :: t) ((σ1.mem child).pref) =
      ((σ1.mem child).pref).length)
    {σ2 : Store V} {child2 : Nat} {old : Option V}
    (hrec : insertH rv fuel σ1 child
        ((b :: t).drop (longestPref (b :: t) ((σ1.mem child).pref))) v =
      some (σ2, child2, old)) :
    insertH rv (fuel + 1) σ a (b :: t) v =
      some (setCell σ2 ac ⟨(σ2.mem ac).revision, (σ2.mem ac).value,
        (σ2.mem ac).pref, (σ2.mem ac).edges.set idx (b, child2)⟩, ac, old) := by
  rw [insertH.eq_def]
  dsimp only
  rw [hw]
  dsimp only
  rw [hg]
  dsimp only
  rw [if_pos hcl]
  rw [hrec]

theorem Protected.nrev {σ : Store V} {rv a : Nat} (h : Protected σ rv a) :
    (σ.mem a).revision ≠ rv := by
  cases h with
  | mk hlt hrev hch => exact hrev

theorem Protected.lt {σ : Store V} {rv a : Nat} (h : Protected σ rv a) :
    a < σ.next := by
  cases h with
  | mk hlt hrev hch => exact hlt

theorem Repr.fval {σ : Store V} {a : Nat} {n : Node V} (h : Repr σ a n) :
    (σ.mem a).value = n.value := by
  cases h with
  | mk hval hpref hrev hlab hch => exact hval

theorem Repr.fpref {σ : Store V} {a : Nat} {n : Node V} (h : Repr σ a n) :
    (σ.mem a).pref = n.pref := by
  cases h with
  | mk hval hpref hrev hlab hch => exact hpref

theorem Repr.frev {σ : Store V} {a : Nat} {n : Node V} (h : Repr σ a n) :
    (σ.mem a).revision = n.revision := by
  cases h with
  | mk hval hpref hrev hlab hch => exact hrev

@[simp] theorem setValue_rev (n : Node V) (v : Option V) :
    (n.setValue v).revision = n.revision := rfl

theorem writeNode_rev_not_owned {rv : Nat} {n : Node V}
    (h : n.revision ≠ rv) : (writeNode rv n).revision = rv := by
  rw [writeNode_not_owned h]
  rfl

theorem belowSplit_node {σ : Store V} {m k a : Nat}
    (ha : a < m ∨ (k ≤ a ∧ a < σ.next))
    (hch : ∀ e ∈ (σ.mem a).edges, BelowSplit σ m k e.2) :
    BelowSplit σ m k a := by
  refine BelowSplit.mk ha ?_
  intro i h1
  exact hch _ (List.get_mem _ _ _)

theorem insertH_sim_nil {rv fuel : Nat} {σ : Store V} {a m : Nat}
    {n : Node V} (v : V)
    (hprot : Protected σ rv a) (hrepr : Repr σ a n)
    (hb : Below σ m a) (hm : m ≤ σ.next) :
    InsPost rv (fuel + 1) σ a m n [] v := by
  have hrev := hprot.nrev
  have hnrev : n.revision ≠ rv := by rw [← hrepr.frev]; exact hrev
  have hw : writeNodeH rv σ a =
      ((alloc σ ⟨rv, (σ.mem a).value, (σ.mem a).pref, (σ.mem a).edges⟩).1,
        σ.next) := writeNodeH_not_owned hrev
  have hins := insertH_succ_nil rv fuel σ a v hw
  simp only [alloc_mem_self] at hins
  have hframe : ∀ x, x < σ.next →
      (setCell (alloc σ ⟨rv, (σ.mem a).value, (σ.mem a).pref,
          (σ.mem a).edges⟩).1 σ.next
        ⟨rv, some v, (σ.mem a).pref, (σ.mem a).edges⟩).mem x = σ.mem x := by
    intro x hx
    rw [setCell_mem_ne _ _ (by omega), alloc_mem_ne _ _ (by omega)]
  have hcell : (setCell (alloc σ ⟨rv, (σ.mem a).value, (σ.mem a).pref,
          (σ.mem a).edges⟩).1 σ.next
        ⟨rv, some v, (σ.mem a).pref, (σ.mem a).edges⟩).mem σ.next =
      ⟨rv, some v, (σ.mem a).pref, (σ.mem a).edges⟩ := setCell_mem_self _ _ _
  refine ⟨_, ?_, ?_, by simp only [setCell_next, alloc_next]; omega,
    hframe, ?_⟩
  · rw [txInsert_nil]
    dsimp only
    rw [writeNode_value, ← hrepr.fval]
    exact hins
  · rw [txInsert_nil]
    dsimp only
    refine Repr_of_erel ?_ ?_ ?_ ?_
    · rw [hcell]
      simp
    · rw [hcell, hrepr.fpref]
      simp
    · rw [hcell]
      simp [setValue_rev, writeNode_rev_not_owned hnrev]
    · rw [hcell]
      simp only [Node.setValue_edges, writeNode_edges]
      exact erel_transport hframe hprot.mem_below (Repr.erel hrepr)
  · refine belowSplit_node
      (Or.inr ⟨le_refl _, by simp only [setCell_next, alloc_next]; omega⟩) ?_
    intro e he
    rw [hcell] at he
    exact belowSplit_transport (fun x hx => hframe x (by omega)) (le_refl _)
      (by simp only [setCell_next, alloc_next]; omega)
      (belowSplit_of_below _ (hb.memChild he))

theorem insertH_sim_noedge {rv fuel : Nat} {σ : Store V} {a m b : Nat}
    {t : List Nat} {n : Node V} (v : V)
    (hprot : Protected σ rv a) (hrepr : Repr σ a n)
    (hb : Below σ m a) (hm : m ≤ σ.next)
    (hg0 : getEdgeH (σ.mem a).edges b = none) :
    InsPost rv (fuel + 1) σ a m n (b :: t) v := by
  have hrev := hprot.nrev
  have hnrev : n.revision ≠ rv := by rw [← hrepr.frev]; exact hrev
  have her := Repr.erel hrepr
  have hgp : n.getEdge b = none := (getEdgeH_bridge her b).1 hg0
  have hgnc : (writeNode rv n).getEdge b = none := by
    rw [getEdge_writeNode]
    exact hgp
  have hw : writeNodeH rv σ a =
      ((alloc σ ⟨rv, (σ.mem a).value, (σ.mem a).pref, (σ.mem a).edges⟩).1,
        σ.next) := writeNodeH_not_owned hrev
  have hg1 : getEdgeH ((alloc σ ⟨rv, (σ.mem a).value, (σ.mem a).pref,
      (σ.mem a).edges⟩).1.mem σ.next).edges b = none := by
    rw [alloc_mem_self]
    exact hg0
  have hins := @insertH_succ_noedge V rv fuel σ a b t v _ _ hw hg1
  simp only [alloc_mem_self, alloc_next] at hins
  have hframe : ∀ x, x < σ.next →
      (setCell (alloc (alloc σ ⟨rv, (σ.mem a).value, (σ.mem a).pref,
          (σ.mem a).edges⟩).1 ⟨rv, some v, b :: t, []⟩).1 σ.next
        ⟨rv, (σ.mem a).value, (σ.mem a).pref,
          addEdgeH (σ.mem a).edges (b, σ.next + 1)⟩).mem x = σ.mem x := by
    intro x hx
    rw [setCell_mem_ne _ _ (by omega),
      alloc_mem_ne _ _ (by simp only [alloc_next]; omega),
      alloc_mem_ne _ _ (by omega)]
  have hcell : (setCell (alloc (alloc σ ⟨rv, (σ.mem a).value, (σ.mem a).pref,
          (σ.mem a).edges⟩).1 ⟨rv, some v, b :: t, []⟩).1 σ.next
        ⟨rv, (σ.mem a).value, (σ.mem a).pref,
          addEdgeH (σ.mem a).edges (b, σ.next + 1)⟩).mem σ.next =
      ⟨rv, (σ.mem a).value, (σ.mem a).pref,
        addEdgeH (σ.mem a).edges (b, σ.next + 1)⟩ := setCell_mem_self _ _ _
  have hleaf : (setCell (alloc (alloc σ ⟨rv, (σ.mem a).value, (σ.mem a).pref,
          (σ.mem a).edges⟩).1 ⟨rv, some v, b :: t, []⟩).1 σ.next
        ⟨rv, (σ.mem a).value, (σ.mem a).pref,
          addEdgeH (σ.mem a).edges (b, σ.next + 1)⟩).mem (σ.next + 1) =
      ⟨rv, some v, b :: t, []⟩ := by
    rw [setCell_mem_ne _ _ (by omega)]
    exact alloc_mem_self _ _
  have hrleaf : Repr (setCell (alloc (alloc σ ⟨rv, (σ.mem a).value,
        (σ.mem a).pref, (σ.mem a).edges⟩).1 ⟨rv, some v, b :: t, []⟩).1 σ.next
        ⟨rv, (σ.mem a).value, (σ.mem a).pref,
          addEdgeH (σ.mem a).edges (b, σ.next + 1)⟩) (σ.next + 1)
      (Node.mk rv (some v) (b :: t) []) := by
    refine Repr_of_erel ?_ ?_ ?_ ?_ <;> rw [hleaf] <;> try rfl
    exact ERel.nil
  refine ⟨_, ?_, ?_, by simp only [setCell_next, alloc_next]; omega,
    hframe, ?_⟩
  · rw [txInsert_cons_noedge hgnc]
    exact hins
  · rw [txInsert_cons_noedge hgnc]
    dsimp only
    refine Repr_of_erel ?_ ?_ ?_ ?_
    · rw [hcell, hrepr.fval]
      simp
    · rw [hcell, hrepr.fpref]
      simp
    · rw [hcell]
      simp [writeNode_rev_not_owned hnrev]
    · rw [hcell]
      have her' : ERel (setCell (alloc (alloc σ ⟨rv, (σ.mem a).value,
          (σ.mem a).pref, (σ.mem a).edges⟩).1 ⟨rv, some v, b :: t, []⟩).1
          σ.next ⟨rv, (σ.mem a).value, (σ.mem a).pref,
            addEdgeH (σ.mem a).edges (b, σ.next + 1)⟩)
          (σ.mem a).edges (writeNode rv n).edges := by
        rw [writeNode_edges]
        exact erel_transport hframe hprot.mem_below her
      exact addEdgeH_erel her' hrleaf
  · refine belowSplit_node
      (Or.inr ⟨le_refl _, by simp only [setCell_next, alloc_next]; omega⟩) ?_
    intro e he
    rw [hcell] at he
    rcases mem_addEdgeH.mp he with rfl | he2
    · refine belowSplit_node
        (Or.inr ⟨by omega, by simp only [setCell_next, alloc_next]; omega⟩) ?_
      intro e2 he2
      rw [hleaf] at he2
      cases he2
    · exact belowSplit_transport (fun x hx => hframe x (by omega)) (le_refl _)
        (by simp only [setCell_next, alloc_next]; omega)
        (belowSplit_of_below _ (hb.memChild he2))

theorem insertH_sim_descend {rv fuel : Nat} {σ : Store V}
    {a m b idx child : Nat} {t : List Nat} {n cpure : Node V} (v : V)
    (hprot : Protected σ rv a) (hrepr : Repr σ a n)
    (hb : Below σ m a) (hm : m ≤ σ.next)
    (hg0 : getEdgeH (σ.mem a).edges b = some (idx, child))
    (hgp : n.getEdge b = some (idx, cpure))
    (hreprc : Repr σ child cpure)
    (hcl : longestPref (b :: t) cpure.pref = cpure.pref.length)
    (ihrec : InsPost rv fuel (alloc σ ⟨rv, (σ.mem a).value, (σ.mem a).pref,
        (σ.mem a).edges⟩).1 child m cpure
      ((b :: t).drop (longestPref (b :: t) cpure.pref)) v) :
    InsPost rv (fuel + 1) σ a m n (b :: t) v := by
  have hrev := hprot.nrev
  have hnrev : n.revision ≠ rv := by rw [← hrepr.frev]; exact hrev
  have her := Repr.erel hrepr
  have hgnc : (writeNode rv n).getEdge b = some (idx, cpure) := by
    rw [getEdge_writeNode]
    exact hgp
  have hw : writeNodeH rv σ a =
      ((alloc σ ⟨rv, (σ.mem a).value, (σ.mem a).pref, (σ.mem a).edges⟩).1,
        σ.next) := writeNodeH_not_owned hrev
  obtain ⟨hlen0, hget0⟩ := (getEdgeH_inv hg0).2
  have hpc : Protected σ rv child := by
    have := hprot.childAt idx hlen0
    rwa [hget0] at this
  have hσ1c : (alloc σ ⟨rv, (σ.mem a).value, (σ.mem a).pref,
      (σ.mem a).edges⟩).1.mem child = σ.mem child :=
    alloc_mem_ne _ _ (by have := hpc.lt; omega)
  have hcp : ((alloc σ ⟨rv, (σ.mem a).value, (σ.mem a).pref,
      (σ.mem a).edges⟩).1.mem child).pref = cpure.pref := by
    rw [hσ1c]
    exact hreprc.fpref
  have hg1 : getEdgeH ((alloc σ ⟨rv, (σ.mem a).value, (σ.mem a).pref,
      (σ.mem a).edges⟩).1.mem σ.next).edges b = some (idx, child) := by
    rw [alloc_mem_self]
    exact hg0
  have hcl1 : longestPref (b :: t) (((alloc σ ⟨rv, (σ.mem a).value,
      (σ.mem a).pref, (σ.mem a).edges⟩).1.mem child).pref) =
      (((alloc σ ⟨rv, (σ.mem a).value, (σ.mem a).pref,
        (σ.mem a).edges⟩).1.mem child).pref).length := by
    rw [hcp]
    exact hcl
  unfold InsPost at ihrec ⊢
  obtain ⟨σ2, hrec, hrepr2, hlt2, hframe2, hbs2⟩ := ihrec
  rw [hcl] at hrec hrepr2
  have hrec2 : insertH rv fuel (alloc σ ⟨rv, (σ.mem a).value, (σ.mem a).pref,
      (σ.mem a).edges⟩).1 child
      ((b :: t).drop (longestPref (b :: t) (((alloc σ ⟨rv, (σ.mem a).value,
        (σ.mem a).pref, (σ.mem a).edges⟩).1.mem child).pref))) v =
      some (σ2, (alloc σ ⟨rv, (σ.mem a).value, (σ.mem a).pref,
        (σ.mem a).edges⟩).1.next,
        (txInsert rv cpure ((b :: t).drop cpure.pref.length) v).2) := by
    rw [hcp, hcl]
    exact hrec
  have hins := insertH_succ_descend hw hg1 hcl1 hrec2
  have hc2 : σ2.mem σ.next =
      ⟨rv, (σ.mem a).value, (σ.mem a).pref, (σ.mem a).edges⟩ := by
    rw [hframe2 _ (by simp only [alloc_next]; omega)]
    exact alloc_mem_self _ _
  simp only [hc2, alloc_next] at hins
  simp only [alloc_next] at hlt2 hframe2 hbs2 hrepr2
  have hframeT : ∀ x, x < σ.next →
      (setCell σ2 σ.next ⟨rv, (σ.mem a).value, (σ.mem a).pref,
        (σ.mem a).edges.set idx (b, σ.next + 1)⟩).mem x = σ.mem x := by
    intro x hx
    rw [setCell_mem_ne _ _ (by omega), hframe2 _ (by omega),
      alloc_mem_ne _ _ (by omega)]
  have hcell : (setCell σ2 σ.next ⟨rv, (σ.mem a).value, (σ.mem a).pref,
        (σ.mem a).edges.set idx (b, σ.next + 1)⟩).mem σ.next =
      ⟨rv, (σ.mem a).value, (σ.mem a).pref,
        (σ.mem a).edges.set idx (b, σ.next + 1)⟩ := setCell_mem_self _ _ _
  have hr2' : Repr (setCell σ2 σ.next ⟨rv, (σ.mem a).value, (σ.mem a).pref,
        (σ.mem a).edges.set idx (b, σ.next + 1)⟩) (σ.next + 1)
      (txInsert rv cpure ((b :: t).drop cpure.pref.length) v).1 :=
    repr_transport_split
      (fun x hx => setCell_mem_ne _ _ (by omega)) hbs2 hrepr2
  have hbs2' : BelowSplit (setCell σ2 σ.next ⟨rv, (σ.mem a).value,
        (σ.mem a).pref, (σ.mem a).edges.set idx (b, σ.next + 1)⟩) m σ.next
      (σ.next + 1) :=
    belowSplit_transport (fun x hx => setCell_mem_ne _ _ (by omega))
      (by omega) (by simp only [setCell_next]; omega) hbs2
  refine ⟨_, ?_, ?_, by simp only [setCell_next]; omega, hframeT, ?_⟩
  · rw [txInsert_cons_descend hgnc hcl]
    exact hins
  · rw [txInsert_cons_descend hgnc hcl]
    dsimp only
    rw [setEdgeNode_of_getEdge hgnc]
    refine Repr_of_erel ?_ ?_ ?_ ?_
    · rw [hcell, hrepr.fval]
      simp
    · rw [hcell, hrepr.fpref]
      simp
    · rw [hcell]
      simp [writeNode_rev_not_owned hnrev]
    · rw [hcell]
      simp only [writeNode_edges]
      exact erel_set (erel_transport hframeT hprot.mem_below her) idx rfl hr2'
  · refine belowSplit_node
      (Or.inr ⟨le_refl _, by simp only [setCell_next]; omega⟩) ?_
    intro e he
    rw [hcell] at he
    rcases List.mem_or_eq_of_mem_set he with he2 | rfl
    · exact belowSplit_transport (fun x hx => hframeT x (by omega)) (le_refl _)
        (by simp only [setCell_next]; omega)
        (belowSplit_of_below _ (hb.memChild he2))
    · refine belowSplit_transport (fun x hx => rfl) (by omega)
        (le_refl _) hbs2'

@[simp] theorem setPref_rev (n : Node V) (p : List Nat) :
    (n.setPref p).revision = n.revision := rfl

theorem insertH_succ_split {rv fuel : Nat} {σ : Store V} {a b : Nat}
    {t : List Nat} {v : V} {σ1 : Store V} {ac idx child : Nat}
    (hw : writeNodeH rv σ a = (σ1, ac))
    (hg : getEdgeH (σ1.mem ac).edges b = some (idx, child))
    (hcl : longestPref (b :: t) ((σ1.mem child).pref) ≠
      ((σ1.mem child).pref).length) :
    insertH rv (fuel + 1) σ a (b :: t) v =
      (let cl := longestPref (b :: t) ((σ1.mem child).pref)
       let al1 := alloc σ1 ⟨rv, none, (b :: t).take cl, []⟩
       let σa := setCell al1.1 ac ⟨(σ1.mem ac).revision, (σ1.mem ac).value,
         (σ1.mem ac).pref, replaceEdgeHT (σ1.mem ac).edges (b, al1.2)⟩
       let w2 := writeNodeH rv σa child
       let mc := w2.1.mem w2.2
       let σc := setCell w2.1 al1.2 ⟨rv, none, (b :: t).take cl,
         addEdgeH [] (mc.pref.getD cl 0, w2.2)⟩
       let σd := setCell σc w2.2 ⟨mc.revision, mc.value, mc.pref.drop cl,
         mc.edges⟩
       match (b :: t).drop cl with
       | [] =>
         some (setCell σd al1.2 ⟨(σd.mem al1.2).revision, some v,
           (σd.mem al1.2).pref, (σd.mem al1.2).edges⟩, ac, none)
       | b2 :: _ =>
         let al2 := alloc σd ⟨rv, some v, (b :: t).drop cl, []⟩
         some (setCell al2.1 al1.2 ⟨(al2.1.mem al1.2).revision,
           (al2.1.mem al1.2).value, (al2.1.mem al1.2).pref,
           addEdgeH (al2.1.mem al1.2).edges (b2, al2.2)⟩, ac, none)) := by
  rw [insertH.eq_def]
  dsimp only
  rw [hw]
  dsimp only
  rw [hg]
  dsimp only
  rw [if_neg hcl]

/-- Memory layout after the prefix-split writes of `insertH` (before the
final write at the split node): frame below the original frontier. -/
theorem sstore1_frame {σ : Store V} (c1 c2 c3 c4 c5 c6 c7 : Cell V)
    {x : Nat} (hx : x < σ.next) :
    (setCell (setCell (setCell (alloc (setCell (alloc (alloc σ c1).1 c2).1
        σ.next c3) c4).1 (σ.next + 1) c5) (σ.next + 1 + 1) c6) (σ.next + 1)
        c7).mem x = σ.mem x := by
  rw [setCell_mem_ne _ _ (by omega), setCell_mem_ne _ _ (by omega),
    setCell_mem_ne _ _ (by omega),
    alloc_mem_ne _ _ (show x ≠ σ.next + 1 + 1 by omega),
    setCell_mem_ne _ _ (by omega),
    alloc_mem_ne _ _ (show x ≠ σ.next + 1 by omega),
    alloc_mem_ne _ _ (by omega)]

theorem sstore1_memA {σ : Store V} (c1 c2 c3 c4 c5 c6 c7 : Cell V) :
    (setCell (setCell (setCell (alloc (setCell (alloc (alloc σ c1).1 c2).1
        σ.next c3) c4).1 (σ.next + 1) c5) (σ.next + 1 + 1) c6) (σ.next + 1)
        c7).mem σ.next = c3 := by
  rw [setCell_mem_ne _ _ (by omega), setCell_mem_ne _ _ (by omega),
    setCell_mem_ne _ _ (by omega),
    alloc_mem_ne _ _ (show σ.next ≠ σ.next + 1 + 1 by omega)]
  exact setCell_mem_self _ _ _

theorem sstore2_frame {σ : Store V} (c1 c2 c3 c4 c5 c6 c7 c8 : Cell V)
    {x : Nat} (hx : x < σ.next) :
    (setCell (alloc (setCell (setCell (alloc (setCell (alloc (alloc σ c1).1
        c2).1 σ.next c3) c4).1 (σ.next + 1) c5) (σ.next + 1 + 1) c6) c7).1
        (σ.next + 1) c8).mem x = σ.mem x := by
  rw [setCell_mem_ne _ _ (by omega),
    alloc_mem_ne _ _ (show x ≠ σ.next + 1 + 1 + 1 by omega),
    setCell_mem_ne _ _ (by omega), setCell_mem_ne _ _ (by omega),
    alloc_mem_ne _ _ (show x ≠ σ.next + 1 + 1 by omega),
    setCell_mem_ne _ _ (by omega),
    alloc_mem_ne _ _ (show x ≠ σ.next + 1 by omega),
    alloc_mem_ne _ _ (by omega)]

theorem sstore2_memA {σ : Store V} (c1 c2 c3 c4 c5 c6 c7 c8 : Cell V) :
    (setCell (alloc (setCell (setCell (alloc (setCell (alloc (alloc σ c1).1
        c2).1 σ.next c3) c4).1 (σ.next + 1) c5) (σ.next + 1 + 1) c6) c7).1
        (σ.next + 1) c8).mem σ.next = c3 := by
  rw [setCell_mem_ne _ _ (by omega),
    alloc_mem_ne _ _ (show σ.next ≠ σ.next + 1 + 1 + 1 by omega),
    setCell_mem_ne _ _ (by omega), setCell_mem_ne _ _ (by omega),
    alloc_mem_ne _ _ (show σ.next ≠ σ.next + 1 + 1 by omega)]
  exact setCell_mem_self _ _ _

theorem sstore2_memQ {σ : Store V} (c1 c2 c3 c4 c5 c6 c7 c8 : Cell V) :
    (setCell (alloc (setCell (setCell (alloc (setCell (alloc (alloc σ c1).1
        c2).1 σ.next c3) c4).1 (σ.next + 1) c5) (σ.next + 1 + 1) c6) c7).1
        (σ.next + 1) c8).mem (σ.next + 1 + 1) = c6 := by
  rw [setCell_mem_ne _ _ (by omega),
    alloc_mem_ne _ _ (show σ.next + 1 + 1 ≠ σ.next + 1 + 1 + 1 by omega)]
  exact setCell_mem_self _ _ _

theorem sstore2_memL {σ : Store V} (c1 c2 c3 c4 c5 c6 c7 c8 : Cell V) :
    (setCell (alloc (setCell (setCell (alloc (setCell (alloc (alloc σ c1).1
        c2).1 σ.next c3) c4).1 (σ.next + 1) c5) (σ.next + 1 + 1) c6) c7).1
        (σ.next + 1) c8).mem (σ.next + 1 + 1 + 1) = c7 := by
  rw [setCell_mem_ne _ _ (by omega)]
  exact alloc_mem_self _ _

theorem insertH_sim_split {rv fuel : Nat} {σ : Store V}
    {a m b idx child : Nat} {t : List Nat} {n cpure : Node V} (v : V)
    (hprot : Protected σ rv a) (hrepr : Repr σ a n)
    (hb : Below σ m a) (hm : m ≤ σ.next)
    (hg0 : getEdgeH (σ.mem a).edges b = some (idx, child))
    (hgp : n.getEdge b = some (idx, cpure))
    (hreprc : Repr σ child cpure)
    (hclne : longestPref (b :: t) cpure.pref ≠ cpure.pref.length) :
    InsPost rv (fuel + 1) σ a m n (b :: t) v := by
  have hrev := hprot.nrev
  have hnrev : n.revision ≠ rv := by rw [← hrepr.frev]; exact hrev
  have her := Repr.erel hrepr
  have hgnc : (writeNode rv n).getEdge b = some (idx, cpure) := by
    rw [getEdge_writeNode]
    exact hgp
  obtain ⟨hlen0, hget0⟩ := (getEdgeH_inv hg0).2
  have hpc : Protected σ rv child := by
    have := hprot.childAt idx hlen0
    rwa [hget0] at this
  have hbc : Below σ m child := by
    have := hb.childIdx idx hlen0
    rwa [hget0] at this
  have hclt := hpc.lt
  have hncrev : cpure.revision ≠ rv := by rw [← hreprc.frev]; exact hpc.nrev
  have hw : writeNodeH rv σ a =
      ((alloc σ ⟨rv, (σ.mem a).value, (σ.mem a).pref, (σ.mem a).edges⟩).1,
        σ.next) := writeNodeH_not_owned hrev
  have hg1 : getEdgeH ((alloc σ ⟨rv, (σ.mem a).value, (σ.mem a).pref,
      (σ.mem a).edges⟩).1.mem σ.next).edges b = some (idx, child) := by
    rw [alloc_mem_self]
    exact hg0
  have hσ1c : (alloc σ ⟨rv, (σ.mem a).value, (σ.mem a).pref,
      (σ.mem a).edges⟩).1.mem child = σ.mem child :=
    alloc_mem_ne _ _ (by omega)
  have hcp : ((alloc σ ⟨rv, (σ.mem a).value, (σ.mem a).pref,
      (σ.mem a).edges⟩).1.mem child).pref = cpure.pref := by
    rw [hσ1c]
    exact hreprc.fpref
  have hclne1 : longestPref (b :: t) (((alloc σ ⟨rv, (σ.mem a).value,
      (σ.mem a).pref, (σ.mem a).edges⟩).1.mem child).pref) ≠
      (((alloc σ ⟨rv, (σ.mem a).value, (σ.mem a).pref,
        (σ.mem a).edges⟩).1.mem child).pref).length := by
    rw [hcp]
    exact hclne
  have hins := @insertH_succ_split V rv fuel σ a b t v _ _ idx child hw hg1
    hclne1
  dsimp only at hins
  rw [hcp] at hins
  simp only [alloc_mem_self, alloc_addr] at hins
  rw [replaceEdgeHT_found hg0] at hins
  have hσac : (setCell (alloc (alloc σ ⟨rv, (σ.mem a).value, (σ.mem a).pref,
        (σ.mem a).edges⟩).1
        ⟨rv, none, (b :: t).take (longestPref (b :: t) cpure.pref), []⟩).1
        σ.next ⟨rv, (σ.mem a).value, (σ.mem a).pref,
          (σ.mem a).edges.set idx (b, (alloc σ ⟨rv, (σ.mem a).value,
            (σ.mem a).pref, (σ.mem a).edges⟩).1.next)⟩).mem child =
      σ.mem child := by
    rw [setCell_mem_ne _ _ (by omega),
      alloc_mem_ne _ _ (show child ≠ σ.next + 1 by omega),
      alloc_mem_ne _ _ (by omega)]
  have hwa : writeNodeH rv (setCell (alloc (alloc σ ⟨rv, (σ.mem a).value,
        (σ.mem a).pref, (σ.mem a).edges⟩).1
        ⟨rv, none, (b :: t).take (longestPref (b :: t) cpure.pref), []⟩).1
        σ.next ⟨rv, (σ.mem a).value, (σ.mem a).pref,
          (σ.mem a).edges.set idx (b, (alloc σ ⟨rv, (σ.mem a).value,
            (σ.mem a).pref, (σ.mem a).edges⟩).1.next)⟩) child =
      alloc (setCell (alloc (alloc σ ⟨rv, (σ.mem a).value, (σ.mem a).pref,
        (σ.mem a).edges⟩).1
        ⟨rv, none, (b :: t).take (longestPref (b :: t) cpure.pref), []⟩).1
        σ.next ⟨rv, (σ.mem a).value, (σ.mem a).pref,
          (σ.mem a).edges.set idx (b, (alloc σ ⟨rv, (σ.mem a).value,
            (σ.mem a).pref, (σ.mem a).edges⟩).1.next)⟩)
        ⟨rv, (σ.mem child).value, (σ.mem child).pref,
          (σ.mem child).edges⟩ := by
    rw [writeNodeH_not_owned (by rw [hσac]; exact hpc.nrev), hσac]
  rw [hwa] at hins
  simp only [alloc_mem_self, alloc_addr] at hins
  rw [hreprc.fpref] at hins
  rw [addEdgeH_nil] at hins
  simp only [setCell_next, alloc_next] at hins
  unfold InsPost
  rcases hdp : (b :: t).drop (longestPref (b :: t) cpure.pref) with _ | ⟨b2, t2⟩
  · -- the key is exhausted at the new split node
    rw [hdp] at hins
    dsimp only at hins
    rw [setCell_mem_ne _ _ (by omega), setCell_mem_self] at hins
    dsimp only at hins
    simp only [txInsert_cons_split hgnc hclne, hdp]
    refine ⟨_, hins, ?_, ?_, ?_, ?_⟩
    · -- representation of the new root
      rw [Node.replaceEdgeT_eq_setEdgeNode hgnc, setEdgeNode_of_getEdge hgnc]
      have hreprq : Repr (setCell (setCell (setCell (alloc (setCell (alloc
            (alloc σ ⟨rv, (σ.mem a).value, (σ.mem a).pref, (σ.mem a).edges⟩).1
            ⟨rv, none, (b :: t).take (longestPref (b :: t) cpure.pref), []⟩).1
            σ.next ⟨rv, (σ.mem a).value, (σ.mem a).pref,
              (σ.mem a).edges.set idx (b, σ.next + 1)⟩)
            ⟨rv, (σ.mem child).value, cpure.pref, (σ.mem child).edges⟩).1
            (σ.next + 1) ⟨rv, none,
              (b :: t).take (longestPref (b :: t) cpure.pref),
              [(cpure.pref.getD (longestPref (b :: t) cpure.pref) 0,
                σ.next + 1 + 1)]⟩) (σ.next + 1 + 1)
            ⟨rv, (σ.mem child).value,
              cpure.pref.drop (longestPref (b :: t) cpure.pref),
              (σ.mem child).edges⟩) (σ.next + 1)
            ⟨rv, some v, (b :: t).take (longestPref (b :: t) cpure.pref),
              [(cpure.pref.getD (longestPref (b :: t) cpure.pref) 0,
                σ.next + 1 + 1)]⟩) (σ.next + 1 + 1)
          ((writeNode rv cpure).setPref
            (cpure.pref.drop (longestPref (b :: t) cpure.pref))) := by
        refine Repr_of_erel ?_ ?_ ?_ ?_ <;>
          rw [setCell_mem_ne _ _ (by omega), setCell_mem_self]
        · simp only [Node.setPref_value, writeNode_value]
          exact hreprc.fval
        · simp only [Node.setPref_pref]
        · simp only [setPref_rev, writeNode_rev_not_owned hncrev]
        · simp only [Node.setPref_edges, writeNode_edges]
          exact erel_transport (fun x hx => sstore1_frame _ _ _ _ _ _ _ hx)
            hpc.mem_below (Repr.erel hreprc)
      refine Repr_of_erel ?_ ?_ ?_ ?_ <;> rw [sstore1_memA]
      · simp only [Node.value_mk, writeNode_value]
        exact hrepr.fval
      · simp only [Node.pref_mk, writeNode_pref]
        exact hrepr.fpref
      · simp only [Node.revision_mk, writeNode_rev_not_owned hnrev]
      · simp only [Node.edges_mk, writeNode_edges]
        refine erel_set (erel_transport
          (fun x hx => sstore1_frame _ _ _ _ _ _ _ hx)
          hprot.mem_below her) idx rfl ?_
        refine Repr_of_erel ?_ ?_ ?_ ?_ <;> rw [setCell_mem_self]
        · simp
        · simp
        · simp
        · simp only [Node.setValue_edges, addEdge_nil_edges]
          exact ERel.cons rfl hreprq ERel.nil
    · show σ.next < σ.next + 1 + 1 + 1
      omega
    · exact fun x hx => sstore1_frame _ _ _ _ _ _ _ hx
    · refine belowSplit_node (Or.inr ⟨le_refl _,
        show σ.next < σ.next + 1 + 1 + 1 by omega⟩) ?_
      intro e he
      rw [sstore1_memA] at he
      rcases List.mem_or_eq_of_mem_set he with he2 | rfl
      · exact belowSplit_transport
          (fun x hx => sstore1_frame _ _ _ _ _ _ _ (by omega)) (le_refl _)
          (show σ.next ≤ σ.next + 1 + 1 + 1 by omega)
          (belowSplit_of_below _ (hb.memChild he2))
      · show BelowSplit _ m σ.next (σ.next + 1)
        refine belowSplit_node (Or.inr ⟨by omega,
          show σ.next + 1 < σ.next + 1 + 1 + 1 by omega⟩) ?_
        intro e2 he2
        rw [setCell_mem_self] at he2
        rw [List.mem_singleton] at he2
        subst he2
        show BelowSplit _ m σ.next (σ.next + 1 + 1)
        refine belowSplit_node (Or.inr ⟨by omega,
          show σ.next + 1 + 1 < σ.next + 1 + 1 + 1 by omega⟩) ?_
        intro e3 he3
        rw [setCell_mem_ne _ _ (by omega), setCell_mem_self] at he3
        exact belowSplit_transport
          (fun x hx => sstore1_frame _ _ _ _ _ _ _ (by omega)) (le_refl _)
          (show σ.next ≤ σ.next + 1 + 1 + 1 by omega)
          (belowSplit_of_below _ (hbc.memChild he3))
  · -- a tail of the key remains: a fresh leaf hangs off the split node
    rw [hdp] at hins
    dsimp only at hins
    rw [alloc_mem_ne _ _ (show σ.next + 1 ≠ σ.next + 1 + 1 + 1 by omega),
      setCell_mem_ne _ _ (by omega), setCell_mem_self] at hins
    dsimp only at hins
    simp only [txInsert_cons_split hgnc hclne, hdp]
    refine ⟨_, hins, ?_, ?_, ?_, ?_⟩
    · rw [Node.replaceEdgeT_eq_setEdgeNode hgnc, setEdgeNode_of_getEdge hgnc]
      have hreprq : Repr (setCell (alloc (setCell (setCell (alloc (setCell
            (alloc (alloc σ ⟨rv, (σ.mem a).value, (σ.mem a).pref,
              (σ.mem a).edges⟩).1
            ⟨rv, none, (b :: t).take (longestPref (b :: t) cpure.pref), []⟩).1
            σ.next ⟨rv, (σ.mem a).value, (σ.mem a).pref,
              (σ.mem a).edges.set idx (b, σ.next + 1)⟩)
            ⟨rv, (σ.mem child).value, cpure.pref, (σ.mem child).edges⟩).1
            (σ.next + 1) ⟨rv, none,
              (b :: t).take (longestPref (b :: t) cpure.pref),
              [(cpure.pref.getD (longestPref (b :: t) cpure.pref) 0,
                σ.next + 1 + 1)]⟩) (σ.next + 1 + 1)
            ⟨rv, (σ.mem child).value,
              cpure.pref.drop (longestPref (b :: t) cpure.pref),
              (σ.mem child).edges⟩) ⟨rv, some v, b2 :: t2, []⟩).1
            (σ.next + 1) ⟨rv, none,
              (b :: t).take (longestPref (b :: t) cpure.pref),
              addEdgeH [(cpure.pref.getD (longestPref (b :: t) cpure.pref) 0,
                σ.next + 1 + 1)] (b2, σ.next + 1 + 1 + 1)⟩) (σ.next + 1 + 1)
          ((writeNode rv cpure).setPref
            (cpure.pref.drop (longestPref (b :: t) cpure.pref))) := by
        refine Repr_of_erel ?_ ?_ ?_ ?_ <;> rw [sstore2_memQ]
        · simp only [Node.setPref_value, writeNode_value]
          exact hreprc.fval
        · simp only [Node.setPref_pref]
        · simp only [setPref_rev, writeNode_rev_not_owned hncrev]
        · simp only [Node.setPref_edges, writeNode_edges]
          exact erel_transport (fun x hx => sstore2_frame _ _ _ _ _ _ _ _ hx)
            hpc.mem_below (Repr.erel hreprc)
      refine Repr_of_erel ?_ ?_ ?_ ?_ <;> rw [sstore2_memA]
      · simp only [Node.value_mk, writeNode_value]
        exact hrepr.fval
      · simp only [Node.pref_mk, writeNode_pref]
        exact hrepr.fpref
      · simp only [Node.revision_mk, writeNode_rev_not_owned hnrev]
      · simp only [Node.edges_mk, writeNode_edges]
        refine erel_set (erel_transport
          (fun x hx => sstore2_frame _ _ _ _ _ _ _ _ hx)
          hprot.mem_below her) idx rfl ?_
        refine Repr_of_erel ?_ ?_ ?_ ?_ <;> rw [setCell_mem_self]
        · simp
        · simp
        · simp
        · refine addEdgeH_erel ?_ ?_
          · rw [addEdge_nil_edges]
            exact ERel.cons rfl hreprq ERel.nil
          · refine Repr_of_erel ?_ ?_ ?_ ?_ <;> rw [sstore2_memL] <;> try rfl
            exact ERel.nil
    · show σ.next < σ.next + 1 + 1 + 1 + 1
      omega
    · exact fun x hx => sstore2_frame _ _ _ _ _ _ _ _ hx
    · refine belowSplit_node (Or.inr ⟨le_refl _,
        show σ.next < σ.next + 1 + 1 + 1 + 1 by omega⟩) ?_
      intro e he
      rw [sstore2_memA] at he
      rcases List.mem_or_eq_of_mem_set he with he2 | rfl
      · exact belowSplit_transport
          (fun x hx => sstore2_frame _ _ _ _ _ _ _ _ (by omega)) (le_refl _)
          (show σ.next ≤ σ.next + 1 + 1 + 1 + 1 by omega)
          (belowSplit_of_below _ (hb.memChild he2))
      · show BelowSplit _ m σ.next (σ.next + 1)
        refine belowSplit_node (Or.inr ⟨by omega,
          show σ.next + 1 < σ.next + 1 + 1 + 1 + 1 by omega⟩) ?_
        intro e2 he2
        rw [setCell_mem_self] at he2
        rcases mem_addEdgeH.mp he2 with rfl | he3
        · show BelowSplit _ m σ.next (σ.next + 1 + 1 + 1)
          refine belowSplit_node (Or.inr ⟨by omega,
            show σ.next + 1 + 1 + 1 < σ.next + 1 + 1 + 1 + 1 by omega⟩) ?_
          intro e3 he3
          rw [sstore2_memL] at he3
          cases he3
        · rw [List.mem_singleton] at he3
          subst he3
          show BelowSplit _ m σ.next (σ.next + 1 + 1)
          refine belowSplit_node (Or.inr ⟨by omega,
            show σ.next + 1 + 1 < σ.next + 1 + 1 + 1 + 1 by omega⟩) ?_
          intro e3 he3
          rw [sstore2_memQ] at he3
          exact belowSplit_transport
            (fun x hx => sstore2_frame _ _ _ _ _ _ _ _ (by omega)) (le_refl _)
            (show σ.next ≤ σ.next + 1 + 1 + 1 + 1 by omega)
            (belowSplit_of_below _ (hbc.memChild he3))

/-- Simulation of the heap `Insert` by the pure `txInsert`: starting from a
protected, represented, well-formed tree, the heap run succeeds with fuel
`|key| + 1`, returns the pure previous value, leaves every pre-existing cell
untouched, and the fresh root represents the pure result. -/
theorem insertH_sim {rv : Nat} (fuel : Nat) :
    ∀ (s : List Nat) (σ : Store V) (a m : Nat) (n : Node V) (v : V),
      s.length < fuel →
      Protected σ rv a → Repr σ a n → WfN n → Below σ m a → m ≤ σ.next →
      InsPost rv fuel σ a m n s v := by
  induction fuel with
  | zero =>
    intro s σ a m n v hfuel
    exact absurd hfuel (Nat.not_lt_zero _)
  | succ fuel ih =>
    intro s σ a m n v hfuel hprot hrepr hwf hb hm
    cases s with
    | nil => exact insertH_sim_nil v hprot hrepr hb hm
    | cons b t =>
      cases hg0 : getEdgeH (σ.mem a).edges b with
      | none => exact insertH_sim_noedge v hprot hrepr hb hm hg0
      | some ic =>
        obtain ⟨idx, child⟩ := ic
        have her := Repr.erel hrepr
        obtain ⟨cpure, hgp, hreprc⟩ := (getEdgeH_bridge her b).2 idx child hg0
        by_cases hcl : longestPref (b :: t) cpure.pref = cpure.pref.length
        · obtain ⟨hlen0, hget0⟩ := (getEdgeH_inv hg0).2
          have hpc : Protected σ rv child := by
            have := hprot.childAt idx hlen0
            rwa [hget0] at this
          have hbcm : Below σ m child := by
            have := hb.childIdx idx hlen0
            rwa [hget0] at this
          have hmemP : (b, cpure) ∈ n.edges := Node.getEdge_mem hgp
          have hwfc : WfN cpure := hwf.child b cpure hmemP
          have hhead : cpure.pref.head? = some b := hwf.head b cpure hmemP
          have hpos : 0 < cpure.pref.length := pref_pos_of_head hhead
          have hfuel2 : ((b :: t).drop
              (longestPref (b :: t) cpure.pref)).length < fuel := by
            rw [List.length_drop, hcl]
            simp only [List.length_cons] at hfuel ⊢
            omega
          have hag1 : ∀ x, x < σ.next →
              (alloc σ ⟨rv, (σ.mem a).value, (σ.mem a).pref,
                (σ.mem a).edges⟩).1.mem x = σ.mem x :=
            fun x hx => alloc_mem_ne _ _ (by omega)
          have ihi := ih ((b :: t).drop (longestPref (b :: t) cpure.pref))
            (alloc σ ⟨rv, (σ.mem a).value, (σ.mem a).pref,
              (σ.mem a).edges⟩).1 child m cpure v hfuel2
            (Protected_transport_below hag1
              (show σ.next ≤ σ.next + 1 by omega) hpc)
            (Repr_transport hag1 hpc.toBelow hreprc) hwfc
            (Below_transport (fun x hx => hag1 x (by omega)) (le_refl m) hbcm)
            (show m ≤ σ.next + 1 by omega)
          exact insertH_sim_descend v hprot hrepr hb hm hg0 hgp hreprc hcl ihi
        · exact insertH_sim_split v hprot hrepr hb hm hg0 hgp hreprc hcl

theorem erel_cons_inv {σ : Store V} {e : Nat × Nat} {es : List (Nat × Nat)}
    {fs : List (Nat × Node V)} (h : ERel σ (e :: es) fs) :
    ∃ f fs', fs = f :: fs' ∧ e.1 = f.1 ∧ Repr σ e.2 f.2 ∧ ERel σ es fs' := by
  cases h with
  | cons he hr ht => exact ⟨_, _, rfl, he, hr, ht⟩

theorem Protected.memChildP {σ : Store V} {rv a : Nat}
    (h : Protected σ rv a) {e : Nat × Nat} (he : e ∈ (σ.mem a).edges) :
    Protected σ rv e.2 := by
  obtain ⟨i, hi, hie⟩ := List.mem_iff_getElem.mp he
  have := h.childAt i (by omega)
  rw [List.get_eq_getElem, hie] at this
  exact this

theorem mem_delEdgeH {es : List (Nat × Nat)} {b : Nat} {x : Nat × Nat}
    (h : x ∈ delEdgeH es b) : x ∈ es := by
  unfold delEdgeH at h
  dsimp only at h
  split at h
  · split at h
    · exact List.eraseIdx_subset _ _ h
    · exact h
  · exact h

theorem isEmpty_eq_of_length {α β : Type} {xs : List α} {ys : List β}
    (h : xs.length = ys.length) : xs.isEmpty = ys.isEmpty := by
  cases xs <;> cases ys <;> simp_all

theorem mergeChildH_cons {σ : Store V} {a la ca : Nat} {es : List (Nat × Nat)}
    (h : (σ.mem a).edges = (la, ca) :: es) :
    mergeChildH σ a = setCell σ a ⟨(σ.mem a).revision, (σ.mem ca).value,
      concatB (σ.mem a).pref (σ.mem ca).pref, (σ.mem ca).edges⟩ := by
  unfold mergeChildH
  dsimp only
  rw [h]

theorem deleteH_zero (rv : Nat) (σ : Store V) (isRoot : Bool) (a : Nat)
    (s : List Nat) : deleteH rv 0 σ isRoot a s = none := rfl

theorem deleteH_nil_none {rv fuel : Nat} {σ : Store V} {isRoot : Bool}
    {a : Nat} (hval : (σ.mem a).value = none) :
    deleteH rv (fuel + 1) σ isRoot a [] = some (σ, none) := by
  rw [deleteH.eq_def]
  dsimp only
  rw [hval]

theorem deleteH_nil_some {rv fuel : Nat} {σ : Store V} {isRoot : Bool}
    {a : Nat} {old : V} (hval : (σ.mem a).value = some old)
    {σ1 : Store V} {ac : Nat} (hw : writeNodeH rv σ a = (σ1, ac)) :
    deleteH rv (fuel + 1) σ isRoot a [] =
      (let σ2 := setCell σ1 ac ⟨(σ1.mem ac).revision, none, (σ1.mem ac).pref,
        (σ1.mem ac).edges⟩
       if !isRoot && (σ2.mem ac).edges.length == 1 then
         some (mergeChildH σ2 ac, some (ac, old))
       else some (σ2, some (ac, old))) := by
  rw [deleteH.eq_def]
  dsimp only
  rw [hval]
  dsimp only
  rw [hw]

theorem deleteH_cons_noedge {rv fuel : Nat} {σ : Store V} {isRoot : Bool}
    {a b : Nat} {t : List Nat}
    (hg : getEdgeH (σ.mem a).edges b = none) :
    deleteH rv (fuel + 1) σ isRoot a (b :: t) = some (σ, none) := by
  rw [deleteH.eq_def]
  dsimp only
  rw [hg]

theorem deleteH_cons_nopref {rv fuel : Nat} {σ : Store V} {isRoot : Bool}
    {a b idx child : Nat} {t : List Nat}
    (hg : getEdgeH (σ.mem a).edges b = some (idx, child))
    (hp : ¬ hasPref (b :: t) ((σ.mem child).pref) = true) :
    deleteH rv (fuel + 1) σ isRoot a (b :: t) = some (σ, none) := by
  rw [deleteH.eq_def]
  dsimp only
  rw [hg]
  dsimp only
  rw [if_neg hp]

theorem deleteH_cons_rec {rv fuel : Nat} {σ : Store V} {isRoot : Bool}
    {a b idx child : Nat} {t : List Nat}
    (hg : getEdgeH (σ.mem a).edges b = some (idx, child))
    (hp : hasPref (b :: t) ((σ.mem child).pref) = true) :
    deleteH rv (fuel + 1) σ isRoot a (b :: t) =
      (match deleteH rv fuel σ false child
          ((b :: t).drop ((σ.mem child).pref).length) with
       | none => none
       | some (σ2, none) => some (σ2, none)
       | some (σ2, some (child2, old)) =>
         let w := writeNodeH rv σ2 a
         let cc := w.1.mem child2
         if cc.value.isNone && cc.edges.isEmpty then
           let σ4 := setCell w.1 w.2 ⟨(w.1.mem w.2).revision,
             (w.1.mem w.2).value, (w.1.mem w.2).pref,
             delEdgeH (w.1.mem w.2).edges b⟩
           if !isRoot && (σ4.mem w.2).edges.length == 1 &&
               (σ4.mem w.2).value.isNone then
             some (mergeChildH σ4 w.2, some (w.2, old))
           else some (σ4, some (w.2, old))
         else
           some (setCell w.1 w.2 ⟨(w.1.mem w.2).revision,
             (w.1.mem w.2).value, (w.1.mem w.2).pref,
             (w.1.mem w.2).edges.set idx (b, child2)⟩,
             some (w.2, old))) := by
  rw [deleteH.eq_def]
  dsimp only
  rw [hg]
  dsimp only
  rw [if_pos hp]

theorem Repr.flab {σ : Store V} {a : Nat} {n : Node V} (h : Repr σ a n) :
    (σ.mem a).edges.map Prod.fst = n.edges.map Prod.fst := by
  cases h with
  | mk hval hpref hrev hlab hch => exact hlab

theorem Repr.flen {σ : Store V} {a : Nat} {n : Node V} (h : Repr σ a n) :
    (σ.mem a).edges.length = n.edges.length := by
  have := congrArg List.length h.flab
  simpa using this

theorem below_node {σ : Store V} {m a : Nat} (ha : a < m)
    (hch : ∀ e ∈ (σ.mem a).edges, Below σ m e.2) : Below σ m a := by
  refine Below.mk ha ?_
  intro i h1
  exact hch _ (List.get_mem _ _ _)

/-- Postcondition of the heap `delete`: it mirrors the pure `txDelete` —
no-change runs return the store unchanged, removing runs return the removed
value, a fresh root representing the pure result, untouched old cells and a
bounded reachable set. -/
def DelPost (rv fuel : Nat) (σ : Store V) (isRoot : Bool) (a : Nat)
    (n : Node V) (s : List Nat) : Prop :=
  match txDelete rv isRoot n s with
  | none => deleteH rv fuel σ isRoot a s = some (σ, none)
  | some (n', old) =>
    ∃ σ' a', deleteH rv fuel σ isRoot a s = some (σ', some (a', old)) ∧
      Repr σ' a' n' ∧ σ.next ≤ σ'.next ∧
      (∀ x, x < σ.next → σ'.mem x = σ.mem x) ∧ Below σ' σ'.next a'

theorem deleteH_sim_nil {rv fuel : Nat} {σ : Store V} {isRoot : Bool}
    {a : Nat} {n : Node V}
    (hprot : Protected σ rv a) (hrepr : Repr σ a n) :
    DelPost rv (fuel + 1) σ isRoot a n [] := by
  unfold DelPost
  cases hv : n.value with
  | none =>
    rw [txDelete_nil_none hv]
    exact deleteH_nil_none (by rw [hrepr.fval]; exact hv)
  | some old =>
    rw [txDelete_nil_some hv]
    dsimp only
    have hrev := hprot.nrev
    have hnrev : n.revision ≠ rv := by rw [← hrepr.frev]; exact hrev
    have her := Repr.erel hrepr
    have hw : writeNodeH rv σ a =
        ((alloc σ ⟨rv, (σ.mem a).value, (σ.mem a).pref, (σ.mem a).edges⟩).1,
          σ.next) := writeNodeH_not_owned hrev
    have hins := @deleteH_nil_some V rv fuel σ isRoot a old
      (by rw [hrepr.fval]; exact hv) _ _ hw
    dsimp only at hins
    simp only [alloc_mem_self] at hins
    rw [setCell_mem_self] at hins
    dsimp only at hins
    rw [hrepr.flen] at hins
    simp only [Node.setValue_edges, writeNode_edges]
    have hfr : ∀ x, x < σ.next →
        (setCell (alloc σ ⟨rv, (σ.mem a).value, (σ.mem a).pref,
            (σ.mem a).edges⟩).1 σ.next
          ⟨rv, none, (σ.mem a).pref, (σ.mem a).edges⟩).mem x = σ.mem x := by
      intro x hx
      rw [setCell_mem_ne _ _ (by omega), alloc_mem_ne _ _ (by omega)]
    by_cases hc : (!isRoot && n.edges.length == 1) = true
    · rw [if_pos hc] at hins ⊢
      -- the cleared node has a single child: it is merged with it
      cases hes : (σ.mem a).edges with
      | nil =>
        exfalso
        have h1 : n.edges.length = 1 := by
          have := (Bool.and_eq_true _ _).mp hc
          simpa using this.2
        have h0 := hrepr.flen
        rw [hes] at h0
        simp at h0
        omega
      | cons e0 es0 =>
        obtain ⟨la, ca⟩ := e0
        have hmem0 : (la, ca) ∈ (σ.mem a).edges := by
          rw [hes]
          exact List.mem_cons_self _ _
        have hpca : Protected σ rv ca := hprot.memChildP hmem0
        have hca := hpca.lt
        rw [hes] at her
        obtain ⟨f, fs, hnfs, hlab1, hreprca, _⟩ := erel_cons_inv her
        obtain ⟨fl, fc⟩ := f
        have heq := mergeChildH_cons (σ := (setCell (alloc σ ⟨rv,
            (σ.mem a).value, (σ.mem a).pref, (σ.mem a).edges⟩).1 σ.next
            ⟨rv, none, (σ.mem a).pref, (σ.mem a).edges⟩))
          (show _ = (la, ca) :: es0 by rw [setCell_mem_self]; exact hes)
        rw [setCell_mem_self] at heq
        have hca2 : (setCell (alloc σ ⟨rv, (σ.mem a).value, (σ.mem a).pref,
            (σ.mem a).edges⟩).1 σ.next
            ⟨rv, none, (σ.mem a).pref, (σ.mem a).edges⟩).mem ca =
            σ.mem ca := hfr ca hca
        rw [hca2] at heq
        dsimp only at heq
        rw [heq] at hins
        rw [mergeChild_eq (show ((writeNode rv n).setValue none).edges =
          (fl, fc) :: fs by rw [Node.setValue_edges, writeNode_edges, hnfs])]
        refine ⟨_, σ.next, hins, ?_, ?_, ?_, ?_⟩
        · refine Repr_of_erel ?_ ?_ ?_ ?_ <;> rw [setCell_mem_self]
          · simp only [Node.value_mk]
            exact hreprca.fval
          · simp only [Node.pref_mk, Node.setValue_pref, writeNode_pref]
            rw [hrepr.fpref, hreprca.fpref]
          · simp only [Node.revision_mk, setValue_rev,
              writeNode_rev_not_owned hnrev]
          · simp only [Node.edges_mk]
            refine erel_transport ?_ hpca.mem_below (Repr.erel hreprca)
            intro x hx
            rw [setCell_mem_ne _ _ (by omega)]
            exact hfr x hx
        · show σ.next ≤ σ.next + 1
          omega
        · intro x hx
          rw [setCell_mem_ne _ _ (by omega)]
          exact hfr x hx
        · refine below_node (show σ.next < σ.next + 1 by omega) ?_
          intro e2 he2
          rw [setCell_mem_self] at he2
          refine Below_transport (m := σ.next) ?_
            (show σ.next ≤ σ.next + 1 by omega) (hpca.mem_below e2 he2)
          intro x hx
          rw [setCell_mem_ne _ _ (by omega)]
          exact hfr x hx
    · rw [if_neg hc] at hins ⊢
      refine ⟨_, σ.next, hins, ?_, ?_, hfr, ?_⟩
      · refine Repr_of_erel ?_ ?_ ?_ ?_ <;> rw [setCell_mem_self]
        · simp
        · simp only [Node.setValue_pref, writeNode_pref]
          exact hrepr.fpref
        · simp only [setValue_rev, writeNode_rev_not_owned hnrev]
        · simp only [Node.setValue_edges, writeNode_edges]
          exact erel_transport hfr hprot.mem_below her
      · show σ.next ≤ σ.next + 1
        omega
      · refine below_node (show σ.next < σ.next + 1 by omega) ?_
        intro e he
        rw [setCell_mem_self] at he
        exact Below_transport (fun x hx => hfr x hx)
          (show σ.next ≤ σ.next + 1 by omega) (hprot.mem_below e he)

theorem Below.ltBound {σ : Store V} {m a : Nat} (h : Below σ m a) : a < m := by
  cases h with
  | mk hlt hch => exact hlt

theorem deleteH_sim_rec {rv fuel : Nat} {σ : Store V} {isRoot : Bool}
    {a b idx child : Nat} {t : List Nat} {n cpure : Node V}
    (hprot : Protected σ rv a) (hrepr : Repr σ a n)
    (hg0 : getEdgeH (σ.mem a).edges b = some (idx, child))
    (hgp : n.getEdge b = some (idx, cpure))
    (hreprc : Repr σ child cpure)
    (hhp : hasPref (b :: t) cpure.pref = true)
    (ihrec : DelPost rv fuel σ false child cpure
      ((b :: t).drop cpure.pref.length)) :
    DelPost rv (fuel + 1) σ isRoot a n (b :: t) := by
  have hrev := hprot.nrev
  have hnrev : n.revision ≠ rv := by rw [← hrepr.frev]; exact hrev
  have her := Repr.erel hrepr
  have hgnc : (writeNode rv n).getEdge b = some (idx, cpure) := by
    rw [getEdge_writeNode]
    exact hgp
  have hhpH : hasPref (b :: t) ((σ.mem child).pref) = true := by
    rw [hreprc.fpref]
    exact hhp
  have hinsEq := @deleteH_cons_rec V rv fuel σ isRoot a b idx child t hg0 hhpH
  dsimp only at hinsEq
  rw [hreprc.fpref] at hinsEq
  unfold DelPost at ihrec ⊢
  rw [txDelete_cons_rec hgp hhp]
  cases hrec : txDelete rv false cpure ((b :: t).drop cpure.pref.length) with
  | none =>
    rw [hrec] at ihrec
    dsimp only at ihrec ⊢
    rw [hinsEq, ihrec]
  | some pr =>
    obtain ⟨n', old⟩ := pr
    rw [hrec] at ihrec
    dsimp only at ihrec ⊢
    obtain ⟨σ2, child2, hrecH, hrepr2, hnext2, hfr2, hbel2⟩ := ihrec
    have hlt2 : child2 < σ2.next := hbel2.ltBound
    have hmema : σ2.mem a = σ.mem a := hfr2 a hprot.lt
    have hwa : writeNodeH rv σ2 a =
        ((alloc σ2 ⟨rv, (σ.mem a).value, (σ.mem a).pref,
          (σ.mem a).edges⟩).1, σ2.next) := by
      rw [writeNodeH_not_owned (by rw [hmema]; exact hprot.nrev), hmema]
      rfl
    have halc2 : (alloc σ2 ⟨rv, (σ.mem a).value, (σ.mem a).pref,
        (σ.mem a).edges⟩).1.mem child2 = σ2.mem child2 :=
      alloc_mem_ne _ _ (by omega)
    have hfr3 : ∀ x, x < σ.next →
        (alloc σ2 ⟨rv, (σ.mem a).value, (σ.mem a).pref,
          (σ.mem a).edges⟩).1.mem x = σ.mem x := by
      intro x hx
      rw [alloc_mem_ne _ _ (by omega)]
      exact hfr2 x (by omega)
    have hstep : deleteH rv (fuel + 1) σ isRoot a (b :: t) =
        (if (σ2.mem child2).value.isNone && (σ2.mem child2).edges.isEmpty then
          (let σ4 := setCell (alloc σ2 ⟨rv, (σ.mem a).value, (σ.mem a).pref,
              (σ.mem a).edges⟩).1 σ2.next ⟨rv, (σ.mem a).value,
              (σ.mem a).pref, delEdgeH (σ.mem a).edges b⟩
           if !isRoot && (σ4.mem σ2.next).edges.length == 1 &&
               (σ4.mem σ2.next).value.isNone then
             some (mergeChildH σ4 σ2.next, some (σ2.next, old))
           else some (σ4, some (σ2.next, old)))
        else
          some (setCell (alloc σ2 ⟨rv, (σ.mem a).value, (σ.mem a).pref,
              (σ.mem a).edges⟩).1 σ2.next ⟨rv, (σ.mem a).value,
              (σ.mem a).pref, (σ.mem a).edges.set idx (b, child2)⟩,
            some (σ2.next, old))) := by
      rw [hinsEq, hrecH]
      dsimp only
      rw [hwa]
      dsimp only
      rw [halc2]
      simp only [alloc_mem_self]
    have hcond : ((σ2.mem child2).value.isNone &&
        (σ2.mem child2).edges.isEmpty) =
        (n'.value.isNone && n'.edges.isEmpty) := by
      rw [hrepr2.fval, isEmpty_eq_of_length hrepr2.flen]
    rw [hcond] at hstep
    dsimp only at hstep
    have her' : ERel σ (σ.mem a).edges (writeNode rv n).edges := by
      rw [writeNode_edges]
      exact her
    by_cases hce : (n'.value.isNone && n'.edges.isEmpty) = true
    · -- the child became empty: its edge is removed from the parent
      rw [if_pos hce] at hstep ⊢
      have hDel := delEdgeH_erel her' b
      have hlenD := erel_length hDel
      have hvalD := (delEdge_fields (writeNode rv n) b).1
      have hcnd2 : (!isRoot &&
          (delEdgeH (σ.mem a).edges b).length == 1 &&
          ((σ.mem a).value).isNone) =
          (!isRoot && ((writeNode rv n).delEdge b).edges.length == 1 &&
          ((writeNode rv n).delEdge b).value.isNone) := by
        rw [hlenD, hvalD, writeNode_value, hrepr.fval]
      rw [setCell_mem_self] at hstep
      dsimp only at hstep
      rw [hcnd2] at hstep
      have hb4 : ∀ e ∈ delEdgeH (σ.mem a).edges b, Below σ σ.next e.2 :=
        fun e he => hprot.mem_below e (mem_delEdgeH he)
      have hp4 : ∀ e ∈ delEdgeH (σ.mem a).edges b, Protected σ rv e.2 :=
        fun e he => hprot.memChildP (mem_delEdgeH he)
      by_cases hmc : (!isRoot && ((writeNode rv n).delEdge b).edges.length
          == 1 && ((writeNode rv n).delEdge b).value.isNone) = true
      · -- the parent is left with a single edge and no value: merge it
        rw [if_pos hmc] at hstep ⊢
        have hlen1 : ((writeNode rv n).delEdge b).edges.length = 1 := by
          have h1 := (Bool.and_eq_true _ _).mp hmc
          have h2 := (Bool.and_eq_true _ _).mp h1.1
          simpa using h2.2
        cases hes2 : delEdgeH (σ.mem a).edges b with
        | nil =>
          exfalso
          rw [hes2] at hlenD
          simp at hlenD
          omega
        | cons e0 es0 =>
          obtain ⟨la, ca⟩ := e0
          have hmem0 : (la, ca) ∈ (σ.mem a).edges :=
            @mem_delEdgeH (σ.mem a).edges b (la, ca)
              (by rw [hes2]; exact List.mem_cons_self _ _)
          have hpca : Protected σ rv ca := hprot.memChildP hmem0
          have hca := hpca.lt
          rw [hes2] at hDel
          obtain ⟨f, fs, hnfs, hlab1, hreprca, _⟩ := erel_cons_inv hDel
          obtain ⟨fl, fc⟩ := f
          have hfr4 : ∀ x, x < σ.next →
              (setCell (alloc σ2 ⟨rv, (σ.mem a).value, (σ.mem a).pref,
                (σ.mem a).edges⟩).1 σ2.next ⟨rv, (σ.mem a).value,
                (σ.mem a).pref, delEdgeH (σ.mem a).edges b⟩).mem x =
              σ.mem x := by
            intro x hx
            rw [setCell_mem_ne _ _ (by omega)]
            exact hfr3 x hx
          have heq := mergeChildH_cons (σ := setCell (alloc σ2 ⟨rv,
              (σ.mem a).value, (σ.mem a).pref, (σ.mem a).edges⟩).1 σ2.next
              ⟨rv, (σ.mem a).value, (σ.mem a).pref,
                delEdgeH (σ.mem a).edges b⟩)
            (show _ = (la, ca) :: es0 by rw [setCell_mem_self]; exact hes2)
          rw [setCell_mem_self] at heq
          rw [hfr4 ca hca] at heq
          dsimp only at heq
          rw [heq] at hstep
          rw [mergeChild_eq (show ((writeNode rv n).delEdge b).edges =
            (fl, fc) :: fs from hnfs)]
          refine ⟨_, σ2.next, hstep, ?_,
            (by simp only [setCell_next, alloc_next]; omega), ?_, ?_⟩
          · refine Repr_of_erel ?_ ?_ ?_ ?_ <;> rw [setCell_mem_self]
            · simp only [Node.value_mk]
              exact hreprca.fval
            · simp only [Node.pref_mk, (delEdge_fields _ _).2.1,
                writeNode_pref]
              rw [hrepr.fpref, hreprca.fpref]
            · simp only [Node.revision_mk, (delEdge_fields _ _).2.2,
                writeNode_rev_not_owned hnrev]
            · simp only [Node.edges_mk]
              refine erel_transport ?_ hpca.mem_below (Repr.erel hreprca)
              intro x hx
              rw [setCell_mem_ne _ _ (by omega)]
              exact hfr4 x hx
          · intro x hx
            rw [setCell_mem_ne _ _ (by omega)]
            exact hfr4 x hx
          · refine below_node
              (by simp only [setCell_next, alloc_next]; omega) ?_
            intro e2 he2
            rw [setCell_mem_self] at he2
            refine Below_transport (m := σ.next) ?_
              (by simp only [setCell_next, alloc_next]; omega)
              (hpca.mem_below e2 he2)
            intro x hx
            rw [setCell_mem_ne _ _ (by omega)]
            exact hfr4 x hx
      · rw [if_neg hmc] at hstep ⊢
        refine ⟨_, σ2.next, hstep, ?_,
          (by simp only [setCell_next, alloc_next]; omega), ?_, ?_⟩
        · refine Repr_of_erel ?_ ?_ ?_ ?_ <;> rw [setCell_mem_self]
          · simp only [(delEdge_fields _ _).1, writeNode_value]
            exact hrepr.fval
          · simp only [(delEdge_fields _ _).2.1, writeNode_pref]
            exact hrepr.fpref
          · simp only [(delEdge_fields _ _).2.2,
              writeNode_rev_not_owned hnrev]
          · refine erel_transport ?_ hb4 hDel
            intro x hx
            rw [setCell_mem_ne _ _ (by omega)]
            exact hfr3 x hx
        · intro x hx
          rw [setCell_mem_ne _ _ (by omega)]
          exact hfr3 x hx
        · refine below_node
            (by simp only [setCell_next, alloc_next]; omega) ?_
          intro e2 he2
          rw [setCell_mem_self] at he2
          refine Below_transport (m := σ.next) ?_
            (by simp only [setCell_next, alloc_next]; omega)
            (hb4 e2 he2)
          intro x hx
          rw [setCell_mem_ne _ _ (by omega)]
          exact hfr3 x hx
    · -- the child still lives: hook the new child into the parent's slot
      rw [if_neg hce] at hstep ⊢
      rw [setEdgeNode_of_getEdge hgnc]
      refine ⟨_, σ2.next, hstep, ?_,
        (by simp only [setCell_next, alloc_next]; omega), ?_, ?_⟩
      · refine Repr_of_erel ?_ ?_ ?_ ?_ <;> rw [setCell_mem_self]
        · simp only [Node.value_mk, writeNode_value]
          exact hrepr.fval
        · simp only [Node.pref_mk, writeNode_pref]
          exact hrepr.fpref
        · simp only [Node.revision_mk, writeNode_rev_not_owned hnrev]
        · simp only [Node.edges_mk, writeNode_edges]
          refine erel_set ?_ idx rfl ?_
          · refine erel_transport ?_ hprot.mem_below her
            intro x hx
            rw [setCell_mem_ne _ _ (by omega)]
            exact hfr3 x hx
          · refine Repr_transport (m := σ2.next) ?_ hbel2 hrepr2
            intro x hx
            rw [setCell_mem_ne _ _ (by omega), alloc_mem_ne _ _ (by omega)]
      · intro x hx
        rw [setCell_mem_ne _ _ (by omega)]
        exact hfr3 x hx
      · refine below_node
          (by simp only [setCell_next, alloc_next]; omega) ?_
        intro e2 he2
        rw [setCell_mem_self] at he2
        rcases List.mem_or_eq_of_mem_set he2 with he3 | rfl
        · refine Below_transport (m := σ.next) ?_
            (by simp only [setCell_next, alloc_next]; omega)
            (hprot.mem_below _ he3)
          intro x hx
          rw [setCell_mem_ne _ _ (by omega)]
          exact hfr3 x hx
        · refine Below_transport (m := σ2.next) ?_
            (by simp only [setCell_next, alloc_next]; omega) hbel2
          intro x hx
          rw [setCell_mem_ne _ _ (by omega), alloc_mem_ne _ _ (by omega)]

/-- Simulation of the heap `delete` by the pure `txDelete`: on a protected,
represented, well-formed tree the heap run with fuel `|key| + 1` succeeds and
mirrors the pure result; a no-change run leaves the store untouched. -/
theorem deleteH_sim {rv : Nat} (fuel : Nat) :
    ∀ (s : List Nat) (σ : Store V) (isRoot : Bool) (a : Nat) (n : Node V),
      s.length < fuel →
      Protected σ rv a → Repr σ a n → WfN n →
      DelPost rv fuel σ isRoot a n s := by
  induction fuel with
  | zero =>
    intro s σ isRoot a n hfuel
    exact absurd hfuel (Nat.not_lt_zero _)
  | succ fuel ih =>
    intro s σ isRoot a n hfuel hprot hrepr hwf
    cases s with
    | nil => exact deleteH_sim_nil hprot hrepr
    | cons b t =>
      have her := Repr.erel hrepr
      cases hg0 : getEdgeH (σ.mem a).edges b with
      | none =>
        unfold DelPost
        rw [txDelete_cons_noedge ((getEdgeH_bridge her b).1 hg0)]
        exact deleteH_cons_noedge hg0
      | some ic =>
        obtain ⟨idx, child⟩ := ic
        obtain ⟨cpure, hgp, hreprc⟩ := (getEdgeH_bridge her b).2 idx child hg0
        by_cases hhp : hasPref (b :: t) cpure.pref = true
        · obtain ⟨hlen0, hget0⟩ := (getEdgeH_inv hg0).2
          have hpc : Protected σ rv child := by
            have := hprot.childAt idx hlen0
            rwa [hget0] at this
          have hmemP : (b, cpure) ∈ n.edges := Node.getEdge_mem hgp
          have hwfc : WfN cpure := hwf.child b cpure hmemP
          have hpos : 0 < cpure.pref.length :=
            pref_pos_of_head (hwf.head b cpure hmemP)
          have hfuel2 : ((b :: t).drop cpure.pref.length).length < fuel := by
            rw [List.length_drop]
            simp only [List.length_cons] at hfuel ⊢
            omega
          exact deleteH_sim_rec hprot hrepr hg0 hgp hreprc hhp
            (ih _ σ false child cpure hfuel2 hpc hreprc hwfc)
        · unfold DelPost
          rw [txDelete_cons_nopref hgp hhp]
          exact deleteH_cons_nopref hg0 (by rw [hreprc.fpref]; exact hhp)

/-- One operation of a post-clone transaction on the heap: success, pure
correspondence, strong frame, and a bounded reachable set. -/
theorem applyOpH_sim {rv : Nat} {σ : Store V} {r : Nat} {n : Node V}
    (op : Op V)
    (hprot : Protected σ rv r) (hrepr : Repr σ r n) (hwf : WfRoot n) :
    ∃ σ' a', applyOpH rv σ r op = some (σ', a') ∧
      Repr σ' a' (applyOp (⟨rv, n⟩ : Txn V) op).root ∧
      σ.next ≤ σ'.next ∧
      (∀ x, x < σ.next → σ'.mem x = σ.mem x) ∧ Below σ' σ'.next a' := by
  cases op with
  | ins k v =>
    have h := insertH_sim (k.length + 1) k σ r σ.next n v (by omega)
      hprot hrepr hwf.1 hprot.toBelow (le_refl _)
    unfold InsPost at h
    obtain ⟨σ', heq, hrep, hlt, hfr, hbs⟩ := h
    refine ⟨σ', σ.next, ?_, ?_, by omega, hfr, hbs.intoBelow (by omega)⟩
    · simp only [applyOpH]
      rw [heq]
    · exact hrep
  | del k =>
    have h := deleteH_sim (k.length + 1) k σ true r n (by omega)
      hprot hrepr hwf.1
    unfold DelPost at h
    cases hd : txDelete rv true n k with
    | none =>
      rw [hd] at h
      dsimp only at h
      refine ⟨σ, r, ?_, ?_, le_refl _, fun x hx => rfl, hprot.toBelow⟩
      · simp only [applyOpH]
        rw [h]
      · have hroot : (applyOp (⟨rv, n⟩ : Txn V) (Op.del k)).root = n := by
          show ((⟨rv, n⟩ : Txn V).delete k).1.root = n
          unfold Txn.delete
          dsimp only
          rw [hd]
        rw [hroot]
        exact hrepr
    | some pr =>
      obtain ⟨n', old⟩ := pr
      rw [hd] at h
      dsimp only at h
      obtain ⟨σ', a', heq, hrep, hle, hfr, hbel⟩ := h
      refine ⟨σ', a', ?_, ?_, hle, hfr, hbel⟩
      · simp only [applyOpH]
        rw [heq]
      · have hroot : (applyOp (⟨rv, n⟩ : Txn V) (Op.del k)).root = n' := by
          show ((⟨rv, n⟩ : Txn V).delete k).1.root = n'
          unfold Txn.delete
          dsimp only
          rw [hd]
        rw [hroot]
        exact hrep

/-- C8: clone isolation.  `Txn.Clone` bumps the revision and hands the
original and the clone the same new revision stamp over the physically
shared root.  No shared pre-clone node carries that stamp (`Protected`), so
each transaction's `writeNode` only copies shared structure; running t1's
mutation and then t2's mutation over the same heap yields two roots, each
representing exactly its own pure mutation applied to the shared snapshot —
the mutations are mutually invisible. -/
theorem c8_clone_isolation {σ : Store V} {r rv : Nat} {n : Node V}
    (op1 op2 : Op V)
    (hprot : Protected σ rv r) (hrepr : Repr σ r n) (hwf : WfRoot n) :
    ∃ σ1 a1 σ2 a2,
      applyOpH rv σ r op1 = some (σ1, a1) ∧
      applyOpH rv σ1 r op2 = some (σ2, a2) ∧
      Repr σ2 a1 (applyOp (⟨rv, n⟩ : Txn V) op1).root ∧
      Repr σ2 a2 (applyOp (⟨rv, n⟩ : Txn V) op2).root := by
  obtain ⟨σ1, a1, h1, hr1, hn1, hf1, hb1⟩ := applyOpH_sim op1 hprot hrepr hwf
  have hprot1 : Protected σ1 rv r := Protected_transport_below hf1 hn1 hprot
  have hrepr1 : Repr σ1 r n := Repr_transport hf1 hprot.toBelow hrepr
  obtain ⟨σ2, a2, h2, hr2, hn2, hf2, hb2⟩ :=
    applyOpH_sim op2 hprot1 hrepr1 hwf
  exact ⟨σ1, a1, σ2, a2, h1, h2, Repr_transport hf2 hb1 hr1, hr2⟩

def c8cell : Cell Nat := ⟨0, none, [], []⟩

def c8store : Store Nat := ⟨1, fun _ => c8cell⟩

theorem c8_protected_w : Protected c8store 1 0 :=
  Protected.mk (by decide) (by decide)
    (fun i h1 => absurd h1 (by simp [c8store, c8cell]))

theorem c8_repr_w : Repr c8store 0 (emptyNode : Node Nat) :=
  Repr.mk rfl rfl rfl rfl
    (fun i h1 h2 => absurd h1 (by simp [c8store, c8cell]))

theorem c8_clone_isolation_witness :
    Protected c8store 1 0 ∧ Repr c8store 0 (emptyNode : Node Nat) ∧
    WfRoot (emptyNode : Node Nat) ∧
    ∃ σ1 a1 σ2 a2,
      applyOpH 1 c8store 0 (Op.ins [2] 7) = some (σ1, a1) ∧
      applyOpH 1 σ1 0 (Op.ins [3] 9) = some (σ2, a2) ∧
      Repr σ2 a1 (applyOp (⟨1, emptyNode⟩ : Txn Nat) (Op.ins [2] 7)).root ∧
      Repr σ2 a2 (applyOp (⟨1, emptyNode⟩ : Txn Nat) (Op.ins [3] 9)).root :=
  ⟨c8_protected_w, c8_repr_w, wfRoot_empty,
    c8_clone_isolation (Op.ins [2] 7) (Op.ins [3] 9)
      c8_protected_w c8_repr_w wfRoot_empty⟩

/-! ## C7: the slice-level model of `Insert`

The Go code stores `prefix: search` and `prefix: search[:commonPrefix]`
when creating nodes: these copy the slice *header*, not the bytes, so the
stored prefixes alias the caller's key buffer.  To reason about aliasing
the tree is modelled with prefixes kept as slice headers over a buffer
environment; resolving a tree under an environment yields the value-model
tree it denotes. -/

/-- A Go byte-slice header: buffer identity, offset and length. -/
structure SliceB : Type where
  buf : Nat
  off : Nat
  len : Nat

/-- The bytes a slice denotes under a buffer environment. -/
def readS (env : Nat → List Nat) (s : SliceB) : List Nat :=
  ((env s.buf).drop s.off).take s.len

/-- Go `s[k:]`: the same buffer, advanced. -/
def sliceDrop (s : SliceB) (k : Nat) : SliceB := ⟨s.buf, s.off + k, s.len - k⟩

/-- Go `s[:k]`: the same buffer, truncated. -/
def sliceTake (s : SliceB) (k : Nat) : SliceB := ⟨s.buf, s.off, min k s.len⟩

/-- `Node` with `prefix` kept as a slice header instead of resolved bytes:
the representation that distinguishes aliasing from copying. -/
inductive NodeS (V : Type) : Type where
  | mk (revision : Nat) (value : Option V) (pref : SliceB)
      (edges : List (Nat × NodeS V)) : NodeS V

def revisionS : NodeS V → Nat
  | .mk r _ _ _ => r

def valueS : NodeS V → Option V
  | .mk _ v _ _ => v

def prefS : NodeS V → SliceB
  | .mk _ _ p _ => p

def edgesS : NodeS V → List (Nat × NodeS V)
  | .mk _ _ _ es => es

def emptyNodeS {V : Type} : NodeS V := .mk 0 none ⟨0, 0, 0⟩ []

theorem NodeS.sizeOf_childS_lt {l : Nat} {c : NodeS V} {n : NodeS V}
    (h : (l, c) ∈ edgesS n) : sizeOf c < sizeOf n := by
  cases n with
  | mk r v p es =>
    have h2 : (l, c) ∈ es := h
    have h1 : sizeOf (l, c) < sizeOf es := List.sizeOf_lt_of_mem h2
    simp only [NodeS.mk.sizeOf_spec]
    simp only [Prod.mk.sizeOf_spec] at h1
    omega

def labAtS (es : List (Nat × NodeS V)) (m : Nat) : Nat :=
  ((es.getD m (0, emptyNodeS))).fst

def searchAuxS (es : List (Nat × NodeS V)) (label : Nat) (i j : Nat) : Nat :=
  if h : i < j then
    let m := (i + j) / 2
    if labAtS es m < label then searchAuxS es label (m + 1) j
    else searchAuxS es label i m
  else i
  termination_by j - i
  decreasing_by
    · omega
    · omega

def searchES (es : List (Nat × NodeS V)) (label : Nat) : Nat :=
  searchAuxS es label 0 es.length

def getEdgeS (n : NodeS V) (label : Nat) : Option (Nat × NodeS V) :=
  let es := edgesS n
  let idx := searchES es label
  if h : idx < es.length then
    if (es.get ⟨idx, h⟩).fst = label then some (idx, (es.get ⟨idx, h⟩).snd)
    else none
  else none

def addEdgeS (n : NodeS V) (e : Nat × NodeS V) : NodeS V :=
  let idx := searchES (edgesS n) e.fst
  NodeS.mk (revisionS n) (valueS n) (prefS n)
    ((edgesS n).take idx ++ e :: (edgesS n).drop idx)

def replaceEdgeS (n : NodeS V) (e : Nat × NodeS V) : Option (NodeS V) :=
  let es := edgesS n
  let idx := searchES es e.fst
  if h : idx < es.length then
    if (es.get ⟨idx, h⟩).fst = e.fst then
      some (NodeS.mk (revisionS n) (valueS n) (prefS n) (es.set idx e))
    else none
  else none

def replaceEdgeTS (n : NodeS V) (e : Nat × NodeS V) : NodeS V :=
  (replaceEdgeS n e).getD n

def setEdgeNodeS (n : NodeS V) (idx : Nat) (c : NodeS V) : NodeS V :=
  match (edgesS n).get? idx with
  | some (l, _) => NodeS.mk (revisionS n) (valueS n) (prefS n)
      ((edgesS n).set idx (l, c))
  | none => n

def setValueS (n : NodeS V) (v : Option V) : NodeS V :=
  NodeS.mk (revisionS n) v (prefS n) (edgesS n)

def setPrefS (n : NodeS V) (p : SliceB) : NodeS V :=
  NodeS.mk (revisionS n) (valueS n) p (edgesS n)

def writeNodeS (rv : Nat) (n : NodeS V) : NodeS V :=
  if revisionS n = rv then n
  else NodeS.mk rv (valueS n) (prefS n) (edgesS n)

/-- Go `Txn.Insert` at the slice level, faithful to where the source copies
slice headers: the new leaf stores `prefix: search` (the caller's key
slice), the split node stores `search[:commonPrefix]`, the trimmed child
`child.prefix[commonPrefix:]` and the tail leaf `search[commonPrefix:]`.
Byte comparisons read the buffers through the environment.  `fuel` only
makes the loop total; `|key| + 1` always suffices. -/
def insertS (env : Nat → List Nat) (rv : Nat) :
    Nat → NodeS V → SliceB → V → Option (NodeS V × Option V)
  | 0, _, _, _ => none
  | fuel + 1, n, s, v =>
    let nc := writeNodeS rv n
    match readS env s with
    | [] => some (setValueS nc (some v), valueS nc)
    | b :: _ =>
      match getEdgeS nc b with
      | none => some (addEdgeS nc (b, NodeS.mk rv (some v) s []), none)
      | some (idx, child) =>
        let cp := readS env (prefS child)
        let common := longestPref (readS env s) cp
        if common = cp.length then
          match insertS env rv fuel child (sliceDrop s common) v with
          | none => none
          | some (nr, old) => some (setEdgeNodeS nc idx nr, old)
        else
          let modChild := setPrefS (writeNodeS rv child)
            (sliceDrop (prefS child) common)
          let splitN := addEdgeS (NodeS.mk rv none (sliceTake s common) [])
            (cp.getD common 0, modChild)
          match (readS env s).drop common with
          | [] => some (replaceEdgeTS nc (b, setValueS splitN (some v)), none)
          | b2 :: _ =>
            some (replaceEdgeTS nc
              (b, addEdgeS splitN (b2, NodeS.mk rv (some v)
                (sliceDrop s common) [])), none)

/-- The value-model tree a slice-level tree denotes under an environment. -/
def resolveS (env : Nat → List Nat) (n : NodeS V) : Node V :=
  Node.mk (revisionS n) (valueS n) (readS env (prefS n))
    ((edgesS n).attach.map (fun x =>
      match x with
      | ⟨(l, c), _⟩ => (l, resolveS env c)))
  termination_by sizeOf n
  decreasing_by exact NodeS.sizeOf_childS_lt (by assumption)

/-- The buffers referenced by the prefixes of a slice-level tree. -/
def bufsS (n : NodeS V) : List Nat :=
  (prefS n).buf :: (edgesS n).attach.flatMap (fun x =>
    match x with
    | ⟨(_, c), _⟩ => bufsS c)
  termination_by sizeOf n
  decreasing_by exact NodeS.sizeOf_childS_lt (by assumption)

theorem resolveS_eq (env : Nat → List Nat) (n : NodeS V) :
    resolveS env n = Node.mk (revisionS n) (valueS n) (readS env (prefS n))
      ((edgesS n).map (fun e => (e.1, resolveS env e.2))) := by
  conv_lhs => unfold resolveS
  congr 1
  exact attach_map (edgesS n) (fun e => (e.1, resolveS env e.2))

theorem bufsS_eq (n : NodeS V) :
    bufsS n = (prefS n).buf :: (edgesS n).flatMap (fun e => bufsS e.2) := by
  conv_lhs => unfold bufsS
  congr 1
  exact attach_flatMap (edgesS n) (fun e => bufsS e.2)

theorem searchES_nil {V : Type} (b : Nat) :
    searchES ([] : List (Nat × NodeS V)) b = 0 := by
  unfold searchES searchAuxS
  simp

theorem getEdgeS_no_edges {V : Type} {n : NodeS V} (h : edgesS n = [])
    (b : Nat) : getEdgeS n b = none := by
  unfold getEdgeS
  dsimp only
  rw [h, searchES_nil]
  rfl

theorem addEdgeS_no_edges {V : Type} {n : NodeS V} (h : edgesS n = [])
    (e : Nat × NodeS V) :
    addEdgeS n e = NodeS.mk (revisionS n) (valueS n) (prefS n) [e] := by
  unfold addEdgeS
  dsimp only
  rw [h, searchES_nil]
  rfl

/-- The concrete scenario: the key `[1, 2]` lives in buffer 1; after the
insert the caller overwrites that buffer with `[9, 9]`. -/
def c7env : Nat → List Nat := fun bid => if bid = 1 then [1, 2] else []

def c7env' : Nat → List Nat := fun bid => if bid = 1 then [9, 9] else []

def c7key : SliceB := ⟨1, 0, 2⟩

theorem c7_insert_eval :
    insertS c7env 1 ((readS c7env c7key).length + 1)
        (emptyNodeS : NodeS Nat) c7key 5 =
      some (NodeS.mk 1 none ⟨0, 0, 0⟩ [(1, NodeS.mk 1 (some 5) c7key [])],
        none) := by
  rw [show (readS c7env c7key).length + 1 = 3 from rfl]
  rw [insertS.eq_def]
  dsimp only
  rw [show writeNodeS 1 (emptyNodeS : NodeS Nat) =
    NodeS.mk 1 none ⟨0, 0, 0⟩ [] from rfl]
  rw [show readS c7env c7key = [1, 2] from rfl]
  dsimp only
  rw [getEdgeS_no_edges (n := NodeS.mk 1 none ⟨0, 0, 0⟩ []) rfl 1]
  dsimp only
  rw [addEdgeS_no_edges (n := NodeS.mk 1 none ⟨0, 0, 0⟩ []) rfl]
  rfl

theorem c7_resolved :
    resolveS c7env (NodeS.mk 1 none ⟨0, 0, 0⟩
        [(1, NodeS.mk 1 (some 5) c7key [])]) =
      Node.mk 1 none [] [(1, Node.mk 1 (some 5) [1, 2] [])] := by
  rw [resolveS_eq]
  simp only [revisionS, valueS, prefS, edgesS, List.map_cons, List.map_nil]
  rw [resolveS_eq]
  simp only [revisionS, valueS, prefS, edgesS, List.map_nil]
  rfl

theorem c7_resolved_mut :
    resolveS c7env' (NodeS.mk 1 none ⟨0, 0, 0⟩
        [(1, NodeS.mk 1 (some 5) c7key [])]) =
      Node.mk 1 none [] [(1, Node.mk 1 (some 5) [9, 9] [])] := by
  rw [resolveS_eq]
  simp only [revisionS, valueS, prefS, edgesS, List.map_cons, List.map_nil]
  rw [resolveS_eq]
  simp only [revisionS, valueS, prefS, edgesS, List.map_nil]
  rfl

theorem c7_get_orig :
    (Node.mk 1 none [] [(1, Node.mk (1 : Nat) (some (5 : Nat)) [1, 2]
      [])]).get [1, 2] = some 5 := by
  have hcf : (Node.mk 1 none [] [(1, Node.mk (1 : Nat) (some (5 : Nat))
      [1, 2] [])]).childFor 1 = some (Node.mk 1 (some 5) [1, 2] []) := by
    rw [childFor_single (n := Node.mk 1 none [] [(1, Node.mk (1 : Nat)
      (some (5 : Nat)) [1, 2] [])]) rfl 1]
    simp
  rw [get_cons, hcf]
  dsimp only
  rw [if_pos (by decide)]
  simp

theorem c7_get_mut :
    (Node.mk 1 none [] [(1, Node.mk (1 : Nat) (some (5 : Nat)) [9, 9]
      [])]).get [1, 2] = none := by
  have hcf : (Node.mk 1 none [] [(1, Node.mk (1 : Nat) (some (5 : Nat))
      [9, 9] [])]).childFor 1 = some (Node.mk 1 (some 5) [9, 9] []) := by
    rw [childFor_single (n := Node.mk 1 none [] [(1, Node.mk (1 : Nat)
      (some (5 : Nat)) [9, 9] [])]) rfl 1]
    simp
  rw [get_cons, hcf]
  dsimp only
  rw [if_neg (by decide)]

theorem c7_bufs :
    bufsS (NodeS.mk 1 none ⟨0, 0, 0⟩ [(1, NodeS.mk (1 : Nat)
      (some (5 : Nat)) c7key [])]) = [0, 1] := by
  rw [bufsS_eq]
  simp only [prefS, edgesS, List.flatMap_cons, List.flatMap_nil]
  rw [bufsS_eq]
  simp [prefS, edgesS, c7key]

/-- C7 (amended): `Insert` does NOT copy the caller's key buffer — the new
leaf's `prefix` is the caller's key slice itself, and split nodes store
sub-slices of it, so the key's buffer becomes part of the tree's
representation (`c7key.buf` shows up among the tree's buffers).  Mutating
that buffer after `Insert` returns changes the tree's observable contents:
the inserted key reads back `some 5` under the original buffer and `none`
after the caller overwrites it.  The caller must not mutate the key buffer
after the call. -/
theorem c7_insert_aliases_key_buffer :
    (∀ bid, bid ≠ c7key.buf → c7env' bid = c7env bid) ∧
    ∃ res : NodeS Nat × Option Nat,
      insertS c7env 1 ((readS c7env c7key).length + 1)
          (emptyNodeS : NodeS Nat) c7key 5 = some res ∧
      c7key.buf ∈ bufsS res.1 ∧
      (resolveS c7env res.1).get [1, 2] = some 5 ∧
      (resolveS c7env' res.1).get [1, 2] = none := by
  constructor
  · intro bid hb
    have hb1 : bid ≠ 1 := hb
    show (if bid = 1 then [9, 9] else []) = (if bid = 1 then [1, 2] else [])
    rw [if_neg hb1, if_neg hb1]
  · refine ⟨_, c7_insert_eval, ?_, ?_, ?_⟩
    · rw [c7_bufs]
      simp [c7key]
    · rw [c7_resolved]
      exact c7_get_orig
    · rw [c7_resolved_mut]
      exact c7_get_mut

/-- C7 (counterexample to the frozen claim): the claim asserts that
mutating the key's buffer after `Insert` leaves the tree's observable
contents unchanged; in the concrete run the lookup of the inserted key
flips from `some 5` to `none` when the caller overwrites the buffer,
because the stored prefix aliases it rather than copying the bytes. -/
theorem c7_no_alias_refuted :
    ¬ (∀ res : NodeS Nat × Option Nat,
        insertS c7env 1 ((readS c7env c7key).length + 1)
            (emptyNodeS : NodeS Nat) c7key 5 = some res →
        ∀ q, (resolveS c7env' res.1).get q =
          (resolveS c7env res.1).get q) := by
  intro h
  have h2 := h _ c7_insert_eval [1, 2]
  rw [c7_resolved, c7_resolved_mut, c7_get_orig, c7_get_mut] at h2
  cases h2

end IRadix
